import Mathlib

/-!
SML parser: a shallow embedding of `sml_parser.h` / `sml_parser.cpp`.

The lexer (`SmlLexer`), the SAX parser (`SmlSaxParser`) and the enum registry of the
C++ sources are transcribed as Lean functions, and the properties of the specification
are stated and proved about them.

Conventions of the embedding.

* A C++ `char` is a Lean `Char`, a `std::string` is a `List Char`.  Character
  classification (`std::isspace`, `std::isalpha`, `std::isdigit`, `std::isalnum`) is that of
  the default "C" locale.
* The lexer fields `input_` and `i_` are kept as the not yet consumed suffix `rest` of the
  input together with the index `i_`; `i_ >= input_.size()` is `rest = []`.
* `int` counters (`i_`, `line_`, `col_`) are natural numbers; inputs are assumed shorter than
  `2^31` characters, so no counter overflows.
* The `int` payload of a property value is the 32-bit result of `std::atoi`: the decimal value
  of the literal when it fits, its low 32 bits (after saturation at `LONG_MAX`) otherwise.
* A thrown `SmlParseException` is an error result carrying the message passed to the
  constructor and the span.
* The `SmlHandler` passed to `parse` is the list of the callbacks made so far, in call order.
* Loops and recursion are driven by a fuel argument.  The lexer loops receive the number of
  remaining characters, which is exactly the number of iterations they can make.  The parser
  functions return `Res.timeout` / `Outcome.timeout` when the fuel runs out.
-/

namespace sml

/-! ## Data model (`sml_parser.h`) -/

/-- Token kinds, `enum class TokenType`. -/
inductive TokenType where
  | Ident
  | LBrace
  | RBrace
  | Colon
  | String
  | Int
  | Float
  | Bool
  | LineComment
  | BlockComment
  | Ws
  | Comma
  | Eof
  deriving DecidableEq, Repr

/-- Source position, `struct Span`. -/
structure Span where
  index : Nat
  line : Nat
  col : Nat
  deriving DecidableEq, Repr

/-- Lexed token, `struct Token`; `stop` is the C++ field `end`. -/
structure Token where
  type : TokenType
  text : List Char
  start : Span
  stop : Span
  deriving DecidableEq, Repr

/-- Exception value of `SmlParseException`: the message given to the constructor and the span. -/
structure SmlParseException where
  message : List Char
  span : Span
  deriving DecidableEq, Repr

/-- `FormatMessage`: the text returned by `what()`. -/
def FormatMessage (message : List Char) (span : Span) : List Char :=
  message ++ " at line ".toList ++ (Nat.repr span.line).toList ++ ", col ".toList ++
    (Nat.repr span.col).toList

/-- The `what()` text of an exception. -/
def SmlParseException.what (e : SmlParseException) : List Char :=
  FormatMessage e.message e.span

/-- Property values, `struct PropertyValue`: the active variant with its payload, named after the
factory function that builds it.  An `int` payload is an integer in the range of a 32-bit `int`
(the parser only stores results of `std::atoi`).  A float payload is kept as the literal text `t`
it is computed from, standing for `static_cast<float>(std::atof(t))`. -/
inductive PropertyValue where
  | FromInt (v : Int)
  | FromFloat (text : List Char)
  | FromBool (v : Bool)
  | FromString (v : List Char)
  | FromVec2i (x y : Int)
  | FromVec3i (x y z : Int)
  | FromEnum (v : List Char)
  deriving DecidableEq, Repr

/-- One callback made on the `SmlHandler`. -/
inductive Event where
  | startElement (name : List Char)
  | onProperty (name : List Char) (value : PropertyValue)
  | endElement (name : List Char)
  deriving DecidableEq, Repr

/-! ## Character classes of `<cctype>` in the "C" locale -/

/-- `std::isspace`: space, `\t`, `\n`, `\v`, `\f`, `\r`. -/
def isspace (c : Char) : Bool :=
  c == ' ' || c == '\t' || c == '\n' || c == '\x0b' || c == '\x0c' || c == '\r'

/-- `std::isdigit`: `0`..`9`. -/
def isdigit (c : Char) : Bool :=
  decide ('0'.toNat ≤ c.toNat) && decide (c.toNat ≤ '9'.toNat)

/-- `std::isalpha`: `A`..`Z` and `a`..`z`. -/
def isalpha (c : Char) : Bool :=
  (decide ('A'.toNat ≤ c.toNat) && decide (c.toNat ≤ 'Z'.toNat)) ||
    (decide ('a'.toNat ≤ c.toNat) && decide (c.toNat ≤ 'z'.toNat))

/-- `std::isalnum`. -/
def isalnum (c : Char) : Bool :=
  isalpha c || isdigit c

/-- The character `'\0'`. -/
def NUL : Char := '\x00'

/-! ## Lexer -/

/-- State of `SmlLexer`: `rest` is `input_` from index `i_` on. -/
structure SmlLexer where
  rest : List Char
  i_ : Nat
  line_ : Nat
  col_ : Nat
  deriving DecidableEq, Repr

namespace SmlLexer

/-- Constructor `SmlLexer(input)`. -/
def mk0 (input : List Char) : SmlLexer :=
  { rest := input, i_ := 0, line_ := 1, col_ := 1 }

/-- `peek(offset)`: the character at `i_ + offset`, `'\0'` past the end. -/
def peek (lx : SmlLexer) (offset : Nat) : Char :=
  lx.rest.getD offset NUL

/-- One iteration of the loop of `advance`. -/
def advance1 (lx : SmlLexer) : SmlLexer :=
  match lx.rest with
  | [] => lx
  | c :: r =>
    if c = '\n' then { rest := r, i_ := lx.i_ + 1, line_ := lx.line_ + 1, col_ := 1 }
    else { rest := r, i_ := lx.i_ + 1, line_ := lx.line_, col_ := lx.col_ + 1 }

/-- `advance(n)`. -/
def advance : Nat → SmlLexer → SmlLexer
  | 0, lx => lx
  | n + 1, lx => advance n (advance1 lx)

/-- `spanStart()`, also the expression `Span{i_, line_, col_}`. -/
def spanStart (lx : SmlLexer) : Span :=
  { index := lx.i_, line := lx.line_, col := lx.col_ }

/-- `makeToken(type, start, text)`. -/
def makeToken (lx : SmlLexer) (type : TokenType) (start : Span) (text : List Char) : Token :=
  { type := type, text := text, start := start, stop := lx.spanStart }

/-- The whitespace loop of `next` (lines 119-122). -/
def wsLoop : Nat → SmlLexer → List Char → SmlLexer × List Char
  | 0, lx, text => (lx, text)
  | n + 1, lx, text =>
    if isspace (lx.peek 0) then wsLoop n (lx.advance 1) (text ++ [lx.peek 0])
    else (lx, text)

/-- The line comment loop of `next` (lines 129-132). -/
def lineLoop : Nat → SmlLexer → List Char → SmlLexer × List Char
  | 0, lx, text => (lx, text)
  | n + 1, lx, text =>
    if lx.peek 0 ≠ NUL ∧ lx.peek 0 ≠ '\n' then lineLoop n (lx.advance 1) (text ++ [lx.peek 0])
    else (lx, text)

/-- The block comment loop of `next` (lines 140-151). -/
def blockLoop : Nat → SmlLexer → List Char → SmlLexer × List Char
  | 0, lx, text => (lx, text)
  | n + 1, lx, text =>
    if lx.peek 0 = NUL then (lx, text)
    else if lx.peek 0 = '*' ∧ lx.peek 1 = '/' then (lx.advance 2, text ++ ['*', '/'])
    else blockLoop n (lx.advance 1) (text ++ [lx.peek 0])

/-- The loop of `lexString` (lines 194-204). -/
def stringLoop : Nat → SmlLexer → Char → List Char → Except SmlParseException (SmlLexer × List Char)
  | 0, lx, _, _ => .error ⟨"Unterminated string literal".toList, lx.spanStart⟩
  | n + 1, lx, quote, text =>
    if lx.peek 0 = NUL then .error ⟨"Unterminated string literal".toList, lx.spanStart⟩
    else if lx.peek 0 = quote then .ok (lx.advance 1, text)
    else stringLoop n (lx.advance 1) quote (text ++ [lx.peek 0])

/-- `lexString()`. -/
def lexString (lx : SmlLexer) : Except SmlParseException (Token × SmlLexer) :=
  match stringLoop (lx.advance 1).rest.length (lx.advance 1) (lx.peek 0) [] with
  | .error e => .error e
  | .ok (lx1, text) =>
    .ok ({ type := .String, text := text, start := lx.spanStart, stop := lx1.spanStart }, lx1)

/-- The loop of `lexIdentOrBool` (lines 212-223). -/
def identLoop : Nat → SmlLexer → Bool → List Char → SmlLexer × List Char
  | 0, lx, _, text => (lx, text)
  | n + 1, lx, first, text =>
    if lx.peek 0 = NUL then (lx, text)
    else if !(if first then (isalpha (lx.peek 0) || lx.peek 0 == '_')
              else (isalnum (lx.peek 0) || lx.peek 0 == '_')) then (lx, text)
    else identLoop n (lx.advance 1) false (text ++ [lx.peek 0])

/-- `lexIdentOrBool()`. -/
def lexIdentOrBool (lx : SmlLexer) : Token × SmlLexer :=
  let r := identLoop lx.rest.length lx true []
  if r.2 = "true".toList ∨ r.2 = "false".toList then
    ({ type := .Bool, text := r.2, start := lx.spanStart, stop := r.1.spanStart }, r.1)
  else
    ({ type := .Ident, text := r.2, start := lx.spanStart, stop := r.1.spanStart }, r.1)

/-- The digit loops of `lexNumber` (lines 232-235 and 239-242). -/
def digitLoop : Nat → SmlLexer → List Char → SmlLexer × List Char
  | 0, lx, text => (lx, text)
  | n + 1, lx, text =>
    if isdigit (lx.peek 0) then digitLoop n (lx.advance 1) (text ++ [lx.peek 0])
    else (lx, text)

/-- `lexNumber()`. -/
def lexNumber (lx : SmlLexer) : Token × SmlLexer :=
  let r := digitLoop lx.rest.length lx []
  if r.1.peek 0 = '.' ∧ isdigit (r.1.peek 1) then
    let r2 := digitLoop (r.1.advance 1).rest.length (r.1.advance 1) (r.2 ++ ['.'])
    ({ type := .Float, text := r2.2, start := lx.spanStart, stop := r2.1.spanStart }, r2.1)
  else
    ({ type := .Int, text := r.2, start := lx.spanStart, stop := r.1.spanStart }, r.1)

/-- `next()`: the next token and the lexer state after it, or the exception thrown. -/
def next (lx : SmlLexer) : Except SmlParseException (Token × SmlLexer) :=
  if lx.rest = [] then
    .ok ({ type := .Eof, text := [], start := lx.spanStart, stop := lx.spanStart }, lx)
  else if isspace (lx.peek 0) then
    let r := wsLoop lx.rest.length lx []
    .ok (r.1.makeToken .Ws lx.spanStart r.2, r.1)
  else if lx.peek 0 = '/' ∧ lx.peek 1 = '/' then
    let r := lineLoop lx.rest.length lx []
    .ok (r.1.makeToken .LineComment lx.spanStart r.2, r.1)
  else if lx.peek 0 = '/' ∧ lx.peek 1 = '*' then
    let r := blockLoop (lx.advance 2).rest.length (lx.advance 2) ['/', '*']
    .ok (r.1.makeToken .BlockComment lx.spanStart r.2, r.1)
  else if lx.peek 0 = '{' then
    .ok ((lx.advance 1).makeToken .LBrace lx.spanStart ['{'], lx.advance 1)
  else if lx.peek 0 = '}' then
    .ok ((lx.advance 1).makeToken .RBrace lx.spanStart ['}'], lx.advance 1)
  else if lx.peek 0 = ':' then
    .ok ((lx.advance 1).makeToken .Colon lx.spanStart [':'], lx.advance 1)
  else if lx.peek 0 = ',' then
    .ok ((lx.advance 1).makeToken .Comma lx.spanStart [','], lx.advance 1)
  else if lx.peek 0 = '"' then
    lexString lx
  else if lx.peek 0 = NUL then
    .ok ({ type := .Eof, text := [], start := lx.spanStart, stop := lx.spanStart }, lx)
  else if isalpha (lx.peek 0) || lx.peek 0 == '_' then
    .ok (lexIdentOrBool lx)
  else if isdigit (lx.peek 0) then
    .ok (lexNumber lx)
  else
    .error ⟨"Unexpected character '".toList ++ [lx.peek 0] ++ ['\''], lx.spanStart⟩

end SmlLexer

/-! ### Vocabulary for the lexer properties -/

/-- The position after one more character `c`, as computed by `advance`. -/
def Span.step (s : Span) (c : Char) : Span :=
  if c = '\n' then { index := s.index + 1, line := s.line + 1, col := 1 }
  else { index := s.index + 1, line := s.line, col := s.col + 1 }

/-- The position after the characters `cs`. -/
def Span.over (s : Span) (cs : List Char) : Span :=
  cs.foldl Span.step s

/-- The characters of the input a token was read from: its text, for a `String` token the text
between the two quote characters. -/
def Token.source (t : Token) : List Char :=
  if t.type = .String then '"' :: (t.text ++ ['"']) else t.text

/-- The token `t` is read from the state `lx` and leaves the state `lx'`: some `k` characters
are consumed, they are the source of the token, the token spans them, and only an `Eof` token
consumes nothing. -/
def SmlLexer.Reads (lx : SmlLexer) (t : Token) (lx' : SmlLexer) : Prop :=
  ∃ k, k ≤ lx.rest.length ∧ lx' = SmlLexer.advance k lx ∧ t.source = lx.rest.take k ∧
    t.start = lx.spanStart ∧ t.stop = lx'.spanStart ∧ (t.type = .Eof ↔ k = 0)

/-- The tokens returned by successive calls of `next` before the first `Eof` token, together
with that `Eof` token; `none` when a call throws (or the fuel runs out). -/
def lexAll : Nat → SmlLexer → Option (List Token × Token)
  | 0, _ => none
  | n + 1, lx =>
    match lx.next with
    | .error _ => none
    | .ok r =>
      if r.1.type = .Eof then some ([], r.1)
      else (lexAll n r.2).map fun q => (r.1 :: q.1, q.2)

/-- Tokenisation of what is left of the input: every token but `Eof` consumes at least one
character, so `rest.length + 1` calls reach `Eof`. -/
def SmlLexer.tokens (lx : SmlLexer) : Option (List Token × Token) :=
  lexAll (lx.rest.length + 1) lx

/-- Tokenisation of a whole input text. -/
def tokenize (input : List Char) : Option (List Token × Token) :=
  (SmlLexer.mk0 input).tokens

/-! ## Enum registry -/

/-- The member `enums_`, a `std::map<std::string, std::set<std::string>>`: the set stored under
a key, `none` for a key that is not in the map. -/
abbrev EnumMap := List Char → Option (Finset (List Char))

/-- The empty map of a freshly constructed parser. -/
def EnumMap.empty : EnumMap := fun _ => none

/-- The set `enums_[property]` refers to: `operator[]` value-initialises a missing entry to the
empty set. -/
def EnumMap.index (m : EnumMap) (property : List Char) : Finset (List Char) :=
  (m property).getD ∅

/-- The map after the set under `property` has been replaced by `s`. -/
def EnumMap.store (m : EnumMap) (property : List Char) (s : Finset (List Char)) : EnumMap :=
  fun k => if k = property then some s else m k

/-! ## SAX parser -/

/-- State of `SmlSaxParser`. -/
structure SmlSaxParser where
  lexer_ : SmlLexer
  lookahead_ : Token
  enums_ : EnumMap

/-- Result of a parser step that makes no handler call: a value, a thrown exception, or out of
fuel. -/
inductive Res (α : Type) where
  | ok (a : α)
  | error (e : SmlParseException)
  | timeout

/-- Result of a parser step that makes handler calls: the parser state and the handler log on
normal return, the exception and the handler log at the throw, or out of fuel. -/
inductive Outcome where
  | ok (p : SmlSaxParser) (handler : List Event)
  | error (e : SmlParseException) (handler : List Event)
  | timeout

/-- Sequencing of `Res` steps; an exception propagates. -/
def Res.bind {α β : Type} (r : Res α) (k : α → Res β) : Res β :=
  match r with
  | .ok a => k a
  | .error e => .error e
  | .timeout => .timeout

/-- A `Res` step inside a function that holds the handler log `handler`: an exception leaves
with the log as it is. -/
def Res.on {α : Type} (r : Res α) (handler : List Event) (k : α → Outcome) : Outcome :=
  match r with
  | .ok a => k a
  | .error e => .error e handler
  | .timeout => .timeout

/-- Sequencing of `Outcome` steps; an exception propagates with its log. -/
def Outcome.andThen (o : Outcome) (k : SmlSaxParser → List Event → Outcome) : Outcome :=
  match o with
  | .ok p handler => k p handler
  | .error e handler => .error e handler
  | .timeout => .timeout

/-- The decimal value of the leading digits of a text, continuing from the value `acc` of the
digits already read.  The text of an `Int` token consists of digits only. -/
def atoiLoop : Int → List Char → Int
  | acc, [] => acc
  | acc, c :: cs => if isdigit c then atoiLoop (acc * 10 + ((c.toNat : Int) - 48)) cs else acc

/-- Conversion of a `long` to `int`: the low 32 bits, read as a signed number. -/
def toInt32 (v : Int) : Int :=
  (v + 2147483648) % 4294967296 - 2147483648

/-- `std::atoi(text.c_str())` on the text of an `Int` token, the `int` stored in the property
value.  Within the range of `int` it is the decimal value of the text.  Outside it the C standard
leaves the result undefined; the embedding gives what the C library of the platform (glibc)
computes, `(int) strtol(text, 0, 10)`: `strtol` returns the decimal value as a `long`, `LONG_MAX`
(2^63 - 1) when the value is larger, and the conversion to `int` keeps the low 32 bits. -/
def atoi (text : List Char) : Int :=
  toInt32 (min (atoiLoop 0 text) 9223372036854775807)

/-- The loop condition of `skipIgnorables`. -/
def ignorable (t : TokenType) : Bool :=
  t == .Ws || t == .LineComment || t == .BlockComment

namespace SmlSaxParser

/-- Constructor `SmlSaxParser(text)`: the first token is lexed at once, which can throw. -/
def mk0 (text : List Char) : Res SmlSaxParser :=
  match (SmlLexer.mk0 text).next with
  | .error e => .error e
  | .ok r => .ok { lexer_ := r.2, lookahead_ := r.1, enums_ := EnumMap.empty }

/-- `registerEnumValue(property, value)`. -/
def registerEnumValue (p : SmlSaxParser) (property value : List Char) : SmlSaxParser :=
  { p with enums_ := p.enums_.store property (insert value (p.enums_.index property)) }

/-- `registerEnumValues(property, values)`. -/
def registerEnumValues (p : SmlSaxParser) (property : List Char) (values : List (List Char)) :
    SmlSaxParser :=
  { p with
    enums_ := p.enums_.store property (values.foldl (fun s v => insert v s) (p.enums_.index property)) }

/-- `isEnumValueAllowed(property, value)`. -/
def isEnumValueAllowed (p : SmlSaxParser) (property value : List Char) : Bool :=
  match p.enums_ property with
  | none => false
  | some s => decide (value ∈ s)

/-- `consume()`: returns the old lookahead and the parser with the next token fetched. -/
def consume (p : SmlSaxParser) : Res (Token × SmlSaxParser) :=
  match p.lexer_.next with
  | .error e => .error e
  | .ok r => .ok (p.lookahead_, { p with lexer_ := r.2, lookahead_ := r.1 })

/-- `expect(type)`. -/
def expect (p : SmlSaxParser) (type : TokenType) : Res (Token × SmlSaxParser) :=
  if p.lookahead_.type ≠ type then
    .error ⟨"Expected token type mismatch".toList, p.lookahead_.start⟩
  else consume p

/-- The loop of `skipIgnorables`. -/
def skipLoop : Nat → SmlSaxParser → Res SmlSaxParser
  | 0, p => if ignorable p.lookahead_.type then .timeout else .ok p
  | n + 1, p =>
    if ignorable p.lookahead_.type then
      match p.lexer_.next with
      | .error e => .error e
      | .ok r => skipLoop n { p with lexer_ := r.2, lookahead_ := r.1 }
    else .ok p

/-- `skipIgnorables()`; every iteration but the last consumes at least one character. -/
def skipIgnorables (p : SmlSaxParser) : Res SmlSaxParser :=
  skipLoop (p.lexer_.rest.length + 1) p

/-- `parseValue(property)`: the value and the parser after it. -/
def parseValue (property : List Char) (p : SmlSaxParser) : Res (PropertyValue × SmlSaxParser) :=
  if p.lookahead_.type = .String then
    (consume p).bind fun r => .ok (.FromString r.1.text, r.2)
  else if p.lookahead_.type = .Float then
    (consume p).bind fun r => .ok (.FromFloat r.1.text, r.2)
  else if p.lookahead_.type = .Bool then
    (consume p).bind fun r => .ok (.FromBool (r.1.text = "true".toList), r.2)
  else if p.lookahead_.type = .Int then
    (consume p).bind fun r1 =>
    (skipIgnorables r1.2).bind fun p2 =>
    if p2.lookahead_.type ≠ .Comma then .ok (.FromInt (atoi r1.1.text), p2)
    else
      (consume p2).bind fun r3 =>
      (skipIgnorables r3.2).bind fun p4 =>
      if p4.lookahead_.type ≠ .Int then
        .error ⟨"Expected integer component after ','".toList, p4.lookahead_.start⟩
      else
        (consume p4).bind fun r5 =>
        (skipIgnorables r5.2).bind fun p6 =>
        if p6.lookahead_.type = .Comma then
          (consume p6).bind fun r7 =>
          (skipIgnorables r7.2).bind fun p8 =>
          if p8.lookahead_.type ≠ .Int then
            .error ⟨"Expected integer component after ','".toList, p8.lookahead_.start⟩
          else
            (consume p8).bind fun r9 =>
            .ok (.FromVec3i (atoi r1.1.text) (atoi r5.1.text) (atoi r9.1.text), r9.2)
        else .ok (.FromVec2i (atoi r1.1.text) (atoi r5.1.text), p6)
  else if p.lookahead_.type = .Ident then
    (consume p).bind fun r =>
    if !(r.2.isEnumValueAllowed property r.1.text) then
      .error ⟨"Unknown enum value '".toList ++ r.1.text ++ "' for property '".toList ++
        property ++ "'".toList, r.1.start⟩
    else .ok (.FromEnum r.1.text, r.2)
  else
    .error ⟨"Expected value".toList, p.lookahead_.start⟩

/-- `parseElementBody(handler)`: one unit of fuel per loop iteration and per nesting level. -/
def parseElementBody : Nat → SmlSaxParser → List Event → Outcome
  | 0, _, _ => .timeout
  | n + 1, p, handler =>
    if p.lookahead_.type ≠ .RBrace ∧ p.lookahead_.type ≠ .Eof then
      if p.lookahead_.type ≠ .Ident then
        .error ⟨"Expected property or element".toList, p.lookahead_.start⟩ handler
      else
        (consume p).on handler fun ident =>
        (skipIgnorables ident.2).on handler fun p2 =>
        if p2.lookahead_.type = .Colon then
          (consume p2).on handler fun r3 =>
          (skipIgnorables r3.2).on handler fun p4 =>
          (parseValue ident.1.text p4).on handler fun value =>
          (skipIgnorables value.2).on (handler ++ [.onProperty ident.1.text value.1]) fun p6 =>
          parseElementBody n p6 (handler ++ [.onProperty ident.1.text value.1])
        else if p2.lookahead_.type ≠ .LBrace then
          .error ⟨"Expected '\x7b' after nested element name '".toList ++ ident.1.text ++
            "'".toList, p2.lookahead_.start⟩ handler
        else
          (consume p2).on handler fun r3 =>
          (skipIgnorables r3.2).on (handler ++ [.startElement ident.1.text]) fun p4 =>
          (parseElementBody n p4 (handler ++ [.startElement ident.1.text])).andThen
            fun p5 handler5 =>
          (expect p5 .RBrace).on handler5 fun r6 =>
          (skipIgnorables r6.2).on (handler5 ++ [.endElement ident.1.text]) fun p7 =>
          parseElementBody n p7 (handler5 ++ [.endElement ident.1.text])
    else .ok p handler

/-- The member loop of `parseElement` (lines 277-300), the same statements as the loop of
`parseElementBody`. -/
def parseElementLoop : Nat → SmlSaxParser → List Event → Outcome
  | 0, _, _ => .timeout
  | n + 1, p, handler =>
    if p.lookahead_.type ≠ .RBrace ∧ p.lookahead_.type ≠ .Eof then
      if p.lookahead_.type ≠ .Ident then
        .error ⟨"Expected property or element".toList, p.lookahead_.start⟩ handler
      else
        (consume p).on handler fun ident =>
        (skipIgnorables ident.2).on handler fun p2 =>
        if p2.lookahead_.type = .Colon then
          (consume p2).on handler fun r3 =>
          (skipIgnorables r3.2).on handler fun p4 =>
          (parseValue ident.1.text p4).on handler fun value =>
          (skipIgnorables value.2).on (handler ++ [.onProperty ident.1.text value.1]) fun p6 =>
          parseElementLoop n p6 (handler ++ [.onProperty ident.1.text value.1])
        else if p2.lookahead_.type ≠ .LBrace then
          .error ⟨"Expected '\x7b' after nested element name '".toList ++ ident.1.text ++
            "'".toList, p2.lookahead_.start⟩ handler
        else
          (consume p2).on handler fun r3 =>
          (skipIgnorables r3.2).on (handler ++ [.startElement ident.1.text]) fun p4 =>
          (parseElementBody n p4 (handler ++ [.startElement ident.1.text])).andThen
            fun p5 handler5 =>
          (expect p5 .RBrace).on handler5 fun r6 =>
          (skipIgnorables r6.2).on (handler5 ++ [.endElement ident.1.text]) fun p7 =>
          parseElementLoop n p7 (handler5 ++ [.endElement ident.1.text])
    else .ok p handler

/-- `parseElement(handler)`. -/
def parseElement (fuel : Nat) (p : SmlSaxParser) (handler : List Event) : Outcome :=
  (expect p .Ident).on handler fun name =>
  (skipIgnorables name.2).on handler fun p2 =>
  (expect p2 .LBrace).on handler fun r3 =>
  (skipIgnorables r3.2).on (handler ++ [.startElement name.1.text]) fun p4 =>
  (parseElementLoop fuel p4 (handler ++ [.startElement name.1.text])).andThen fun p5 handler5 =>
  (expect p5 .RBrace).on handler5 fun r6 =>
  .ok r6.2 (handler5 ++ [.endElement name.1.text])

/-- The loop of `parse`. -/
def parseLoop : Nat → SmlSaxParser → List Event → Outcome
  | 0, _, _ => .timeout
  | n + 1, p, handler =>
    if p.lookahead_.type ≠ .Eof then
      (parseElement n p handler).andThen fun p1 handler1 =>
      (skipIgnorables p1).on handler1 fun p2 =>
      parseLoop n p2 handler1
    else .ok p handler

/-- `parse(handler)`.  Every loop iteration and every nesting level consumes a token, and there
are at most `rest.length + 1` tokens left, so the fuel given here is never used up. -/
def parse (p : SmlSaxParser) (handler : List Event) : Outcome :=
  (skipIgnorables p).on handler fun p1 =>
  parseLoop (p1.lexer_.rest.length + 2) p1 handler

end SmlSaxParser

/-- A whole run: construct the parser on `text`, bring the registry to the state `enums` by
registrations, and call `parse` with a handler that has received no call yet. -/
def parseText (enums : EnumMap) (text : List Char) : Outcome :=
  (SmlSaxParser.mk0 text).on [] fun p =>
  SmlSaxParser.parse { p with enums_ := enums } []

/-- The handler calls made during a run. -/
def Outcome.events : Outcome → List Event
  | .ok _ handler => handler
  | .error _ handler => handler
  | .timeout => []

/-- The run returned normally. -/
def Outcome.returnsNormally : Outcome → Bool
  | .ok _ _ => true
  | _ => false

/-- The exception a run ended with, if any. -/
def Outcome.exception : Outcome → Option SmlParseException
  | .error e _ => some e
  | _ => none

/-! ## Token-level reading of the parser

The parser looks at the input only through `next`.  On an input that tokenises, it can therefore
be read as a function of the significant tokens; the functions of `Tok` are that reading, with
the same fuel discipline as the parser functions they stand for. -/

/-- The significant tokens: everything `skipIgnorables` does not skip. -/
def sig (ts : List Token) : List Token :=
  ts.filter fun t => !ignorable t.type

/-- The kind and text of a token, without its position. -/
def Token.lexeme (t : Token) : TokenType × List Char :=
  (t.type, t.text)

/-- `find` on the registry followed by `find` on the set: the test of `isEnumValueAllowed`. -/
def EnumMap.allows (m : EnumMap) (property value : List Char) : Bool :=
  match m property with
  | none => false
  | some s => decide (value ∈ s)

/-- The tokens a parser state has not consumed yet: the lookahead, then what the lexer will
return, up to the `Eof` token; `none` when the lexer will throw. -/
def SmlSaxParser.stream (p : SmlSaxParser) : Option (List Token × Token) :=
  if p.lookahead_.type = .Eof then some ([], p.lookahead_)
  else p.lexer_.tokens.map fun q => (p.lookahead_ :: q.1, q.2)

/-- The parser state `p` holds the registry `enums`, its lookahead is the token last returned by
the lexer, and the significant tokens it has not consumed are `ts`, followed by `eof`. -/
def SmlSaxParser.Pending (p : SmlSaxParser) (enums : EnumMap) (ts : List Token) (eof : Token) :
    Prop :=
  p.enums_ = enums ∧ (∃ lx : SmlLexer, lx.next = .ok (p.lookahead_, p.lexer_)) ∧
    ∃ all, p.stream = some (all, eof) ∧ sig all = ts

/-- `Pending`, with a significant lookahead (the state after `skipIgnorables`). -/
def SmlSaxParser.Ready (p : SmlSaxParser) (enums : EnumMap) (ts : List Token) (eof : Token) :
    Prop :=
  p.Pending enums ts eof ∧ ignorable p.lookahead_.type = false

/-- Result of a token-level parser step. -/
inductive TOutcome where
  | ok (ts : List Token) (handler : List Event)
  | error (e : SmlParseException) (handler : List Event)
  | timeout

namespace Tok

/-- The lookahead when the significant tokens `ts` are left. -/
def la (ts : List Token) (eof : Token) : Token :=
  ts.headD eof

/-- Token-level `parseValue`. -/
def parseValue (enums : EnumMap) (property : List Char) (ts : List Token) (eof : Token) :
    Except SmlParseException (PropertyValue × List Token) :=
  if (la ts eof).type = .String then .ok (.FromString (la ts eof).text, ts.tail)
  else if (la ts eof).type = .Float then .ok (.FromFloat (la ts eof).text, ts.tail)
  else if (la ts eof).type = .Bool then
    .ok (.FromBool ((la ts eof).text = "true".toList), ts.tail)
  else if (la ts eof).type = .Int then
    if (la ts.tail eof).type ≠ .Comma then .ok (.FromInt (atoi (la ts eof).text), ts.tail)
    else if (la ts.tail.tail eof).type ≠ .Int then
      .error ⟨"Expected integer component after ','".toList, (la ts.tail.tail eof).start⟩
    else if (la ts.tail.tail.tail eof).type = .Comma then
      if (la ts.tail.tail.tail.tail eof).type ≠ .Int then
        .error ⟨"Expected integer component after ','".toList,
          (la ts.tail.tail.tail.tail eof).start⟩
      else
        .ok (.FromVec3i (atoi (la ts eof).text) (atoi (la ts.tail.tail eof).text)
          (atoi (la ts.tail.tail.tail.tail eof).text), ts.tail.tail.tail.tail.tail)
    else
      .ok (.FromVec2i (atoi (la ts eof).text) (atoi (la ts.tail.tail eof).text),
        ts.tail.tail.tail)
  else if (la ts eof).type = .Ident then
    if !(enums.allows property (la ts eof).text) then
      .error ⟨"Unknown enum value '".toList ++ (la ts eof).text ++
        "' for property '".toList ++ property ++ "'".toList, (la ts eof).start⟩
    else .ok (.FromEnum (la ts eof).text, ts.tail)
  else
    .error ⟨"Expected value".toList, (la ts eof).start⟩

/-- Token-level `parseElementBody` (and member loop of `parseElement`). -/
def parseElementBody (enums : EnumMap) (eof : Token) : Nat → List Token → List Event → TOutcome
  | 0, _, _ => .timeout
  | n + 1, ts, handler =>
    if (la ts eof).type ≠ .RBrace ∧ (la ts eof).type ≠ .Eof then
      if (la ts eof).type ≠ .Ident then
        .error ⟨"Expected property or element".toList, (la ts eof).start⟩ handler
      else if (la ts.tail eof).type = .Colon then
        match parseValue enums (la ts eof).text ts.tail.tail eof with
        | .error e => .error e handler
        | .ok value =>
          parseElementBody enums eof n value.2
            (handler ++ [.onProperty (la ts eof).text value.1])
      else if (la ts.tail eof).type ≠ .LBrace then
        .error ⟨"Expected '\x7b' after nested element name '".toList ++ (la ts eof).text ++
          "'".toList, (la ts.tail eof).start⟩ handler
      else
        match parseElementBody enums eof n ts.tail.tail
            (handler ++ [.startElement (la ts eof).text]) with
        | .error e handler5 => .error e handler5
        | .timeout => .timeout
        | .ok ts5 handler5 =>
          if (la ts5 eof).type ≠ .RBrace then
            .error ⟨"Expected token type mismatch".toList, (la ts5 eof).start⟩ handler5
          else
            parseElementBody enums eof n ts5.tail
              (handler5 ++ [.endElement (la ts eof).text])
    else .ok ts handler

/-- Token-level `parseElement`. -/
def parseElement (enums : EnumMap) (eof : Token) (fuel : Nat) (ts : List Token)
    (handler : List Event) : TOutcome :=
  if (la ts eof).type ≠ .Ident then
    .error ⟨"Expected token type mismatch".toList, (la ts eof).start⟩ handler
  else if (la ts.tail eof).type ≠ .LBrace then
    .error ⟨"Expected token type mismatch".toList, (la ts.tail eof).start⟩ handler
  else
    match parseElementBody enums eof fuel ts.tail.tail
        (handler ++ [.startElement (la ts eof).text]) with
    | .error e handler5 => .error e handler5
    | .timeout => .timeout
    | .ok ts5 handler5 =>
      if (la ts5 eof).type ≠ .RBrace then
        .error ⟨"Expected token type mismatch".toList, (la ts5 eof).start⟩ handler5
      else .ok ts5.tail (handler5 ++ [.endElement (la ts eof).text])

/-- Token-level loop of `parse`. -/
def parseLoop (enums : EnumMap) (eof : Token) : Nat → List Token → List Event → TOutcome
  | 0, _, _ => .timeout
  | n + 1, ts, handler =>
    if (la ts eof).type ≠ .Eof then
      match parseElement enums eof n ts handler with
      | .error e handler1 => .error e handler1
      | .timeout => .timeout
      | .ok ts1 handler1 => parseLoop enums eof n ts1 handler1
    else .ok ts handler

end Tok

/-! ## The grammar and the document it assigns -/

/-- The members of an element body in source order: a property or a nested element, followed by
the remaining members. -/
inductive Members where
  | nil
  | property (name : List Char) (value : PropertyValue) (rest : Members)
  | element (name : List Char) (children : Members) (rest : Members)

/-- A top-level element. -/
structure Element where
  name : List Char
  members : Members

/-- Document-order flattening of a member list. -/
def Members.events : Members → List Event
  | .nil => []
  | .property name value rest => .onProperty name value :: rest.events
  | .element name children rest =>
    .startElement name :: (children.events ++ .endElement name :: rest.events)

/-- Document-order flattening of a document. -/
def documentEvents : List Element → List Event
  | [] => []
  | e :: es => .startElement e.name :: (e.members.events ++ .endElement e.name :: documentEvents es)

/-- `value := STRING | FLOAT | BOOL | INT (',' INT (',' INT)?)? | IDENT`, an `IDENT` being one
registered for the property, with the value each alternative denotes. -/
inductive IsValue (enums : EnumMap) (property : List Char) : List Token → PropertyValue → Prop
  | string (t : Token) : t.type = .String → IsValue enums property [t] (.FromString t.text)
  | float (t : Token) : t.type = .Float → IsValue enums property [t] (.FromFloat t.text)
  | bool (t : Token) : t.type = .Bool →
      IsValue enums property [t] (.FromBool (t.text = "true".toList))
  | int (a : Token) : a.type = .Int → IsValue enums property [a] (.FromInt (atoi a.text))
  | vec2 (a c b : Token) : a.type = .Int → c.type = .Comma → b.type = .Int →
      IsValue enums property [a, c, b] (.FromVec2i (atoi a.text) (atoi b.text))
  | vec3 (a c b d e : Token) : a.type = .Int → c.type = .Comma → b.type = .Int →
      d.type = .Comma → e.type = .Int →
      IsValue enums property [a, c, b, d, e]
        (.FromVec3i (atoi a.text) (atoi b.text) (atoi e.text))
  | enum (t : Token) : t.type = .Ident → enums.allows property t.text = true →
      IsValue enums property [t] (.FromEnum t.text)

/-- `member*` with `member := IDENT (':' value | '{' member* '}')`. -/
inductive IsMembers (enums : EnumMap) : List Token → Members → Prop
  | nil : IsMembers enums [] .nil
  | property (name colon : Token) (vts : List Token) (v : PropertyValue) (rest : List Token)
      (ms : Members) : name.type = .Ident → colon.type = .Colon →
      IsValue enums name.text vts v → IsMembers enums rest ms →
      IsMembers enums (name :: colon :: (vts ++ rest)) (.property name.text v ms)
  | element (name lb : Token) (body : List Token) (cs : Members) (rb : Token)
      (rest : List Token) (ms : Members) : name.type = .Ident → lb.type = .LBrace →
      IsMembers enums body cs → rb.type = .RBrace → IsMembers enums rest ms →
      IsMembers enums (name :: lb :: (body ++ rb :: rest)) (.element name.text cs ms)

/-- `element*` with `element := IDENT '{' member* '}'`. -/
inductive IsDocument (enums : EnumMap) : List Token → List Element → Prop
  | nil : IsDocument enums [] []
  | cons (name lb : Token) (body : List Token) (cs : Members) (rb : Token)
      (rest : List Token) (es : List Element) : name.type = .Ident → lb.type = .LBrace →
      IsMembers enums body cs → rb.type = .RBrace → IsDocument enums rest es →
      IsDocument enums (name :: lb :: (body ++ rb :: rest)) (⟨name.text, cs⟩ :: es)

/-! ## Well-nested event sequences -/

/-- Runs the events against the stack of open elements (innermost first): a start pushes its
name, an end must carry the name on top of the stack and pops it.  `none` when an end does not
close the innermost open element. -/
def nesting : List (List Char) → List Event → Option (List (List Char))
  | stack, [] => some stack
  | stack, .startElement name :: es => nesting (name :: stack) es
  | stack, .onProperty _ _ :: es => nesting stack es
  | stack, .endElement name :: es =>
    match stack with
    | [] => none
    | top :: below => if name = top then nesting below es else none

/-- Nesting depth after the events: starts minus ends. -/
def depth : List Event → Int
  | [] => 0
  | .startElement _ :: es => depth es + 1
  | .onProperty _ _ :: es => depth es
  | .endElement _ :: es => depth es - 1

/-- Token-level `parse`: the element loop, with fuel for every token. -/
def Tok.parse (enums : EnumMap) (eof : Token) (ts : List Token) : TOutcome :=
  Tok.parseLoop enums eof (ts.length + 1) ts []

/-- The handler calls of a token-level run. -/
def TOutcome.events : TOutcome → List Event
  | .ok _ handler => handler
  | .error _ handler => handler
  | .timeout => []

/-- The exception of a token-level run, if any. -/
def TOutcome.exception : TOutcome → Option SmlParseException
  | .error e _ => some e
  | _ => none

/-- The parser result `o` is what the token-level result `a` says: the same handler calls, the
same exception, and on normal return a parser state with the tokens of `a` left. -/
def Simulates (enums : EnumMap) (eof : Token) (o : Outcome) (a : TOutcome) : Prop :=
  match a with
  | .ok ts handler => ∃ p, o = .ok p handler ∧ p.Ready enums ts eof
  | .error e handler => o = .error e handler
  | .timeout => o = .timeout

/-- The parser state `p'` comes after `p`: its lexer is the lexer of `p` advanced by some
characters, and if the lexer will not throw from `p'` on, it will not throw from `p` on. -/
def SmlSaxParser.Reach (p p' : SmlSaxParser) : Prop :=
  (p'.stream.isSome → p.stream.isSome) ∧ ∃ k, p'.lexer_ = SmlLexer.advance k p.lexer_

/-- The lexer state a run that returned normally ends in. -/
def Outcome.lexer : Outcome → Option SmlLexer
  | .ok p _ => some p.lexer_
  | _ => none

/-- The token without its position. -/
def Token.erase (t : Token) : Token :=
  { type := t.type, text := t.text, start := ⟨0, 0, 0⟩, stop := ⟨0, 0, 0⟩ }

/-- The token-level result without positions. -/
def TOutcome.erase : TOutcome → TOutcome
  | .ok ts handler => .ok (ts.map Token.erase) handler
  | .error e handler => .error ⟨e.message, ⟨0, 0, 0⟩⟩ handler
  | .timeout => .timeout

/-- How a run ended: `some none` on normal return, `some (some message)` on an exception with
that message, `none` when the fuel ran out. -/
def Outcome.verdict : Outcome → Option (Option (List Char))
  | .ok _ _ => some none
  | .error e _ => some (some e.message)
  | .timeout => none

/-- How a token-level run ended. -/
def TOutcome.verdict : TOutcome → Option (Option (List Char))
  | .ok _ _ => some none
  | .error e _ => some (some e.message)
  | .timeout => none

/-- The texts an event carries: the element or property name and a string, enum or float
payload. -/
def Event.texts : Event → List (List Char)
  | .startElement name => [name]
  | .endElement name => [name]
  | .onProperty name (.FromString v) => [name, v]
  | .onProperty name (.FromEnum v) => [name, v]
  | .onProperty name (.FromFloat v) => [name, v]
  | .onProperty name _ => [name]

/-- The next significant token: from the lexer state `lx`, successive calls of `next` return
ignorable tokens and then the token `t`, which is not ignorable, leaving the state `lx'`. -/
inductive SmlLexer.SkipsTo : SmlLexer → Token → SmlLexer → Prop
  | here {lx : SmlLexer} {t : Token} {lx' : SmlLexer} :
      lx.next = .ok (t, lx') → ignorable t.type = false → SkipsTo lx t lx'
  | skip {lx : SmlLexer} {w : Token} {lx1 : SmlLexer} {t : Token} {lx' : SmlLexer} :
      lx.next = .ok (w, lx1) → ignorable w.type = true → SkipsTo lx1 t lx' → SkipsTo lx t lx'

/-- The registry after `registerEnumValues(property, values)` has been called, for each entry of
`regs` in order, on a freshly constructed parser. -/
def registered (regs : List (List Char × List (List Char))) : EnumMap :=
  (regs.foldl (fun p r => p.registerEnumValues r.1 r.2)
    (⟨SmlLexer.mk0 [], ⟨.Eof, [], ⟨0, 1, 1⟩, ⟨0, 1, 1⟩⟩, EnumMap.empty⟩ : SmlSaxParser)).enums_

/-- The cursor is where `next` returns a token or reaches `lexString`: at the end of the input,
or at a character of `std::isspace`, a comment start `//` or `/*`, one of `{` `}` `:` `,`, a
double quote, a NUL, a letter, an underscore or a digit. -/
def SmlLexer.beginsToken (lx : SmlLexer) : Bool :=
  decide (lx.rest = []) || isspace (lx.peek 0) ||
    (lx.peek 0 == '/' && (lx.peek 1 == '/' || lx.peek 1 == '*')) ||
    lx.peek 0 == '{' || lx.peek 0 == '}' || lx.peek 0 == ':' || lx.peek 0 == ',' ||
    lx.peek 0 == '"' || lx.peek 0 == NUL || isalpha (lx.peek 0) || lx.peek 0 == '_' ||
    isdigit (lx.peek 0)

/-- The set of token starts as the specification lists it: brace, colon, comma, quote, letter,
underscore, digit, whitespace (space, tab, newline, carriage return), comment start, or end of
input. -/
def SmlLexer.beginsTokenAsSpecified (lx : SmlLexer) : Bool :=
  decide (lx.rest = []) ||
    lx.peek 0 == ' ' || lx.peek 0 == '\t' || lx.peek 0 == '\n' || lx.peek 0 == '\r' ||
    (lx.peek 0 == '/' && (lx.peek 1 == '/' || lx.peek 1 == '*')) ||
    lx.peek 0 == '{' || lx.peek 0 == '}' || lx.peek 0 == ':' || lx.peek 0 == ',' ||
    lx.peek 0 == '"' || isalpha (lx.peek 0) || lx.peek 0 == '_' || isdigit (lx.peek 0)

/-! ## List-level reading of the lexer

`next` looks at the input only from the cursor on, and the position enters the token but not the
decision.  `scan` is `next` read as a function of the input suffix alone. -/

/-- The characters the block comment loop of `next` (lines 140-151) consumes from `cs`: up to a
NUL or the end of the input, or up to and including the first `*/`. -/
def scanBlock : List Char → List Char
  | [] => []
  | c :: r =>
    if c = NUL then []
    else if c = '*' ∧ r.headD NUL = '/' then ['*', '/']
    else c :: scanBlock r

/-- What `next` does at the input suffix `rest`: the kind and the text of the token with the
number of characters consumed, or the message of the exception with the number of characters
consumed before the throw. -/
def scan (rest : List Char) : Except (List Char × Nat) (TokenType × List Char × Nat) :=
  match rest with
  | [] => .ok (.Eof, [], 0)
  | c :: r =>
    if isspace c then .ok (.Ws, rest.takeWhile isspace, (rest.takeWhile isspace).length)
    else if c = '/' ∧ r.headD NUL = '/' then
      .ok (.LineComment, rest.takeWhile (fun x => x != NUL && x != '\n'),
        (rest.takeWhile (fun x => x != NUL && x != '\n')).length)
    else if c = '/' ∧ r.headD NUL = '*' then
      .ok (.BlockComment, '/' :: '*' :: scanBlock r.tail, (scanBlock r.tail).length + 2)
    else if c = '{' then .ok (.LBrace, ['{'], 1)
    else if c = '}' then .ok (.RBrace, ['}'], 1)
    else if c = ':' then .ok (.Colon, [':'], 1)
    else if c = ',' then .ok (.Comma, [','], 1)
    else if c = '"' then
      if r.getD (r.takeWhile (fun x => x != NUL && x != '"')).length NUL = '"' then
        .ok (.String, r.takeWhile (fun x => x != NUL && x != '"'),
          (r.takeWhile (fun x => x != NUL && x != '"')).length + 2)
      else
        .error ("Unterminated string literal".toList,
          (r.takeWhile (fun x => x != NUL && x != '"')).length + 1)
    else if c = NUL then .ok (.Eof, [], 0)
    else if isalpha c || c == '_' then
      .ok (if c :: r.takeWhile (fun x => isalnum x || x == '_') = "true".toList ∨
              c :: r.takeWhile (fun x => isalnum x || x == '_') = "false".toList
            then .Bool else .Ident,
        c :: r.takeWhile (fun x => isalnum x || x == '_'),
        (r.takeWhile (fun x => isalnum x || x == '_')).length + 1)
    else if isdigit c then
      if (rest.dropWhile isdigit).getD 0 NUL = '.' ∧
          isdigit ((rest.dropWhile isdigit).getD 1 NUL) = true then
        .ok (.Float,
          rest.takeWhile isdigit ++ '.' :: ((rest.dropWhile isdigit).drop 1).takeWhile isdigit,
          (rest.takeWhile isdigit).length + 1 +
            (((rest.dropWhile isdigit).drop 1).takeWhile isdigit).length)
      else .ok (.Int, rest.takeWhile isdigit, (rest.takeWhile isdigit).length)
    else .error ("Unexpected character '".toList ++ [c] ++ ['\''], 0)

/-- Successive calls of `next`, starting in the state `lx`, return the tokens `ts` in this order
and leave the state `lx'`. -/
inductive SmlLexer.Run : SmlLexer → List Token → SmlLexer → Prop
  | nil (lx : SmlLexer) : Run lx [] lx
  | cons {lx : SmlLexer} {t : Token} {lx1 : SmlLexer} {ts : List Token} {lx' : SmlLexer} :
      lx.next = .ok (t, lx1) → Run lx1 ts lx' → Run lx (t :: ts) lx'

/-- The state `lx` is a state of the lexer constructed on `input`: the cursor `i_` is within the
input and `rest` is the input from the cursor on. -/
def SmlLexer.Over (lx : SmlLexer) (input : List Char) : Prop :=
  lx.i_ ≤ input.length ∧ lx.rest = input.drop lx.i_

/-- The line of the position after the characters `cs` of the input, as the specification words
it: one more than the number of newline characters among them. -/
def lineAfter (cs : List Char) : Nat :=
  1 + cs.count '\n'

/-- The column of the position after the characters `cs` of the input, as the specification
words it: one more than the number of characters after the last newline among them (all of them
when there is none). -/
def colAfter (cs : List Char) : Nat :=
  1 + (cs.reverse.takeWhile fun c => c != '\n').length

/-- The result of `scan` at the state `lx`, with the positions put in: the token starts at the
cursor and ends where the consumed characters end; an exception carries the position reached. -/
def SmlLexer.place (lx : SmlLexer) :
    Except (List Char × Nat) (TokenType × List Char × Nat) →
      Except SmlParseException (Token × SmlLexer)
  | .ok r =>
    .ok (⟨r.1, r.2.1, lx.spanStart, (SmlLexer.advance r.2.2 lx).spanStart⟩,
      SmlLexer.advance r.2.2 lx)
  | .error e => .error ⟨e.1, (SmlLexer.advance e.2 lx).spanStart⟩

/-- A bound on the tokens a parser state has left: the lookahead, unless it is `Eof`, and at
most one token for each character the lexer has not consumed. -/
def SmlSaxParser.left (p : SmlSaxParser) : Nat :=
  p.lexer_.rest.length + if p.lookahead_.type = .Eof then 0 else 1

/-- The step did not run out of fuel, and if it returned, it left at most `bound` tokens. -/
def Res.within {α : Type} (r : Res (α × SmlSaxParser)) (bound : Nat) : Prop :=
  r ≠ .timeout ∧ ∀ a, r = .ok a → a.2.left ≤ bound

/-- The step did not run out of fuel, and if it returned, it left at most `bound` tokens. -/
def Outcome.within (o : Outcome) (bound : Nat) : Prop :=
  o ≠ .timeout ∧ ∀ p handler, o = .ok p handler → p.left ≤ bound

/-- Runs the events against the stack of open elements (innermost first), as `nesting` does,
and also requires an open element at every `onProperty`.  `none` when an `endElement` does not
close the innermost open element or an `onProperty` comes outside every element. -/
def openElements : List (List Char) → List Event → Option (List (List Char))
  | stack, [] => some stack
  | stack, .startElement name :: es => openElements (name :: stack) es
  | stack, .onProperty _ _ :: es =>
    match stack with
    | [] => none
    | _ :: _ => openElements stack es
  | stack, .endElement name :: es =>
    match stack with
    | [] => none
    | top :: below => if name = top then openElements below es else none

/-- The handler log of the outcome is a prefix of a well-nested sequence: on normal return the
open elements are those of `stack`, at an exception further elements may be open inside them. -/
def Outcome.Nested (o : Outcome) (stack : List (List Char)) : Prop :=
  match o with
  | .ok _ handler => openElements [] handler = some stack
  | .error _ handler => ∃ inner, openElements [] handler = some (inner ++ stack)
  | .timeout => True

end sml

/-! # Properties -/

namespace sml

/-! ## `std::atoi` -/

theorem atoiLoop_nonneg (cs : List Char) : ∀ acc : Int, 0 ≤ acc → 0 ≤ atoiLoop acc cs := by
  induction cs with
  | nil => intro acc h; exact h
  | cons c cs ih =>
    intro acc h
    rw [atoiLoop]
    split
    · next hd =>
      have hb : 48 ≤ c.toNat := by
        have : 48 ≤ c.toNat ∧ c.toNat ≤ 57 := by simpa [isdigit] using hd
        exact this.1
      exact ih _ (by omega)
    · exact h

theorem toInt32_range (v : Int) : -2147483648 ≤ toInt32 v ∧ toInt32 v ≤ 2147483647 := by
  unfold toInt32
  omega

theorem toInt32_of_range {v : Int} (h1 : -2147483648 ≤ v) (h2 : v ≤ 2147483647) :
    toInt32 v = v := by
  unfold toInt32
  omega

/-- The result of `atoi` is an `int`. -/
theorem atoi_range (text : List Char) : -2147483648 ≤ atoi text ∧ atoi text ≤ 2147483647 :=
  toInt32_range _

/-- Within the range of `int`, `atoi` returns the decimal value of the text. -/
theorem atoi_exact {text : List Char} (h : atoiLoop 0 text ≤ 2147483647) :
    atoi text = atoiLoop 0 text := by
  have h0 := atoiLoop_nonneg text 0 (Int.le_refl 0)
  unfold atoi
  rw [Int.min_def, if_pos (by omega)]
  exact toInt32_of_range (by omega) h

/-! ## The lexer reads its tokens off the front of the input -/

namespace SmlLexer

theorem peek_nil {lx : SmlLexer} (h : lx.rest = []) (k : Nat) : lx.peek k = NUL := by
  simp [peek, h]

theorem peek_zero_cons {lx : SmlLexer} {c : Char} {r : List Char} (h : lx.rest = c :: r) :
    lx.peek 0 = c := by
  simp [peek, h]

theorem advance_one (lx : SmlLexer) : lx.advance1 = advance 1 lx := rfl

theorem advance_succ (k : Nat) (lx : SmlLexer) : advance (k + 1) lx = advance k (advance 1 lx) := rfl

theorem advance1_rest (lx : SmlLexer) : lx.advance1.rest = lx.rest.tail := by
  unfold advance1
  split
  · next h => simp [h]
  · next c r h => split <;> simp [h]

theorem advance1_span (lx : SmlLexer) :
    lx.advance1.spanStart = lx.spanStart.over (lx.rest.take 1) := by
  unfold advance1
  split
  · next h => simp [h, Span.over]
  · next c r h => split <;> simp_all [Span.over, Span.step, spanStart]

theorem advance_rest (k : Nat) (lx : SmlLexer) : (advance k lx).rest = lx.rest.drop k := by
  induction k generalizing lx with
  | zero => simp [advance]
  | succ k ih =>
    rw [advance, ih, advance1_rest]
    cases lx.rest <;> simp

theorem advance_span (k : Nat) (lx : SmlLexer) :
    (advance k lx).spanStart = lx.spanStart.over (lx.rest.take k) := by
  induction k generalizing lx with
  | zero => simp [advance, Span.over]
  | succ k ih =>
    rw [advance, ih, advance1_rest, advance1_span]
    cases h : lx.rest <;> simp [Span.over]

theorem advance_advance (j k : Nat) (lx : SmlLexer) :
    advance j (advance k lx) = advance (k + j) lx := by
  induction k generalizing lx with
  | zero => simp [advance]
  | succ k ih => rw [Nat.add_right_comm, advance, advance, ih]

theorem advance_of_nil {lx : SmlLexer} (h : lx.rest = []) (k : Nat) : advance k lx = lx := by
  induction k with
  | zero => rfl
  | succ k ih => rw [advance]; simp [advance1, h, ih]

/-- The shape every lexer loop result has: `k` characters were consumed and appended. -/
theorem ran_step {lx : SmlLexer} {c : Char} {r : List Char} (h : lx.rest = c :: r)
    (text : List Char) {k : Nat} (hk : k ≤ (advance 1 lx).rest.length) :
    k + 1 ≤ lx.rest.length ∧ advance k (advance 1 lx) = advance (k + 1) lx ∧
      (text ++ [lx.peek 0]) ++ (advance 1 lx).rest.take k = text ++ lx.rest.take (k + 1) := by
  have hr : (advance 1 lx).rest = r := by simp [advance_rest, h]
  refine ⟨?_, ?_, ?_⟩
  · rw [hr] at hk; simp [h]; exact hk
  · rw [advance_advance, Nat.add_comm]
  · rw [hr, peek_zero_cons h, h]; simp

theorem wsLoop_ran (n : Nat) (lx : SmlLexer) (text : List Char) :
    ∃ k, k ≤ lx.rest.length ∧ wsLoop n lx text = (advance k lx, text ++ lx.rest.take k) := by
  induction n generalizing lx text with
  | zero => exact ⟨0, Nat.zero_le _, by simp [wsLoop, advance]⟩
  | succ n ih =>
    unfold wsLoop
    split
    · next hsp =>
      cases h : lx.rest with
      | nil => rw [peek_nil h] at hsp; exact absurd hsp (by decide)
      | cons c r =>
        obtain ⟨k, hk, e⟩ := ih (advance 1 lx) (text ++ [lx.peek 0])
        obtain ⟨h1, h2, h3⟩ := ran_step h text hk
        exact ⟨k + 1, h ▸ h1, by rw [e, h2, h3, h]⟩
    · exact ⟨0, Nat.zero_le _, by simp [advance]⟩

theorem lineLoop_ran (n : Nat) (lx : SmlLexer) (text : List Char) :
    ∃ k, k ≤ lx.rest.length ∧ lineLoop n lx text = (advance k lx, text ++ lx.rest.take k) := by
  induction n generalizing lx text with
  | zero => exact ⟨0, Nat.zero_le _, by simp [lineLoop, advance]⟩
  | succ n ih =>
    unfold lineLoop
    split
    · next hsp =>
      cases h : lx.rest with
      | nil => rw [peek_nil h] at hsp; exact absurd rfl hsp.1
      | cons c r =>
        obtain ⟨k, hk, e⟩ := ih (advance 1 lx) (text ++ [lx.peek 0])
        obtain ⟨h1, h2, h3⟩ := ran_step h text hk
        exact ⟨k + 1, h ▸ h1, by rw [e, h2, h3, h]⟩
    · exact ⟨0, Nat.zero_le _, by simp [advance]⟩

theorem digitLoop_ran (n : Nat) (lx : SmlLexer) (text : List Char) :
    ∃ k, k ≤ lx.rest.length ∧ digitLoop n lx text = (advance k lx, text ++ lx.rest.take k) := by
  induction n generalizing lx text with
  | zero => exact ⟨0, Nat.zero_le _, by simp [digitLoop, advance]⟩
  | succ n ih =>
    unfold digitLoop
    split
    · next hsp =>
      cases h : lx.rest with
      | nil => rw [peek_nil h] at hsp; exact absurd hsp (by decide)
      | cons c r =>
        obtain ⟨k, hk, e⟩ := ih (advance 1 lx) (text ++ [lx.peek 0])
        obtain ⟨h1, h2, h3⟩ := ran_step h text hk
        exact ⟨k + 1, h ▸ h1, by rw [e, h2, h3, h]⟩
    · exact ⟨0, Nat.zero_le _, by simp [advance]⟩

theorem identLoop_ran (n : Nat) (lx : SmlLexer) (first : Bool) (text : List Char) :
    ∃ k, k ≤ lx.rest.length ∧
      identLoop n lx first text = (advance k lx, text ++ lx.rest.take k) := by
  induction n generalizing lx first text with
  | zero => exact ⟨0, Nat.zero_le _, by simp [identLoop, advance]⟩
  | succ n ih =>
    unfold identLoop
    by_cases hnul : lx.peek 0 = NUL
    · exact ⟨0, Nat.zero_le _, by simp [hnul, advance]⟩
    · rw [if_neg hnul]
      generalize (if first = true then (isalpha (lx.peek 0) || lx.peek 0 == '_')
        else (isalnum (lx.peek 0) || lx.peek 0 == '_')) = b
      cases b
      · exact ⟨0, Nat.zero_le _, by simp [advance]⟩
      · cases h : lx.rest with
        | nil => exact absurd (peek_nil h 0) hnul
        | cons c r =>
          obtain ⟨k, hk, e⟩ := ih (advance 1 lx) false (text ++ [lx.peek 0])
          obtain ⟨h1, h2, h3⟩ := ran_step h text hk
          exact ⟨k + 1, h ▸ h1, by simp only [Bool.not_true, Bool.false_eq_true, if_false]; rw [e, h2, h3, h]⟩

theorem blockLoop_ran (n : Nat) (lx : SmlLexer) (text : List Char) :
    ∃ k, k ≤ lx.rest.length ∧ blockLoop n lx text = (advance k lx, text ++ lx.rest.take k) := by
  induction n generalizing lx text with
  | zero => exact ⟨0, Nat.zero_le _, by simp [blockLoop, advance]⟩
  | succ n ih =>
    unfold blockLoop
    split
    · exact ⟨0, Nat.zero_le _, by simp [advance]⟩
    · next hnul =>
      cases h : lx.rest with
      | nil => exact absurd (peek_nil h 0) hnul
      | cons c r =>
        split
        · next hend =>
          cases r with
          | nil => simp [peek, h, NUL] at hend
          | cons d r2 =>
            refine ⟨2, by simp, ?_⟩
            simp [peek, h] at hend
            simp [hend.1, hend.2]
        · obtain ⟨k, hk, e⟩ := ih (advance 1 lx) (text ++ [lx.peek 0])
          obtain ⟨h1, h2, h3⟩ := ran_step h text hk
          exact ⟨k + 1, h ▸ h1, by rw [e, h2, h3, h]⟩

theorem stringLoop_ran (n : Nat) (lx : SmlLexer) (quote : Char) (text : List Char)
    (lx1 : SmlLexer) (text1 : List Char) (hok : stringLoop n lx quote text = .ok (lx1, text1)) :
    ∃ k, k + 1 ≤ lx.rest.length ∧ lx1 = advance (k + 1) lx ∧
      text1 ++ [quote] = text ++ lx.rest.take (k + 1) := by
  induction n generalizing lx text with
  | zero => simp [stringLoop] at hok
  | succ n ih =>
    unfold stringLoop at hok
    split at hok
    · simp at hok
    · next hnul =>
      cases h : lx.rest with
      | nil => exact absurd (peek_nil h 0) hnul
      | cons c r =>
        split at hok
        · next hq =>
          simp only [Except.ok.injEq, Prod.mk.injEq] at hok
          refine ⟨0, by simp, hok.1.symm, ?_⟩
          rw [← hok.2, ← hq, peek_zero_cons h]; simp
        · obtain ⟨k, hk, e1, e2⟩ := ih (advance 1 lx) (text ++ [lx.peek 0]) hok
          obtain ⟨h1, h2, h3⟩ := ran_step h text (Nat.le_of_lt hk)
          have hr : (advance 1 lx).rest = r := by simp [advance_rest, h]
          refine ⟨k + 1, ?_, ?_, ?_⟩
          · rw [hr] at hk; simp; omega
          · rw [e1, advance_advance, Nat.add_comm]
          · rw [e2, hr, peek_zero_cons h]; simp

theorem take_advance (lx : SmlLexer) (k j : Nat) :
    lx.rest.take k ++ (advance k lx).rest.take j = lx.rest.take (k + j) := by
  rw [advance_rest, List.take_add]

theorem reads_of_ran {lx : SmlLexer} {ty : TokenType} {text : List Char} {k : Nat}
    (hk : k ≤ lx.rest.length) (hpos : 0 < k) (hty : ty ≠ .Eof) (hs : ty ≠ .String)
    (htext : text = lx.rest.take k) :
    Reads lx ⟨ty, text, lx.spanStart, (advance k lx).spanStart⟩ (advance k lx) ∧
      (⟨ty, text, lx.spanStart, (advance k lx).spanStart⟩ : Token).type ≠ .Eof := by
  refine ⟨⟨k, hk, rfl, ?_, rfl, rfl, ?_⟩, hty⟩
  · simp [Token.source, hs, htext]
  · simp [hty]; omega

theorem reads_punct {lx : SmlLexer} {ty : TokenType} {c : Char} (hne : lx.rest ≠ [])
    (hc : lx.peek 0 = c) (hty : ty ≠ .Eof) (hs : ty ≠ .String) :
    Reads lx ((advance 1 lx).makeToken ty lx.spanStart [c]) (advance 1 lx) ∧
      ((advance 1 lx).makeToken ty lx.spanStart [c]).type ≠ .Eof := by
  cases h : lx.rest with
  | nil => exact absurd h hne
  | cons d r =>
    have : d = c := by rw [← hc, peek_zero_cons h]
    exact reads_of_ran (by simp [h]) (by decide) hty hs (by simp [h, this])

theorem rest_cons_of_peek (lx : SmlLexer) (h : lx.peek 0 ≠ NUL) :
    ∃ r, lx.rest = lx.peek 0 :: r := by
  cases hr : lx.rest with
  | nil => exact absurd (peek_nil hr 0) h
  | cons c r => exact ⟨r, by rw [peek_zero_cons hr]⟩

theorem reads_ws {lx : SmlLexer} (hsp : isspace (lx.peek 0) = true) :
    Reads lx ((wsLoop lx.rest.length lx []).1.makeToken .Ws lx.spanStart
      (wsLoop lx.rest.length lx []).2) (wsLoop lx.rest.length lx []).1 ∧
      ((wsLoop lx.rest.length lx []).1.makeToken .Ws lx.spanStart
      (wsLoop lx.rest.length lx []).2).type ≠ .Eof := by
  obtain ⟨r, h⟩ := rest_cons_of_peek lx (by intro hn; rw [hn] at hsp; exact absurd hsp (by decide))
  obtain ⟨k, hk, e⟩ := wsLoop_ran r.length (advance 1 lx) ([] ++ [lx.peek 0])
  obtain ⟨h1, h2, h3⟩ := ran_step h [] hk
  have e2 : wsLoop lx.rest.length lx [] = (advance (k + 1) lx, lx.rest.take (k + 1)) := by
    conv => lhs; rw [h, List.length_cons, wsLoop, if_pos hsp, e, h2, h3]
    simp
  rw [e2]
  exact reads_of_ran h1 (Nat.succ_pos k) (by decide) (by decide) rfl

theorem reads_line {lx : SmlLexer} (hc : lx.peek 0 = '/') :
    Reads lx ((lineLoop lx.rest.length lx []).1.makeToken .LineComment lx.spanStart
      (lineLoop lx.rest.length lx []).2) (lineLoop lx.rest.length lx []).1 ∧
      ((lineLoop lx.rest.length lx []).1.makeToken .LineComment lx.spanStart
      (lineLoop lx.rest.length lx []).2).type ≠ .Eof := by
  have hcond : lx.peek 0 ≠ NUL ∧ lx.peek 0 ≠ '\n' := by rw [hc]; decide
  obtain ⟨r, h⟩ := rest_cons_of_peek lx hcond.1
  obtain ⟨k, hk, e⟩ := lineLoop_ran r.length (advance 1 lx) ([] ++ [lx.peek 0])
  obtain ⟨h1, h2, h3⟩ := ran_step h [] hk
  have e2 : lineLoop lx.rest.length lx [] = (advance (k + 1) lx, lx.rest.take (k + 1)) := by
    conv => lhs; rw [h, List.length_cons, lineLoop, if_pos hcond, e, h2, h3]
    simp
  rw [e2]
  exact reads_of_ran h1 (Nat.succ_pos k) (by decide) (by decide) rfl

theorem reads_block {lx : SmlLexer} (h0 : lx.peek 0 = '/') (h1 : lx.peek 1 = '*') :
    Reads lx ((blockLoop (advance 2 lx).rest.length (advance 2 lx) ['/', '*']).1.makeToken
      .BlockComment lx.spanStart (blockLoop (advance 2 lx).rest.length (advance 2 lx) ['/', '*']).2)
      (blockLoop (advance 2 lx).rest.length (advance 2 lx) ['/', '*']).1 ∧
      ((blockLoop (advance 2 lx).rest.length (advance 2 lx) ['/', '*']).1.makeToken
      .BlockComment lx.spanStart
      (blockLoop (advance 2 lx).rest.length (advance 2 lx) ['/', '*']).2).type ≠ .Eof := by
  obtain ⟨k, hk, e⟩ := blockLoop_ran (advance 2 lx).rest.length (advance 2 lx) ['/', '*']
  have h2 : lx.rest.take 2 = ['/', '*'] ∧ 2 ≤ lx.rest.length := by
    match h : lx.rest with
    | [] => rw [peek_nil h] at h0; exact absurd h0 (by decide)
    | [c] => simp [peek, h] at h1; exact absurd h1 (by decide)
    | c :: d :: r => simp [peek, h] at h0 h1; simp [h0, h1]
  have ht : ['/', '*'] ++ (advance 2 lx).rest.take k = lx.rest.take (2 + k) := by
    rw [← take_advance, h2.1]
  rw [e, ht, advance_advance]
  refine reads_of_ran ?_ (by omega) (by decide) (by decide) rfl
  rw [advance_rest, List.length_drop] at hk
  omega

theorem reads_ident {lx : SmlLexer} (hc : (isalpha (lx.peek 0) || lx.peek 0 == '_') = true) :
    Reads lx (lexIdentOrBool lx).1 (lexIdentOrBool lx).2 ∧ (lexIdentOrBool lx).1.type ≠ .Eof := by
  have hnul : lx.peek 0 ≠ NUL := by
    intro hn; rw [hn] at hc; exact absurd hc (by decide)
  obtain ⟨r, h⟩ := rest_cons_of_peek lx hnul
  obtain ⟨k, hk, e⟩ := identLoop_ran r.length (advance 1 lx) false ([] ++ [lx.peek 0])
  obtain ⟨h1, h2, h3⟩ := ran_step h [] hk
  have e2 : identLoop lx.rest.length lx true [] = (advance (k + 1) lx, lx.rest.take (k + 1)) := by
    conv => lhs; rw [h, List.length_cons, identLoop, if_neg hnul]
    simp only [if_true, hc, Bool.not_true, Bool.false_eq_true, if_false]
    rw [e, h2, h3]; simp
  unfold lexIdentOrBool
  simp only [e2]
  split
  · exact reads_of_ran h1 (Nat.succ_pos k) (by decide) (by decide) rfl
  · exact reads_of_ran h1 (Nat.succ_pos k) (by decide) (by decide) rfl

theorem reads_number {lx : SmlLexer} (hc : isdigit (lx.peek 0) = true) :
    Reads lx (lexNumber lx).1 (lexNumber lx).2 ∧ (lexNumber lx).1.type ≠ .Eof := by
  obtain ⟨r, h⟩ := rest_cons_of_peek lx (by intro hn; rw [hn] at hc; exact absurd hc (by decide))
  obtain ⟨k, hk, e⟩ := digitLoop_ran r.length (advance 1 lx) ([] ++ [lx.peek 0])
  obtain ⟨h1, h2, h3⟩ := ran_step h [] hk
  have e2 : digitLoop lx.rest.length lx [] = (advance (k + 1) lx, lx.rest.take (k + 1)) := by
    conv => lhs; rw [h, List.length_cons, digitLoop, if_pos hc, e, h2, h3]
    simp
  unfold lexNumber
  simp only [e2]
  split
  · next hdot =>
    obtain ⟨j, hj, e3⟩ := digitLoop_ran (advance 1 (advance (k + 1) lx)).rest.length
      (advance 1 (advance (k + 1) lx)) (lx.rest.take (k + 1) ++ ['.'])
    obtain ⟨r2, hd2⟩ := rest_cons_of_peek (advance (k + 1) lx)
      (by rw [hdot.1]; decide)
    rw [hdot.1] at hd2
    have a1 := take_advance lx (k + 1) 1
    rw [hd2] at a1
    simp only [List.take_succ_cons, List.take_zero] at a1
    have ht : lx.rest.take (k + 1) ++ ['.'] ++ (advance 1 (advance (k + 1) lx)).rest.take j
        = lx.rest.take (k + 1 + 1 + j) := by
      rw [advance_advance, a1, take_advance]
    rw [e3, ht, advance_advance, advance_advance, ← Nat.add_assoc]
    refine reads_of_ran ?_ (by omega) (by decide) (by decide) rfl
    have hl := congrArg List.length hd2
    rw [advance_advance, advance_rest, List.length_drop] at hj
    rw [advance_rest, List.length_drop, List.length_cons] at hl
    omega
  · exact reads_of_ran h1 (Nat.succ_pos k) (by decide) (by decide) rfl

theorem reads_string {lx : SmlLexer} (hc : lx.peek 0 = '"') {t : Token} {lx' : SmlLexer}
    (hok : lexString lx = .ok (t, lx')) : Reads lx t lx' ∧ t.type ≠ .Eof := by
  obtain ⟨r, h⟩ := rest_cons_of_peek lx (by rw [hc]; decide)
  unfold lexString at hok
  split at hok
  · simp at hok
  · next lx1 text hl =>
    simp only [Except.ok.injEq, Prod.mk.injEq] at hok
    obtain ⟨k, hk, e1, e2⟩ := stringLoop_ran _ _ _ _ _ _ hl
    have a1 : lx.rest.take 1 = ['"'] := by rw [h, hc]; rfl
    rw [← hok.1, ← hok.2, e1, advance_advance]
    refine ⟨⟨1 + (k + 1), ?_, rfl, ?_, rfl, rfl, by simp⟩, by simp⟩
    · rw [advance_rest, List.length_drop] at hk; omega
    · simp only [Token.source, if_true, List.nil_append] at e2 ⊢
      rw [hc] at e2
      rw [← take_advance, a1, ← e2]; rfl

theorem reads_eof (lx : SmlLexer) :
    Reads lx ⟨.Eof, [], lx.spanStart, lx.spanStart⟩ lx :=
  ⟨0, Nat.zero_le _, rfl, rfl, rfl, rfl, ⟨fun _ => rfl, fun _ => rfl⟩⟩

/-- Every token `next` returns is read off the front of the input, and `Eof` is returned only
at the end of the input or at a NUL. -/
theorem next_reads_aux {lx lx' : SmlLexer} {t : Token} (h : lx.next = .ok (t, lx')) :
    Reads lx t lx' ∧ (t.type = .Eof → lx.rest = [] ∨ lx.peek 0 = NUL) := by
  have key : ∀ {t0 : Token} {l0 : SmlLexer}, (Reads lx t0 l0 ∧ t0.type ≠ .Eof) →
      t0 = t → l0 = lx' → Reads lx t lx' ∧ (t.type = .Eof → lx.rest = [] ∨ lx.peek 0 = NUL) := by
    intro t0 l0 hr e1 e2
    subst e1; subst e2
    exact ⟨hr.1, fun he => absurd he hr.2⟩
  unfold next at h
  by_cases c1 : lx.rest = []
  · rw [if_pos c1] at h
    simp only [Except.ok.injEq, Prod.mk.injEq] at h; rw [← h.1, ← h.2]
    exact ⟨reads_eof lx, fun _ => Or.inl c1⟩
  rw [if_neg c1] at h
  by_cases c2 : isspace (lx.peek 0) = true
  · rw [if_pos c2] at h
    simp only [Except.ok.injEq, Prod.mk.injEq] at h; exact key (reads_ws c2) h.1 h.2
  rw [if_neg c2] at h
  by_cases c3 : lx.peek 0 = '/' ∧ lx.peek 1 = '/'
  · rw [if_pos c3] at h
    simp only [Except.ok.injEq, Prod.mk.injEq] at h; exact key (reads_line c3.1) h.1 h.2
  rw [if_neg c3] at h
  by_cases c4 : lx.peek 0 = '/' ∧ lx.peek 1 = '*'
  · rw [if_pos c4] at h
    simp only [Except.ok.injEq, Prod.mk.injEq] at h; exact key (reads_block c4.1 c4.2) h.1 h.2
  rw [if_neg c4] at h
  by_cases c5 : lx.peek 0 = '{'
  · rw [if_pos c5] at h
    simp only [Except.ok.injEq, Prod.mk.injEq] at h
    exact key (reads_punct c1 c5 (by decide) (by decide)) h.1 h.2
  rw [if_neg c5] at h
  by_cases c6 : lx.peek 0 = '}'
  · rw [if_pos c6] at h
    simp only [Except.ok.injEq, Prod.mk.injEq] at h
    exact key (reads_punct c1 c6 (by decide) (by decide)) h.1 h.2
  rw [if_neg c6] at h
  by_cases c7 : lx.peek 0 = ':'
  · rw [if_pos c7] at h
    simp only [Except.ok.injEq, Prod.mk.injEq] at h
    exact key (reads_punct c1 c7 (by decide) (by decide)) h.1 h.2
  rw [if_neg c7] at h
  by_cases c8 : lx.peek 0 = ','
  · rw [if_pos c8] at h
    simp only [Except.ok.injEq, Prod.mk.injEq] at h
    exact key (reads_punct c1 c8 (by decide) (by decide)) h.1 h.2
  rw [if_neg c8] at h
  by_cases c9 : lx.peek 0 = '"'
  · rw [if_pos c9] at h; exact key (reads_string c9 h) rfl rfl
  rw [if_neg c9] at h
  by_cases c10 : lx.peek 0 = NUL
  · rw [if_pos c10] at h
    simp only [Except.ok.injEq, Prod.mk.injEq] at h; rw [← h.1, ← h.2]
    exact ⟨reads_eof lx, fun _ => Or.inr c10⟩
  rw [if_neg c10] at h
  by_cases c11 : (isalpha (lx.peek 0) || lx.peek 0 == '_') = true
  · rw [if_pos c11] at h
    simp only [Except.ok.injEq] at h
    exact key (reads_ident c11) (congrArg Prod.fst h) (congrArg Prod.snd h)
  rw [if_neg c11] at h
  by_cases c12 : isdigit (lx.peek 0) = true
  · rw [if_pos c12] at h
    simp only [Except.ok.injEq] at h
    exact key (reads_number c12) (congrArg Prod.fst h) (congrArg Prod.snd h)
  rw [if_neg c12] at h
  exact absurd h (by simp)

/-- Every token `next` returns is read off the front of the input. -/
theorem next_reads {lx : SmlLexer} {r : Token × SmlLexer} (h : lx.next = .ok r) :
    Reads lx r.1 r.2 :=
  (@next_reads_aux lx r.2 r.1 h).1

/-- An `Eof` token leaves the lexer where it is: at the end of the input or at a NUL. -/
theorem next_eof_aux {lx lx' : SmlLexer} {t : Token} (h : lx.next = .ok (t, lx'))
    (ht : t.type = .Eof) :
    lx' = lx ∧ t = ⟨.Eof, [], lx.spanStart, lx.spanStart⟩ ∧ (lx.rest = [] ∨ lx.peek 0 = NUL) := by
  obtain ⟨⟨k, hk, e1, e2, e3, e4, e5⟩, hend⟩ := next_reads_aux h
  have hk0 : k = 0 := e5.1 ht
  subst hk0
  have hlx : lx' = lx := e1
  refine ⟨hlx, ?_, hend ht⟩
  rw [hlx] at e4
  cases t with
  | mk ty text st sp =>
    simp only at ht e3 e4
    simp only [Token.source, ht, List.take_zero] at e2
    simp only [ht, e3, e4, Token.mk.injEq, and_true, true_and]
    simpa using e2

/-- An `Eof` token leaves the lexer where it is: at the end of the input or at a NUL. -/
theorem next_eof {lx : SmlLexer} {r : Token × SmlLexer} (h : lx.next = .ok r)
    (ht : r.1.type = .Eof) :
    r.2 = lx ∧ r.1 = ⟨.Eof, [], lx.spanStart, lx.spanStart⟩ ∧
      (lx.rest = [] ∨ lx.peek 0 = NUL) :=
  @next_eof_aux lx r.2 r.1 h ht

/-- A token other than `Eof` consumes at least one character. -/
theorem next_advances {lx : SmlLexer} {r : Token × SmlLexer} (h : lx.next = .ok r)
    (ht : r.1.type ≠ .Eof) : r.2.rest.length < lx.rest.length := by
  obtain ⟨k, hk, e1, e2, e3, e4, e5⟩ := next_reads h
  have hk0 : k ≠ 0 := fun hk0 => ht (e5.2 hk0)
  rw [e1, advance_rest, List.length_drop]
  omega

end SmlLexer

/-! ## Tokenisation -/

theorem lexAll_fuel (n m : Nat) (lx : SmlLexer) (hn : lx.rest.length < n)
    (hm : lx.rest.length < m) : lexAll n lx = lexAll m lx := by
  induction n generalizing m lx with
  | zero => omega
  | succ n ih =>
    cases m with
    | zero => omega
    | succ m =>
      unfold lexAll
      cases h : lx.next with
      | error e => rfl
      | ok r =>
        simp only
        split
        · rfl
        · next hne =>
          have := SmlLexer.next_advances h hne
          rw [ih m r.2 (by omega) (by omega)]

/-- Tokenisation, one `next` at a time. -/
theorem tokens_unfold (lx : SmlLexer) :
    lx.tokens = match lx.next with
      | .error _ => none
      | .ok r => if r.1.type = .Eof then some ([], r.1)
                 else r.2.tokens.map fun q => (r.1 :: q.1, q.2) := by
  unfold SmlLexer.tokens
  rw [lexAll]
  cases h : lx.next with
  | error e => rfl
  | ok r =>
    simp only
    split
    · rfl
    · next hne =>
      have := SmlLexer.next_advances h hne
      rw [lexAll_fuel lx.rest.length (r.2.rest.length + 1) r.2 (by omega) (by omega)]

theorem tokens_types {lx : SmlLexer} {ts : List Token} {eof : Token}
    (h : lx.tokens = some (ts, eof)) : eof.type = .Eof ∧ ∀ t ∈ ts, t.type ≠ .Eof := by
  induction ts generalizing lx with
  | nil =>
    rw [tokens_unfold] at h
    cases hn : lx.next with
    | error e => simp [hn] at h
    | ok r =>
      simp only [hn] at h
      split at h
      · next he => simp at h; rw [← h]; exact ⟨he, by simp⟩
      · cases h2 : r.2.tokens <;> simp [h2] at h
  | cons t ts ih =>
    rw [tokens_unfold] at h
    cases hn : lx.next with
    | error e => simp [hn] at h
    | ok r =>
      simp only [hn] at h
      split at h
      · simp at h
      · next hne =>
        cases h2 : r.2.tokens with
        | none => simp [h2] at h
        | some q =>
          simp [h2] at h
          obtain ⟨⟨e1, e2⟩, e3⟩ := h
          have hq : r.2.tokens = some (ts, eof) := by rw [h2, ← e2, ← e3]
          obtain ⟨a, b⟩ := ih hq
          refine ⟨a, ?_⟩
          intro x hx
          rcases List.mem_cons.1 hx with hx | hx
          · rw [hx, ← e1]; exact hne
          · exact b x hx

/-- The tokens of an input that tokenises are read one after the other off its front; the `Eof`
token sits where the lexer stopped, at the end of the input or at a NUL. -/
theorem tokens_source {lx : SmlLexer} {ts : List Token} {eof : Token}
    (h : lx.tokens = some (ts, eof)) :
    ∃ k, k ≤ lx.rest.length ∧ (ts.map Token.source).flatten = lx.rest.take k ∧
      eof = ⟨.Eof, [], (SmlLexer.advance k lx).spanStart, (SmlLexer.advance k lx).spanStart⟩ ∧
      ((SmlLexer.advance k lx).rest = [] ∨ (SmlLexer.advance k lx).peek 0 = NUL) := by
  induction ts generalizing lx with
  | nil =>
    rw [tokens_unfold] at h
    cases hn : lx.next with
    | error e => simp [hn] at h
    | ok r =>
      simp only [hn] at h
      split at h
      · next he =>
        simp at h
        obtain ⟨e1, e2, e3⟩ := SmlLexer.next_eof hn he
        exact ⟨0, Nat.zero_le _, by simp, by rw [← h, e2]; rfl, e3⟩
      · cases h2 : r.2.tokens <;> simp [h2] at h
  | cons t ts ih =>
    rw [tokens_unfold] at h
    cases hn : lx.next with
    | error e => simp [hn] at h
    | ok r =>
      simp only [hn] at h
      split at h
      · simp at h
      · next hne =>
        cases h2 : r.2.tokens with
        | none => simp [h2] at h
        | some q =>
          simp [h2] at h
          obtain ⟨⟨e1, e2⟩, e3⟩ := h
          have hq : r.2.tokens = some (ts, eof) := by rw [h2, ← e2, ← e3]
          obtain ⟨k, hk, a1, a2, a3⟩ := ih hq
          obtain ⟨j, hj, b1, b2, b3, b4, b5⟩ := SmlLexer.next_reads hn
          rw [b1, SmlLexer.advance_advance] at a2 a3
          rw [b1, SmlLexer.advance_rest, List.length_drop] at hk
          refine ⟨j + k, by omega, ?_, a2, a3⟩
          rw [List.map_cons, List.flatten_cons, ← e1, b2, a1, b1, SmlLexer.take_advance]

/-! ## Parser states and the tokens they have left -/

namespace SmlSaxParser

theorem stream_fetch {p : SmlSaxParser} {r : Token × SmlLexer} (h : p.lexer_.next = .ok r) :
    ({ p with lexer_ := r.2, lookahead_ := r.1 } : SmlSaxParser).stream = p.lexer_.tokens := by
  rw [tokens_unfold, h]
  rfl

theorem Ready.lookahead {p : SmlSaxParser} {enums : EnumMap} {ts : List Token} {eof : Token}
    (h : p.Ready enums ts eof) : p.lookahead_ = Tok.la ts eof := by
  obtain ⟨⟨_, _, all, hs, hsig⟩, hig⟩ := h
  unfold stream at hs
  split at hs
  · simp at hs; rw [← hsig, hs.1, ← hs.2]; rfl
  · cases ht : p.lexer_.tokens with
    | none => simp [ht] at hs
    | some q =>
      simp [ht] at hs
      rw [← hsig, ← hs.1]
      simp [sig, hig, Tok.la]

theorem Ready.eof_type {p : SmlSaxParser} {enums : EnumMap} {ts : List Token} {eof : Token}
    (h : p.Pending enums ts eof) : eof.type = .Eof ∧ ∀ t ∈ ts, t.type ≠ .Eof := by
  obtain ⟨_, _, all, hs, hsig⟩ := h
  unfold stream at hs
  split at hs
  · next he => simp at hs; rw [← hsig, hs.1, ← hs.2]; exact ⟨he, by simp [sig]⟩
  · next hne =>
    cases ht : p.lexer_.tokens with
    | none => simp [ht] at hs
    | some q =>
      simp [ht] at hs
      have := tokens_types (show p.lexer_.tokens = some (q.1, q.2) by rw [ht])
      rw [← hsig, ← hs.1, ← hs.2]
      refine ⟨this.1, ?_⟩
      intro t hin
      have hin2 := (List.mem_filter.1 hin).1
      rcases List.mem_cons.1 hin2 with hx | hx
      · rw [hx]; exact hne
      · exact this.2 t hx

/-- `consume` in a state whose lookahead is the first significant token left. -/
theorem consume_ready {p : SmlSaxParser} {enums : EnumMap} {t : Token} {ts : List Token}
    {eof : Token} (h : p.Ready enums (t :: ts) eof) :
    ∃ p', consume p = .ok (t, p') ∧ p'.Pending enums ts eof := by
  have hla := h.lookahead
  have hty := (Ready.eof_type h.1).2 t (List.mem_cons_self _ _)
  obtain ⟨⟨he, _, all, hs, hsig⟩, hig⟩ := h
  simp only [Tok.la, List.headD_cons] at hla
  unfold stream at hs
  rw [if_neg (by rw [hla]; exact hty)] at hs
  cases ht : p.lexer_.tokens with
  | none => simp [ht] at hs
  | some q =>
    simp [ht] at hs
    cases hn : p.lexer_.next with
    | error e => rw [tokens_unfold, hn] at ht; simp at ht
    | ok r =>
      refine ⟨{ p with lexer_ := r.2, lookahead_ := r.1 }, by simp [consume, hn, hla], he,
        ⟨p.lexer_, by rw [hn]⟩, q.1, ?_, ?_⟩
      · rw [stream_fetch hn, ht, ← hs.2]
      · rw [← hs.1] at hsig
        simp only [sig, List.filter_cons, hig, Bool.not_false, if_true] at hsig
        exact (List.cons.inj hsig).2

theorem skipLoop_pending (n : Nat) {p : SmlSaxParser} {enums : EnumMap} {ts : List Token}
    {eof : Token} (h : p.Pending enums ts eof)
    (hn : p.lexer_.rest.length < n ∨ ignorable p.lookahead_.type = false) :
    ∃ p', skipLoop n p = .ok p' ∧ p'.Ready enums ts eof := by
  induction n generalizing p with
  | zero =>
    have hig : ignorable p.lookahead_.type = false := by
      rcases hn with hn | hn
      · omega
      · exact hn
    exact ⟨p, by simp [skipLoop, hig], h, hig⟩
  | succ n ih =>
    unfold skipLoop
    by_cases hig : ignorable p.lookahead_.type = true
    · rw [if_pos hig]
      have hlt : p.lexer_.rest.length < n + 1 := by
        rcases hn with hn | hn
        · exact hn
        · rw [hn] at hig; exact absurd hig (by decide)
      obtain ⟨he, _, all, hs, hsig⟩ := h
      unfold stream at hs
      rw [if_neg (by intro he; rw [he] at hig; exact absurd hig (by decide))] at hs
      cases ht : p.lexer_.tokens with
      | none => simp [ht] at hs
      | some q =>
        simp [ht] at hs
        cases hnx : p.lexer_.next with
        | error e => rw [tokens_unfold, hnx] at ht; simp at ht
        | ok r =>
          simp only
          apply ih
          · refine ⟨he, ⟨p.lexer_, by rw [hnx]⟩, q.1, ?_, ?_⟩
            · rw [stream_fetch hnx, ht, ← hs.2]
            · rw [← hs.1] at hsig
              simpa [sig, hig] using hsig
          · by_cases hr : r.1.type = .Eof
            · right; simp [hr, ignorable]
            · left
              have := SmlLexer.next_advances hnx hr
              simp only
              omega
    · rw [if_neg hig]
      exact ⟨p, rfl, h, by simpa using hig⟩

/-- `skipIgnorables` stops at the first significant token left. -/
theorem skip_pending {p : SmlSaxParser} {enums : EnumMap} {ts : List Token} {eof : Token}
    (h : p.Pending enums ts eof) :
    ∃ p', skipIgnorables p = .ok p' ∧ p'.Ready enums ts eof :=
  skipLoop_pending _ h (Or.inl (Nat.lt_succ_self _))

end SmlSaxParser

/-! ## The parser is its token-level reading on inputs that tokenise -/

namespace SmlSaxParser

theorem la_nil_type {p : SmlSaxParser} {enums : EnumMap} {ts : List Token} {eof : Token}
    (h : p.Ready enums ts eof) (hne : (Tok.la ts eof).type ≠ .Eof) :
    ts = Tok.la ts eof :: ts.tail := by
  cases ts with
  | nil => exact absurd (Ready.eof_type h.1).1 hne
  | cons t ts => rfl

/-- `consume` followed by `skipIgnorables`, at a lookahead that is not `Eof`. -/
theorem step {p : SmlSaxParser} {enums : EnumMap} {ts : List Token} {eof : Token}
    (h : p.Ready enums ts eof) (hne : (Tok.la ts eof).type ≠ .Eof) :
    ∃ p1 p2, consume p = .ok (Tok.la ts eof, p1) ∧ p1.Pending enums ts.tail eof ∧
      skipIgnorables p1 = .ok p2 ∧ p2.Ready enums ts.tail eof := by
  have hts := la_nil_type h hne
  rw [hts] at h
  obtain ⟨p1, c1, q1⟩ := consume_ready h
  obtain ⟨p2, s1, r1⟩ := skip_pending q1
  exact ⟨p1, p2, c1, q1, s1, r1⟩

theorem isEnumValueAllowed_eq (p : SmlSaxParser) (property value : List Char) :
    p.isEnumValueAllowed property value = p.enums_.allows property value := rfl

theorem sim_value {p : SmlSaxParser} {enums : EnumMap} {ts : List Token} {eof : Token}
    (property : List Char) (h : p.Ready enums ts eof) :
    match Tok.parseValue enums property ts eof with
    | .ok v => ∃ p', parseValue property p = .ok (v.1, p') ∧ p'.Pending enums v.2 eof
    | .error e => parseValue property p = .error e := by
  unfold parseValue Tok.parseValue
  rw [h.lookahead]
  by_cases c1 : (Tok.la ts eof).type = .String
  · obtain ⟨p1, p2, e1, q1, -, -⟩ := step h (by rw [c1]; decide)
    simp only [if_pos c1, e1, Res.bind]
    exact ⟨p1, rfl, q1⟩
  simp only [if_neg c1]
  by_cases c2 : (Tok.la ts eof).type = .Float
  · obtain ⟨p1, p2, e1, q1, -, -⟩ := step h (by rw [c2]; decide)
    simp only [if_pos c2, e1, Res.bind]
    exact ⟨p1, rfl, q1⟩
  simp only [if_neg c2]
  by_cases c3 : (Tok.la ts eof).type = .Bool
  · obtain ⟨p1, p2, e1, q1, -, -⟩ := step h (by rw [c3]; decide)
    simp only [if_pos c3, e1, Res.bind]
    exact ⟨p1, rfl, q1⟩
  simp only [if_neg c3]
  by_cases c4 : (Tok.la ts eof).type = .Int
  · obtain ⟨p1, p2, e1, q1, s1, r1⟩ := step h (by rw [c4]; decide)
    simp only [if_pos c4, e1, s1, Res.bind, r1.lookahead]
    by_cases c5 : (Tok.la ts.tail eof).type ≠ .Comma
    · simp only [if_pos c5]
      exact ⟨p2, rfl, r1.1⟩
    simp only [if_neg c5]
    obtain ⟨p3, p4, e3, q3, s3, r3⟩ := step r1 (by rw [not_not.1 c5]; decide)
    simp only [e3, s3, r3.lookahead]
    by_cases c6 : (Tok.la ts.tail.tail eof).type ≠ .Int
    · simp only [if_pos c6]
    simp only [if_neg c6]
    obtain ⟨p5, p6, e5, q5, s5, r5⟩ := step r3 (by rw [not_not.1 c6]; decide)
    simp only [e5, s5, r5.lookahead]
    by_cases c7 : (Tok.la ts.tail.tail.tail eof).type = .Comma
    · simp only [if_pos c7]
      obtain ⟨p7, p8, e7, q7, s7, r7⟩ := step r5 (by rw [c7]; decide)
      simp only [e7, s7, r7.lookahead]
      by_cases c8 : (Tok.la ts.tail.tail.tail.tail eof).type ≠ .Int
      · simp only [if_pos c8]
      simp only [if_neg c8]
      obtain ⟨p9, p10, e9, q9, -, -⟩ := step r7 (by rw [not_not.1 c8]; decide)
      simp only [e9]
      exact ⟨p9, rfl, q9⟩
    · simp only [if_neg c7]
      exact ⟨p6, rfl, r5.1⟩
  simp only [if_neg c4]
  by_cases c9 : (Tok.la ts eof).type = .Ident
  · obtain ⟨p1, p2, e1, q1, -, -⟩ := step h (by rw [c9]; decide)
    simp only [if_pos c9, e1, Res.bind, isEnumValueAllowed_eq, q1.1]
    by_cases c10 : (!(enums.allows property (Tok.la ts eof).text)) = true
    · simp only [if_pos c10]
    · simp only [if_neg c10]
      exact ⟨p1, rfl, q1⟩
  simp only [if_neg c9]

end SmlSaxParser

namespace SmlSaxParser

/-- The member loop written out in `parseElement` is the loop of `parseElementBody`. -/
theorem parseElementLoop_eq (n : Nat) (p : SmlSaxParser) (handler : List Event) :
    parseElementLoop n p handler = parseElementBody n p handler := by
  induction n generalizing p handler with
  | zero => rfl
  | succ n ih =>
    rw [parseElementLoop, parseElementBody]
    simp only [ih]

theorem expect_ready {p : SmlSaxParser} {enums : EnumMap} {ts : List Token} {eof : Token}
    (h : p.Ready enums ts eof) (type : TokenType) (hty : type ≠ .Eof) :
    (∃ (_ : (Tok.la ts eof).type ≠ type),
      expect p type = .error ⟨"Expected token type mismatch".toList, (Tok.la ts eof).start⟩) ∨
    (∃ (_ : (Tok.la ts eof).type = type), ∃ p1 p2, expect p type = .ok (Tok.la ts eof, p1) ∧
      p1.Pending enums ts.tail eof ∧ skipIgnorables p1 = .ok p2 ∧ p2.Ready enums ts.tail eof) := by
  unfold expect
  rw [h.lookahead]
  by_cases c : (Tok.la ts eof).type ≠ type
  · left; exact ⟨c, by rw [if_pos c]⟩
  · right
    rw [if_neg c]
    exact ⟨not_not.1 c, step h (by rw [not_not.1 c]; exact hty)⟩

theorem sim_body (enums : EnumMap) (eof : Token) (n : Nat) :
    ∀ (p : SmlSaxParser) (handler : List Event) (ts : List Token), p.Ready enums ts eof →
      Simulates enums eof (parseElementBody n p handler)
        (Tok.parseElementBody enums eof n ts handler) := by
  induction n with
  | zero => intro p handler ts _; rfl
  | succ n ih =>
    intro p handler ts h
    rw [parseElementBody, Tok.parseElementBody, h.lookahead]
    by_cases c1 : (Tok.la ts eof).type ≠ .RBrace ∧ (Tok.la ts eof).type ≠ .Eof
    · simp only [if_pos c1]
      by_cases c2 : (Tok.la ts eof).type ≠ .Ident
      · simp only [if_pos c2]; rfl
      simp only [if_neg c2]
      obtain ⟨p1, p2, e1, q1, s1, r1⟩ := step h c1.2
      simp only [e1, s1, Res.on, r1.lookahead]
      by_cases c3 : (Tok.la ts.tail eof).type = .Colon
      · simp only [if_pos c3]
        obtain ⟨p3, p4, e3, q3, s3, r3⟩ := step r1 (by rw [c3]; decide)
        simp only [e3, s3]
        have hv := sim_value (Tok.la ts eof).text r3
        cases hx : Tok.parseValue enums (Tok.la ts eof).text ts.tail.tail eof with
        | error e =>
          rw [hx] at hv
          simp only [hv]
          rfl
        | ok v =>
          rw [hx] at hv
          obtain ⟨p5, e5, q5⟩ := hv
          obtain ⟨p6, s5, r5⟩ := skip_pending q5
          simp only [e5, s5]
          exact ih p6 _ v.2 r5
      simp only [if_neg c3]
      by_cases c4 : (Tok.la ts.tail eof).type ≠ .LBrace
      · simp only [if_pos c4]; rfl
      simp only [if_neg c4]
      obtain ⟨p3, p4, e3, q3, s3, r3⟩ := step r1 (by rw [not_not.1 c4]; decide)
      simp only [e3, s3]
      have hb := ih p4 (handler ++ [.startElement (Tok.la ts eof).text]) ts.tail.tail r3
      cases hx : Tok.parseElementBody enums eof n ts.tail.tail
          (handler ++ [.startElement (Tok.la ts eof).text]) with
      | error e h5 =>
        rw [hx] at hb
        simp only [Simulates] at hb
        simp only [hb, Outcome.andThen]
        rfl
      | timeout =>
        rw [hx] at hb
        simp only [Simulates] at hb
        simp only [hb, Outcome.andThen]
        rfl
      | ok ts5 h5 =>
        rw [hx] at hb
        obtain ⟨p5, e5, r5⟩ := hb
        simp only [e5, Outcome.andThen]
        rcases expect_ready r5 .RBrace (by decide) with ⟨c6, e6⟩ | ⟨c6, p6, p7, e6, q6, s6, r6⟩
        · simp only [e6, if_pos c6]; rfl
        · simp only [e6, s6, if_neg (not_not.2 c6)]
          exact ih p7 _ ts5.tail r6
    · simp only [if_neg c1]
      exact ⟨p, rfl, h⟩

theorem sim_element (enums : EnumMap) (eof : Token) (n : Nat) (p : SmlSaxParser)
    (handler : List Event) (ts : List Token) (h : p.Ready enums ts eof) :
    match Tok.parseElement enums eof n ts handler with
    | .ok ts' handler' => ∃ p', parseElement n p handler = .ok p' handler' ∧
        p'.Pending enums ts' eof
    | .error e handler' => parseElement n p handler = .error e handler'
    | .timeout => parseElement n p handler = .timeout := by
  unfold parseElement Tok.parseElement
  rcases expect_ready h .Ident (by decide) with ⟨c1, e1⟩ | ⟨c1, p1, p2, e1, q1, s1, r1⟩
  · simp only [e1, if_pos c1, Res.on]
  simp only [e1, s1, if_neg (not_not.2 c1), Res.on]
  rcases expect_ready r1 .LBrace (by decide) with ⟨c2, e2⟩ | ⟨c2, p3, p4, e2, q2, s2, r2⟩
  · simp only [e2, if_pos c2]
  simp only [e2, s2, if_neg (not_not.2 c2), parseElementLoop_eq]
  have hb := sim_body enums eof n p4 (handler ++ [.startElement (Tok.la ts eof).text])
    ts.tail.tail r2
  cases hx : Tok.parseElementBody enums eof n ts.tail.tail
      (handler ++ [.startElement (Tok.la ts eof).text]) with
  | error e h5 =>
    rw [hx] at hb
    simp only [Simulates] at hb
    simp only [hb, Outcome.andThen]
  | timeout =>
    rw [hx] at hb
    simp only [Simulates] at hb
    simp only [hb, Outcome.andThen]
  | ok ts5 h5 =>
    rw [hx] at hb
    obtain ⟨p5, e5, r5⟩ := hb
    simp only [e5, Outcome.andThen]
    rcases expect_ready r5 .RBrace (by decide) with ⟨c6, e6⟩ | ⟨c6, p6, p7, e6, q6, s6, r6⟩
    · simp only [e6, if_pos c6]
    · simp only [e6, if_neg (not_not.2 c6)]
      exact ⟨p6, rfl, q6⟩

theorem sim_loop (enums : EnumMap) (eof : Token) (n : Nat) :
    ∀ (p : SmlSaxParser) (handler : List Event) (ts : List Token), p.Ready enums ts eof →
      Simulates enums eof (parseLoop n p handler) (Tok.parseLoop enums eof n ts handler) := by
  induction n with
  | zero => intro p handler ts _; rfl
  | succ n ih =>
    intro p handler ts h
    rw [parseLoop, Tok.parseLoop, h.lookahead]
    by_cases c1 : (Tok.la ts eof).type ≠ .Eof
    · simp only [if_pos c1]
      have he := sim_element enums eof n p handler ts h
      cases hx : Tok.parseElement enums eof n ts handler with
      | error e h1 => rw [hx] at he; simp only [he, Outcome.andThen]; rfl
      | timeout => rw [hx] at he; simp only [he, Outcome.andThen]; rfl
      | ok ts1 h1 =>
        rw [hx] at he
        obtain ⟨p1, e1, q1⟩ := he
        obtain ⟨p2, s1, r1⟩ := skip_pending q1
        simp only [e1, s1, Outcome.andThen, Res.on]
        exact ih p2 h1 ts1 r1
    · simp only [if_neg c1]
      exact ⟨p, rfl, h⟩

end SmlSaxParser

/-! ## The token-level parser accepts exactly the grammar -/

namespace Tok

theorem la_cons {ts : List Token} {eof : Token} (heof : eof.type = .Eof)
    (h : (la ts eof).type ≠ .Eof) : ts = la ts eof :: ts.tail := by
  cases ts with
  | nil => exact absurd heof h
  | cons t ts => rfl

theorem la_cons_of {ts : List Token} {eof : Token} (heof : eof.type = .Eof) {ty : TokenType}
    (h : (la ts eof).type = ty) (hty : ty ≠ .Eof) : ts = la ts eof :: ts.tail :=
  la_cons heof (by rw [h]; exact hty)

/-- What `parseValue` accepts is a value of the grammar, and it returns the value the grammar
assigns. -/
theorem parseValue_sound {enums : EnumMap} {property : List Char} {ts : List Token}
    {eof : Token} (heof : eof.type = .Eof) {v : PropertyValue × List Token}
    (h : parseValue enums property ts eof = .ok v) :
    ∃ vts, ts = vts ++ v.2 ∧ IsValue enums property vts v.1 := by
  unfold parseValue at h
  by_cases c1 : (la ts eof).type = .String
  · simp only [if_pos c1, Except.ok.injEq] at h
    exact ⟨[la ts eof], by rw [← h]; exact la_cons_of heof c1 (by decide),
      by rw [← h]; exact .string _ c1⟩
  simp only [if_neg c1] at h
  by_cases c2 : (la ts eof).type = .Float
  · simp only [if_pos c2, Except.ok.injEq] at h
    exact ⟨[la ts eof], by rw [← h]; exact la_cons_of heof c2 (by decide),
      by rw [← h]; exact .float _ c2⟩
  simp only [if_neg c2] at h
  by_cases c3 : (la ts eof).type = .Bool
  · simp only [if_pos c3, Except.ok.injEq] at h
    exact ⟨[la ts eof], by rw [← h]; exact la_cons_of heof c3 (by decide),
      by rw [← h]; exact .bool _ c3⟩
  simp only [if_neg c3] at h
  by_cases c4 : (la ts eof).type = .Int
  · simp only [if_pos c4] at h
    have l1 := la_cons_of heof c4 (by decide)
    by_cases c5 : (la ts.tail eof).type ≠ .Comma
    · simp only [if_pos c5, Except.ok.injEq] at h
      exact ⟨[la ts eof], by rw [← h]; exact l1, by rw [← h]; exact .int _ c4⟩
    simp only [if_neg c5] at h
    have l2 := la_cons_of heof (not_not.1 c5) (by decide)
    by_cases c6 : (la ts.tail.tail eof).type ≠ .Int
    · simp only [if_pos c6] at h; exact absurd h (by simp)
    simp only [if_neg c6] at h
    have l3 := la_cons_of heof (not_not.1 c6) (by decide)
    by_cases c7 : (la ts.tail.tail.tail eof).type = .Comma
    · simp only [if_pos c7] at h
      have l4 := la_cons_of heof c7 (by decide)
      by_cases c8 : (la ts.tail.tail.tail.tail eof).type ≠ .Int
      · simp only [if_pos c8] at h; exact absurd h (by simp)
      simp only [if_neg c8, Except.ok.injEq] at h
      have l5 := la_cons_of heof (not_not.1 c8) (by decide)
      refine ⟨[la ts eof, la ts.tail eof, la ts.tail.tail eof, la ts.tail.tail.tail eof,
        la ts.tail.tail.tail.tail eof], ?_, ?_⟩
      · rw [← h]
        simp only [List.cons_append, List.nil_append]
        rw [← l5, ← l4, ← l3, ← l2, ← l1]
      · rw [← h]; exact .vec3 _ _ _ _ _ c4 (not_not.1 c5) (not_not.1 c6) c7 (not_not.1 c8)
    · simp only [if_neg c7, Except.ok.injEq] at h
      refine ⟨[la ts eof, la ts.tail eof, la ts.tail.tail eof], ?_, ?_⟩
      · rw [← h]
        simp only [List.cons_append, List.nil_append]
        rw [← l3, ← l2, ← l1]
      · rw [← h]; exact .vec2 _ _ _ c4 (not_not.1 c5) (not_not.1 c6)
  simp only [if_neg c4] at h
  by_cases c9 : (la ts eof).type = .Ident
  · simp only [if_pos c9] at h
    by_cases c10 : (!(enums.allows property (la ts eof).text)) = true
    · simp only [if_pos c10] at h; exact absurd h (by simp)
    · simp only [if_neg c10, Except.ok.injEq] at h
      exact ⟨[la ts eof], by rw [← h]; exact la_cons_of heof c9 (by decide),
        by rw [← h]; exact .enum _ c9 (by simpa using c10)⟩
  · simp only [if_neg c9] at h; exact absurd h (by simp)

/-- What `parseElementBody` consumes is a member list of the grammar, the handler receives its
flattening, and the loop stops in front of `}` or at the end. -/
theorem parseElementBody_sound {enums : EnumMap} {eof : Token} (heof : eof.type = .Eof)
    (n : Nat) : ∀ (ts : List Token) (handler : List Event) (ts' : List Token)
      (handler' : List Event), parseElementBody enums eof n ts handler = .ok ts' handler' →
      ∃ body ms, ts = body ++ ts' ∧ IsMembers enums body ms ∧
        handler' = handler ++ ms.events ∧
        ((la ts' eof).type = .RBrace ∨ (la ts' eof).type = .Eof) := by
  induction n with
  | zero => intro ts handler ts' handler' h; simp [parseElementBody] at h
  | succ n ih =>
    intro ts handler ts' handler' h
    rw [parseElementBody] at h
    by_cases c1 : (la ts eof).type ≠ .RBrace ∧ (la ts eof).type ≠ .Eof
    · simp only [if_pos c1] at h
      by_cases c2 : (la ts eof).type ≠ .Ident
      · simp only [if_pos c2] at h; exact absurd h (by simp)
      simp only [if_neg c2] at h
      have l1 := la_cons heof c1.2
      by_cases c3 : (la ts.tail eof).type = .Colon
      · simp only [if_pos c3] at h
        have l2 := la_cons_of heof c3 (by decide)
        cases hv : parseValue enums (la ts eof).text ts.tail.tail eof with
        | error e => simp [hv] at h
        | ok v =>
          simp only [hv] at h
          obtain ⟨vts, e1, iv⟩ := parseValue_sound heof hv
          obtain ⟨body, ms, e2, im, e3, e4⟩ := ih _ _ _ _ h
          refine ⟨la ts eof :: la ts.tail eof :: (vts ++ body), .property _ v.1 ms, ?_,
            .property _ _ _ _ _ _ (not_not.1 c2) c3 iv im, ?_, e4⟩
          · rw [List.cons_append, List.cons_append, List.append_assoc, ← e2, ← e1, ← l2, ← l1]
          · rw [e3]; simp [Members.events]
      simp only [if_neg c3] at h
      by_cases c4 : (la ts.tail eof).type ≠ .LBrace
      · simp only [if_pos c4] at h; exact absurd h (by simp)
      simp only [if_neg c4] at h
      have l2 := la_cons_of heof (not_not.1 c4) (by decide)
      cases hx : parseElementBody enums eof n ts.tail.tail
          (handler ++ [.startElement (la ts eof).text]) with
      | error e h5 => simp [hx] at h
      | timeout => simp [hx] at h
      | ok ts5 h5 =>
        simp only [hx] at h
        by_cases c5 : (la ts5 eof).type ≠ .RBrace
        · simp only [if_pos c5] at h; exact absurd h (by simp)
        simp only [if_neg c5] at h
        have l3 := la_cons_of heof (not_not.1 c5) (by decide)
        obtain ⟨body, cs, e1, im1, e2, -⟩ := ih _ _ _ _ hx
        obtain ⟨rest, ms, e3, im2, e4, e5⟩ := ih _ _ _ _ h
        refine ⟨la ts eof :: la ts.tail eof :: (body ++ la ts5 eof :: rest),
          .element _ cs ms, ?_,
          .element _ _ _ _ _ _ _ (not_not.1 c2) (not_not.1 c4) im1 (not_not.1 c5) im2, ?_, e5⟩
        · rw [List.cons_append, List.cons_append, List.append_assoc, List.cons_append, ← e3,
            ← l3, ← e1, ← l2, ← l1]
        · rw [e4, e2]; simp [Members.events]
    · simp only [if_neg c1, TOutcome.ok.injEq] at h
      refine ⟨[], .nil, by simp [h.1], .nil, by simp [h.2, Members.events], ?_⟩
      rw [← h.1]
      by_cases c : (la ts eof).type = .RBrace
      · exact Or.inl c
      · right
        by_contra c'
        exact c1 ⟨c, c'⟩

theorem parseElement_sound {enums : EnumMap} {eof : Token} (heof : eof.type = .Eof)
    {n : Nat} {ts : List Token} {handler : List Event} {ts' : List Token}
    {handler' : List Event} (h : parseElement enums eof n ts handler = .ok ts' handler') :
    ∃ name lb body cs rb, ts = name :: lb :: (body ++ rb :: ts') ∧ name.type = .Ident ∧
      lb.type = .LBrace ∧ IsMembers enums body cs ∧ rb.type = .RBrace ∧
      handler' = handler ++ (.startElement name.text :: (cs.events ++ [.endElement name.text])) := by
  unfold parseElement at h
  by_cases c1 : (la ts eof).type ≠ .Ident
  · simp only [if_pos c1] at h; exact absurd h (by simp)
  simp only [if_neg c1] at h
  have l1 := la_cons_of heof (not_not.1 c1) (by decide)
  by_cases c2 : (la ts.tail eof).type ≠ .LBrace
  · simp only [if_pos c2] at h; exact absurd h (by simp)
  simp only [if_neg c2] at h
  have l2 := la_cons_of heof (not_not.1 c2) (by decide)
  cases hx : parseElementBody enums eof n ts.tail.tail
      (handler ++ [.startElement (la ts eof).text]) with
  | error e h5 => simp [hx] at h
  | timeout => simp [hx] at h
  | ok ts5 h5 =>
    simp only [hx] at h
    by_cases c5 : (la ts5 eof).type ≠ .RBrace
    · simp only [if_pos c5] at h; exact absurd h (by simp)
    simp only [if_neg c5, TOutcome.ok.injEq] at h
    have l3 := la_cons_of heof (not_not.1 c5) (by decide)
    obtain ⟨body, cs, e1, im1, e2, -⟩ := parseElementBody_sound heof n _ _ _ _ hx
    refine ⟨la ts eof, la ts.tail eof, body, cs, la ts5 eof, ?_, not_not.1 c1, not_not.1 c2,
      im1, not_not.1 c5, ?_⟩
    · rw [← h.1, ← l3, ← e1, ← l2, ← l1]
    · rw [← h.2, e2]; simp

theorem parseLoop_sound {enums : EnumMap} {eof : Token} (heof : eof.type = .Eof)
    (n : Nat) : ∀ (ts : List Token) (handler : List Event) (ts' : List Token)
      (handler' : List Event), parseLoop enums eof n ts handler = .ok ts' handler' →
      ∃ body doc, ts = body ++ ts' ∧ IsDocument enums body doc ∧
        handler' = handler ++ documentEvents doc ∧ (la ts' eof).type = .Eof := by
  induction n with
  | zero => intro ts handler ts' handler' h; simp [parseLoop] at h
  | succ n ih =>
    intro ts handler ts' handler' h
    rw [parseLoop] at h
    by_cases c1 : (la ts eof).type ≠ .Eof
    · simp only [if_pos c1] at h
      cases hx : parseElement enums eof n ts handler with
      | error e h5 => simp [hx] at h
      | timeout => simp [hx] at h
      | ok ts1 h1 =>
        simp only [hx] at h
        obtain ⟨name, lb, body, cs, rb, e1, t1, t2, im, t3, e2⟩ := parseElement_sound heof hx
        obtain ⟨rest, doc, e3, idoc, e4, e5⟩ := ih _ _ _ _ h
        refine ⟨name :: lb :: (body ++ rb :: rest), ⟨name.text, cs⟩ :: doc, ?_,
          .cons _ _ _ _ _ _ _ t1 t2 im t3 idoc, ?_, e5⟩
        · rw [e1, e3]; simp
        · rw [e4, e2]; simp [documentEvents]
    · simp only [if_neg c1, TOutcome.ok.injEq] at h
      exact ⟨[], [], by simp [h.1], .nil, by simp [h.2, documentEvents],
        by rw [← h.1]; exact not_not.1 c1⟩

end Tok

namespace Tok

theorem isValue_ne_nil {enums : EnumMap} {property : List Char} {vts : List Token}
    {v : PropertyValue} (h : IsValue enums property vts v) : 0 < vts.length := by
  cases h <;> simp

theorem parseValue_length {enums : EnumMap} {property : List Char} {ts : List Token}
    {eof : Token} (heof : eof.type = .Eof) {v : PropertyValue × List Token}
    (h : parseValue enums property ts eof = .ok v) : v.2.length < ts.length := by
  obtain ⟨vts, e, iv⟩ := parseValue_sound heof h
  have := isValue_ne_nil iv
  rw [e, List.length_append]
  omega

theorem parseElementBody_length {enums : EnumMap} {eof : Token} (heof : eof.type = .Eof)
    {n : Nat} {ts : List Token} {handler : List Event} {ts' : List Token}
    {handler' : List Event} (h : parseElementBody enums eof n ts handler = .ok ts' handler') :
    ts'.length ≤ ts.length := by
  obtain ⟨body, ms, e, -⟩ := parseElementBody_sound heof n _ _ _ _ h
  rw [e, List.length_append]
  omega

theorem parseElement_length {enums : EnumMap} {eof : Token} (heof : eof.type = .Eof)
    {n : Nat} {ts : List Token} {handler : List Event} {ts' : List Token}
    {handler' : List Event} (h : parseElement enums eof n ts handler = .ok ts' handler') :
    ts'.length < ts.length := by
  obtain ⟨name, lb, body, cs, rb, e, -⟩ := parseElement_sound heof h
  rw [e]
  simp only [List.length_cons, List.length_append]
  omega

theorem length_tail_lt {ts : List Token} {eof : Token} (heof : eof.type = .Eof)
    (h : (la ts eof).type ≠ .Eof) : ts.tail.length + 1 = ts.length := by
  have := la_cons heof h
  conv => rhs; rw [this]
  simp

/-- With fuel for every token left, the result of `parseElementBody` does not depend on the
fuel. -/
theorem parseElementBody_fuel {enums : EnumMap} {eof : Token} (heof : eof.type = .Eof)
    (n : Nat) : ∀ (m : Nat) (ts : List Token) (handler : List Event), ts.length < n →
      ts.length < m →
      parseElementBody enums eof n ts handler = parseElementBody enums eof m ts handler := by
  induction n with
  | zero => intro m ts handler hn; omega
  | succ n ih =>
    intro m ts handler hn hm
    cases m with
    | zero => omega
    | succ m =>
      rw [parseElementBody, parseElementBody]
      by_cases c1 : (la ts eof).type ≠ .RBrace ∧ (la ts eof).type ≠ .Eof
      · simp only [if_pos c1]
        have l1 := length_tail_lt heof c1.2
        by_cases c2 : (la ts eof).type ≠ .Ident
        · simp only [if_pos c2]
        simp only [if_neg c2]
        by_cases c3 : (la ts.tail eof).type = .Colon
        · simp only [if_pos c3]
          have l2 := length_tail_lt heof (show (la ts.tail eof).type ≠ .Eof by rw [c3]; decide)
          cases hv : parseValue enums (la ts eof).text ts.tail.tail eof with
          | error e => rfl
          | ok v =>
            have := parseValue_length heof hv
            exact ih m _ _ (by omega) (by omega)
        simp only [if_neg c3]
        by_cases c4 : (la ts.tail eof).type ≠ .LBrace
        · simp only [if_pos c4]
        simp only [if_neg c4]
        have l2 := length_tail_lt heof
          (show (la ts.tail eof).type ≠ .Eof by rw [not_not.1 c4]; decide)
        rw [ih m ts.tail.tail _ (by omega) (by omega)]
        cases hx : parseElementBody enums eof m ts.tail.tail
            (handler ++ [.startElement (la ts eof).text]) with
        | error e h5 => rfl
        | timeout => rfl
        | ok ts5 h5 =>
          simp only
          have := parseElementBody_length heof hx
          by_cases c5 : (la ts5 eof).type ≠ .RBrace
          · simp only [if_pos c5]
          simp only [if_neg c5]
          have : ts5.tail.length ≤ ts5.length := by simp
          exact ih m _ _ (by omega) (by omega)
      · simp only [if_neg c1]

theorem parseElement_fuel {enums : EnumMap} {eof : Token} (heof : eof.type = .Eof)
    (n m : Nat) (ts : List Token) (handler : List Event) (hn : ts.length ≤ n)
    (hm : ts.length ≤ m) :
    parseElement enums eof n ts handler = parseElement enums eof m ts handler := by
  unfold parseElement
  by_cases c1 : (la ts eof).type ≠ .Ident
  · simp only [if_pos c1]
  simp only [if_neg c1]
  have l1 := length_tail_lt heof (show (la ts eof).type ≠ .Eof by rw [not_not.1 c1]; decide)
  by_cases c2 : (la ts.tail eof).type ≠ .LBrace
  · simp only [if_pos c2]
  simp only [if_neg c2]
  have l2 := length_tail_lt heof
    (show (la ts.tail eof).type ≠ .Eof by rw [not_not.1 c2]; decide)
  rw [parseElementBody_fuel heof n m ts.tail.tail _ (by omega) (by omega)]

theorem parseLoop_fuel {enums : EnumMap} {eof : Token} (heof : eof.type = .Eof)
    (n : Nat) : ∀ (m : Nat) (ts : List Token) (handler : List Event), ts.length < n →
      ts.length < m →
      parseLoop enums eof n ts handler = parseLoop enums eof m ts handler := by
  induction n with
  | zero => intro m ts handler hn; omega
  | succ n ih =>
    intro m ts handler hn hm
    cases m with
    | zero => omega
    | succ m =>
      rw [parseLoop, parseLoop]
      by_cases c1 : (la ts eof).type ≠ .Eof
      · simp only [if_pos c1]
        rw [parseElement_fuel heof n m ts handler (by omega) (by omega)]
        cases hx : parseElement enums eof m ts handler with
        | error e h5 => rfl
        | timeout => rfl
        | ok ts1 h1 =>
          simp only
          have := parseElement_length heof hx
          exact ih m _ _ (by omega) (by omega)
      · simp only [if_neg c1]

/-! ### Completeness -/

theorem isMembers_head {enums : EnumMap} {ts : List Token} {ms : Members}
    (h : IsMembers enums ts ms) (rest : List Token) (eof : Token) :
    ts = [] ∨ (la (ts ++ rest) eof).type = .Ident := by
  cases h with
  | nil => exact Or.inl rfl
  | property name colon vts v rest0 ms t1 t2 iv im => exact Or.inr t1
  | element name lb body cs rb rest0 ms t1 t2 im1 t3 im2 => exact Or.inr t1

theorem parseValue_complete {enums : EnumMap} {property : List Char} {vts : List Token}
    {v : PropertyValue} (h : IsValue enums property vts v) (rest : List Token) (eof : Token)
    (hrest : (la rest eof).type ≠ .Comma) :
    parseValue enums property (vts ++ rest) eof = .ok (v, rest) := by
  cases h with
  | string t ht => simp [parseValue, la, ht]
  | float t ht => simp [parseValue, la, ht]
  | bool t ht => simp [parseValue, la, ht]
  | int a ha =>
    have : ¬ (rest.head?.getD eof).type = .Comma := by simpa [la] using hrest
    simp [parseValue, la, ha, this]
  | vec2 a c b ha hc hb =>
    have : ¬ (rest.head?.getD eof).type = .Comma := by simpa [la] using hrest
    simp [parseValue, la, ha, hc, hb, this]
  | vec3 a c b d e ha hc hb hd he => simp [parseValue, la, ha, hc, hb, hd, he]
  | enum t ht hal => simp [parseValue, la, ht, hal]

/-- A member list of the grammar, followed by `}` or the end, is consumed whole by
`parseElementBody`, and the handler receives its flattening. -/
theorem parseElementBody_complete {enums : EnumMap} (eof : Token) {body : List Token}
    {ms : Members} (h : IsMembers enums body ms) :
    ∀ (n : Nat) (rest : List Token) (handler : List Event),
      ((la rest eof).type = .RBrace ∨ (la rest eof).type = .Eof) → body.length < n →
      parseElementBody enums eof n (body ++ rest) handler = .ok rest (handler ++ ms.events) := by
  induction h with
  | nil =>
    intro n rest handler hrest hn
    cases n with
    | zero => omega
    | succ n =>
      rw [parseElementBody]
      have : ¬ ((la rest eof).type ≠ .RBrace ∧ (la rest eof).type ≠ .Eof) := by
        rcases hrest with h | h <;> simp [h]
      simp [this, Members.events]
  | property name colon vts v rest0 ms t1 t2 iv im ih =>
    intro n rest handler hrest hn
    cases n with
    | zero => omega
    | succ n =>
      rw [parseElementBody]
      have hc : (la (rest0 ++ rest) eof).type ≠ .Comma := by
        rcases isMembers_head im rest eof with h | h
        · rw [h]; rcases hrest with h | h <;> simp [h]
        · rw [h]; decide
      have hv := parseValue_complete iv (rest0 ++ rest) eof hc
      simp only [List.length_cons, List.length_append] at hn
      have := ih n rest (handler ++ [.onProperty name.text v]) hrest (by omega)
      simp [la, t1, t2, hv, this, Members.events]
  | element name lb body cs rb rest0 ms t1 t2 im1 t3 im2 ih1 ih2 =>
    intro n rest handler hrest hn
    cases n with
    | zero => omega
    | succ n =>
      rw [parseElementBody]
      simp only [List.length_cons, List.length_append] at hn
      have h1 := ih1 n (rb :: (rest0 ++ rest)) (handler ++ [.startElement name.text])
        (Or.inl t3) (by omega)
      have h2 := ih2 n rest (handler ++ [.startElement name.text] ++ cs.events ++
        [.endElement name.text]) hrest (by omega)
      simp [la, t1, t2, t3, h1, Members.events]
      simpa using h2

theorem parseLoop_complete {enums : EnumMap} {eof : Token} (heof : eof.type = .Eof)
    {ts : List Token} {doc : List Element} (h : IsDocument enums ts doc) :
    ∀ (n : Nat) (handler : List Event), ts.length < n →
      parseLoop enums eof n ts handler = .ok [] (handler ++ documentEvents doc) := by
  induction h with
  | nil =>
    intro n handler hn
    cases n with
    | zero => omega
    | succ n => simp [parseLoop, la, heof, documentEvents]
  | cons name lb body cs rb rest es t1 t2 im t3 idoc ih =>
    intro n handler hn
    cases n with
    | zero => omega
    | succ n =>
      rw [parseLoop]
      simp only [List.length_cons, List.length_append] at hn
      have h1 := parseElementBody_complete eof im n (rb :: rest)
        (handler ++ [.startElement name.text]) (Or.inl t3) (by omega)
      have h2 := ih n (handler ++ [.startElement name.text] ++ cs.events ++
        [.endElement name.text]) (by omega)
      simp [parseElement, la, t1, t2, t3, h1, documentEvents]
      simpa using h2

end Tok

/-! ## A parse that returns normally has tokenised its input -/

theorem Res.bind_eq_ok {α β : Type} {r : Res α} {k : α → Res β} {b : β}
    (h : r.bind k = .ok b) : ∃ a, r = .ok a ∧ k a = .ok b := by
  cases r with
  | ok a => exact ⟨a, rfl, h⟩
  | error e => simp [Res.bind] at h
  | timeout => simp [Res.bind] at h

theorem Res.on_eq_ok {α : Type} {r : Res α} {handler : List Event} {k : α → Outcome}
    {p' : SmlSaxParser} {handler' : List Event} (h : r.on handler k = .ok p' handler') :
    ∃ a, r = .ok a ∧ k a = .ok p' handler' := by
  cases r with
  | ok a => exact ⟨a, rfl, h⟩
  | error e => simp [Res.on] at h
  | timeout => simp [Res.on] at h

theorem Outcome.andThen_eq_ok {o : Outcome} {k : SmlSaxParser → List Event → Outcome}
    {p' : SmlSaxParser} {handler' : List Event} (h : o.andThen k = .ok p' handler') :
    ∃ p handler, o = .ok p handler ∧ k p handler = .ok p' handler' := by
  cases o with
  | ok p handler => exact ⟨p, handler, rfl, h⟩
  | error e handler => simp [Outcome.andThen] at h
  | timeout => simp [Outcome.andThen] at h

namespace SmlSaxParser

theorem Reach.refl (p : SmlSaxParser) : p.Reach p :=
  ⟨id, 0, rfl⟩

theorem Reach.trans {p q r : SmlSaxParser} (h1 : p.Reach q) (h2 : q.Reach r) : p.Reach r := by
  obtain ⟨a1, k1, e1⟩ := h1
  obtain ⟨a2, k2, e2⟩ := h2
  exact ⟨fun hs => a1 (a2 hs), k1 + k2, by rw [e2, e1, SmlLexer.advance_advance]⟩

theorem fetch_reach {p : SmlSaxParser} {r : Token × SmlLexer} (h : p.lexer_.next = .ok r) :
    p.Reach { p with lexer_ := r.2, lookahead_ := r.1 } := by
  refine ⟨fun hs => ?_, ?_⟩
  · rw [stream_fetch h] at hs
    unfold stream
    split
    · rfl
    · cases ht : p.lexer_.tokens with
      | none => rw [ht] at hs; exact absurd hs (by simp)
      | some q => rfl
  · obtain ⟨k, -, e, -⟩ := SmlLexer.next_reads h
    exact ⟨k, e⟩

theorem consume_reach {p : SmlSaxParser} {a : Token × SmlSaxParser} (h : consume p = .ok a) :
    p.Reach a.2 := by
  unfold consume at h
  cases hn : p.lexer_.next with
  | error e => simp [hn] at h
  | ok r =>
    simp only [hn, Res.ok.injEq] at h
    rw [← h]
    exact fetch_reach hn

theorem expect_reach {p : SmlSaxParser} {type : TokenType} {a : Token × SmlSaxParser}
    (h : expect p type = .ok a) : p.Reach a.2 := by
  unfold expect at h
  split at h
  · simp at h
  · exact consume_reach h

theorem skipLoop_reach (n : Nat) {p p' : SmlSaxParser} (h : skipLoop n p = .ok p') :
    p.Reach p' := by
  induction n generalizing p with
  | zero =>
    unfold skipLoop at h
    split at h
    · simp at h
    · simp only [Res.ok.injEq] at h; rw [h]; exact Reach.refl _
  | succ n ih =>
    unfold skipLoop at h
    split at h
    · cases hn : p.lexer_.next with
      | error e => simp [hn] at h
      | ok r =>
        simp only [hn] at h
        exact (fetch_reach hn).trans (ih h)
    · simp only [Res.ok.injEq] at h; rw [h]; exact Reach.refl _

theorem skip_reach {p p' : SmlSaxParser} (h : skipIgnorables p = .ok p') : p.Reach p' :=
  skipLoop_reach _ h

theorem parseValue_reach {property : List Char} {p : SmlSaxParser}
    {a : PropertyValue × SmlSaxParser} (h : parseValue property p = .ok a) : p.Reach a.2 := by
  unfold parseValue at h
  split at h
  · obtain ⟨r, hr, h⟩ := Res.bind_eq_ok h
    simp only [Res.ok.injEq] at h
    rw [← h]; exact consume_reach hr
  split at h
  · obtain ⟨r, hr, h⟩ := Res.bind_eq_ok h
    simp only [Res.ok.injEq] at h
    rw [← h]; exact consume_reach hr
  split at h
  · obtain ⟨r, hr, h⟩ := Res.bind_eq_ok h
    simp only [Res.ok.injEq] at h
    rw [← h]; exact consume_reach hr
  split at h
  · obtain ⟨r1, e1, h⟩ := Res.bind_eq_ok h
    obtain ⟨p2, e2, h⟩ := Res.bind_eq_ok h
    refine (consume_reach e1).trans ((skip_reach e2).trans ?_)
    split at h
    · simp only [Res.ok.injEq] at h; rw [← h]; exact Reach.refl _
    obtain ⟨r3, e3, h⟩ := Res.bind_eq_ok h
    obtain ⟨p4, e4, h⟩ := Res.bind_eq_ok h
    refine (consume_reach e3).trans ((skip_reach e4).trans ?_)
    split at h
    · simp at h
    obtain ⟨r5, e5, h⟩ := Res.bind_eq_ok h
    obtain ⟨p6, e6, h⟩ := Res.bind_eq_ok h
    refine (consume_reach e5).trans ((skip_reach e6).trans ?_)
    split at h
    · obtain ⟨r7, e7, h⟩ := Res.bind_eq_ok h
      obtain ⟨p8, e8, h⟩ := Res.bind_eq_ok h
      refine (consume_reach e7).trans ((skip_reach e8).trans ?_)
      split at h
      · simp at h
      obtain ⟨r9, e9, h⟩ := Res.bind_eq_ok h
      simp only [Res.ok.injEq] at h
      rw [← h]; exact consume_reach e9
    · simp only [Res.ok.injEq] at h; rw [← h]; exact Reach.refl _
  split at h
  · obtain ⟨r, hr, h⟩ := Res.bind_eq_ok h
    split at h
    · simp at h
    simp only [Res.ok.injEq] at h
    rw [← h]; exact consume_reach hr
  · simp at h

theorem parseElementBody_reach (n : Nat) : ∀ (p : SmlSaxParser) (handler : List Event)
    (p' : SmlSaxParser) (handler' : List Event),
    parseElementBody n p handler = .ok p' handler' → p.Reach p' := by
  induction n with
  | zero => intro p handler p' handler' h; simp [parseElementBody] at h
  | succ n ih =>
    intro p handler p' handler' h
    rw [parseElementBody] at h
    split at h
    · split at h
      · simp at h
      obtain ⟨ident, e1, h⟩ := Res.on_eq_ok h
      obtain ⟨p2, e2, h⟩ := Res.on_eq_ok h
      refine (consume_reach e1).trans ((skip_reach e2).trans ?_)
      split at h
      · obtain ⟨r3, e3, h⟩ := Res.on_eq_ok h
        obtain ⟨p4, e4, h⟩ := Res.on_eq_ok h
        obtain ⟨value, e5, h⟩ := Res.on_eq_ok h
        obtain ⟨p6, e6, h⟩ := Res.on_eq_ok h
        exact (consume_reach e3).trans ((skip_reach e4).trans ((parseValue_reach e5).trans
          ((skip_reach e6).trans (ih _ _ _ _ h))))
      split at h
      · simp at h
      obtain ⟨r3, e3, h⟩ := Res.on_eq_ok h
      obtain ⟨p4, e4, h⟩ := Res.on_eq_ok h
      obtain ⟨p5, h5, e5, h⟩ := Outcome.andThen_eq_ok h
      obtain ⟨r6, e6, h⟩ := Res.on_eq_ok h
      obtain ⟨p7, e7, h⟩ := Res.on_eq_ok h
      exact (consume_reach e3).trans ((skip_reach e4).trans ((ih _ _ _ _ e5).trans
        ((expect_reach e6).trans ((skip_reach e7).trans (ih _ _ _ _ h)))))
    · simp only [Outcome.ok.injEq] at h; rw [h.1]; exact Reach.refl _

theorem parseElement_reach {n : Nat} {p : SmlSaxParser} {handler : List Event}
    {p' : SmlSaxParser} {handler' : List Event}
    (h : parseElement n p handler = .ok p' handler') : p.Reach p' := by
  unfold parseElement at h
  obtain ⟨name, e1, h⟩ := Res.on_eq_ok h
  obtain ⟨p2, e2, h⟩ := Res.on_eq_ok h
  obtain ⟨r3, e3, h⟩ := Res.on_eq_ok h
  obtain ⟨p4, e4, h⟩ := Res.on_eq_ok h
  obtain ⟨p5, h5, e5, h⟩ := Outcome.andThen_eq_ok h
  obtain ⟨r6, e6, h⟩ := Res.on_eq_ok h
  simp only [Outcome.ok.injEq] at h
  rw [parseElementLoop_eq] at e5
  rw [← h.1]
  exact (expect_reach e1).trans ((skip_reach e2).trans ((expect_reach e3).trans
    ((skip_reach e4).trans ((parseElementBody_reach _ _ _ _ _ e5).trans (expect_reach e6)))))

theorem parseLoop_reach (n : Nat) : ∀ (p : SmlSaxParser) (handler : List Event)
    (p' : SmlSaxParser) (handler' : List Event),
    parseLoop n p handler = .ok p' handler' → p.Reach p' ∧ p'.lookahead_.type = .Eof := by
  induction n with
  | zero => intro p handler p' handler' h; simp [parseLoop] at h
  | succ n ih =>
    intro p handler p' handler' h
    rw [parseLoop] at h
    split at h
    · obtain ⟨p1, h1, e1, h⟩ := Outcome.andThen_eq_ok h
      obtain ⟨p2, e2, h⟩ := Res.on_eq_ok h
      obtain ⟨a, b⟩ := ih _ _ _ _ h
      exact ⟨(parseElement_reach e1).trans ((skip_reach e2).trans a), b⟩
    · next hne =>
      simp only [Outcome.ok.injEq] at h
      rw [← h.1]
      exact ⟨Reach.refl _, not_not.1 hne⟩

theorem parse_reach {p : SmlSaxParser} {handler : List Event} {p' : SmlSaxParser}
    {handler' : List Event} (h : parse p handler = .ok p' handler') :
    p.Reach p' ∧ p'.lookahead_.type = .Eof := by
  unfold parse at h
  obtain ⟨p1, e1, h⟩ := Res.on_eq_ok h
  obtain ⟨a, b⟩ := parseLoop_reach _ _ _ _ _ h
  exact ⟨(skip_reach e1).trans a, b⟩

end SmlSaxParser

/-! ## Whole runs -/

theorem tokens_length {lx : SmlLexer} {ts : List Token} {eof : Token}
    (h : lx.tokens = some (ts, eof)) : ts.length ≤ lx.rest.length := by
  obtain ⟨n, hn⟩ : ∃ n, lx.rest.length = n := ⟨_, rfl⟩
  induction n using Nat.strong_induction_on generalizing lx ts with
  | _ n ih =>
    rw [tokens_unfold] at h
    cases hx : lx.next with
    | error e => simp [hx] at h
    | ok r =>
      simp only [hx] at h
      split at h
      · simp only [Option.some.injEq, Prod.mk.injEq] at h
        rw [← h.1]; exact Nat.zero_le _
      · next hne =>
        cases h2 : r.2.tokens with
        | none => simp [h2] at h
        | some q =>
          simp only [h2, Option.map_some', Option.some.injEq, Prod.mk.injEq] at h
          have hlt := SmlLexer.next_advances hx hne
          have := ih r.2.rest.length (by omega)
            (show r.2.tokens = some (q.1, eof) by rw [h2, ← h.2]) rfl
          rw [← h.1, List.length_cons]
          omega

theorem sig_length_le (ts : List Token) : (sig ts).length ≤ ts.length :=
  List.length_filter_le _ _

namespace SmlSaxParser

theorem Ready.length {p : SmlSaxParser} {enums : EnumMap} {ts : List Token} {eof : Token}
    (h : p.Pending enums ts eof) : ts.length ≤ p.lexer_.rest.length + 1 := by
  obtain ⟨_, _, all, hs, hsig⟩ := h
  unfold stream at hs
  split at hs
  · simp at hs; rw [← hsig, hs.1]; simp [sig]
  · cases ht : p.lexer_.tokens with
    | none => simp [ht] at hs
    | some q =>
      simp only [ht, Option.map_some', Option.some.injEq, Prod.mk.injEq] at hs
      have := tokens_length (show p.lexer_.tokens = some (q.1, q.2) from ht)
      have h2 := sig_length_le all
      rw [← hsig]
      rw [← hs.1, List.length_cons] at h2
      rw [← hs.1]
      omega

theorem pending_mk0 (enums : EnumMap) {input : List Char} {all : List Token} {eof : Token}
    (h : tokenize input = some (all, eof)) :
    ∃ r, (SmlLexer.mk0 input).next = .ok r ∧
      (⟨r.2, r.1, enums⟩ : SmlSaxParser).Pending enums (sig all) eof := by
  unfold tokenize at h
  cases hn : (SmlLexer.mk0 input).next with
  | error e => rw [tokens_unfold, hn] at h; simp at h
  | ok r =>
    refine ⟨r, rfl, rfl, ⟨SmlLexer.mk0 input, hn⟩, all, ?_, rfl⟩
    have := stream_fetch (p := ⟨SmlLexer.mk0 input, r.1, enums⟩) hn
    rw [← h, ← this]

end SmlSaxParser

/-- On an input that tokenises, a run of the parser is the token-level run on the significant
tokens. -/
theorem parseText_sim (enums : EnumMap) {input : List Char} {all : List Token} {eof : Token}
    (h : tokenize input = some (all, eof)) :
    Simulates enums eof (parseText enums input) (Tok.parse enums eof (sig all)) := by
  obtain ⟨r, hn, hp⟩ := SmlSaxParser.pending_mk0 enums h
  obtain ⟨p1, s1, r1⟩ := SmlSaxParser.skip_pending hp
  have heof := (SmlSaxParser.Ready.eof_type hp).1
  have hlen := SmlSaxParser.Ready.length r1.1
  have hsim := SmlSaxParser.sim_loop enums eof (p1.lexer_.rest.length + 2) p1 [] (sig all) r1
  rw [Tok.parseLoop_fuel heof _ ((sig all).length + 1) _ _ (by omega) (by omega)] at hsim
  have e : parseText enums input = SmlSaxParser.parseLoop (p1.lexer_.rest.length + 2) p1 [] := by
    simp only [parseText, SmlSaxParser.mk0, hn, Res.on, SmlSaxParser.parse, s1]
  rw [e]
  exact hsim

/-- A run that returns normally has tokenised the whole input. -/
theorem parseText_tokenises {enums : EnumMap} {input : List Char} {p : SmlSaxParser}
    {handler : List Event} (h : parseText enums input = .ok p handler) :
    (∃ all eof, tokenize input = some (all, eof)) ∧ p.lookahead_.type = .Eof ∧
      ∃ k, p.lexer_ = SmlLexer.advance k (SmlLexer.mk0 input) := by
  unfold parseText at h
  obtain ⟨p0, e0, h⟩ := Res.on_eq_ok h
  unfold SmlSaxParser.mk0 at e0
  cases hn : (SmlLexer.mk0 input).next with
  | error e => simp [hn] at e0
  | ok r =>
    simp only [hn, Res.ok.injEq] at e0
    obtain ⟨⟨a, k, hk⟩, b⟩ := SmlSaxParser.parse_reach h
    obtain ⟨j, -, hj, -⟩ := SmlLexer.next_reads hn
    refine ⟨?_, b, j + k, ?_⟩
    · have hs : p.stream.isSome := by
        unfold SmlSaxParser.stream
        rw [if_pos b]; rfl
      have h1 := a hs
      have h2 := SmlSaxParser.stream_fetch (p := ⟨SmlLexer.mk0 input, r.1, enums⟩) hn
      rw [← e0] at h1
      have h3 : (tokenize input).isSome := by
        unfold tokenize
        rw [← h2]
        exact h1
      obtain ⟨q, hq⟩ := Option.isSome_iff_exists.1 h3
      exact ⟨q.1, q.2, hq⟩
    · rw [hk, ← e0]
      simp only
      rw [hj, SmlLexer.advance_advance]

/-! ## Position of the end of input -/

theorem Span.over_index (s : Span) (cs : List Char) : (s.over cs).index = s.index + cs.length := by
  induction cs generalizing s with
  | nil => rfl
  | cons c cs ih =>
    simp only [Span.over, List.foldl_cons] at ih ⊢
    rw [ih]
    unfold Span.step
    split <;> simp <;> omega

theorem drop_nil_of_head_nul {input : List Char} {k : Nat} (hnul : NUL ∉ input)
    (h : input.drop k = [] ∨ (input.drop k).getD 0 NUL = NUL) : input.drop k = [] := by
  rcases h with h | h
  · exact h
  · cases hd : input.drop k with
    | nil => rfl
    | cons c r =>
      rw [hd] at h
      simp only [List.getD_cons_zero] at h
      have : c ∈ input := List.mem_of_mem_drop (hd ▸ List.mem_cons_self c r)
      rw [h] at this
      exact absurd this hnul

/-- Where the `Eof` token of an input that tokenises sits: after the sources of all tokens, at
the end of the input or at a NUL; at the very end when the input has no NUL. -/
theorem eof_position {input : List Char} {all : List Token} {eof : Token}
    (h : tokenize input = some (all, eof)) :
    ∃ k, k ≤ input.length ∧ (all.map Token.source).flatten = input.take k ∧
      eof = ⟨.Eof, [], (Span.mk 0 1 1).over (input.take k), (Span.mk 0 1 1).over (input.take k)⟩ ∧
      (input.drop k = [] ∨ (input.drop k).getD 0 NUL = NUL) ∧
      (NUL ∉ input → input.take k = input) := by
  obtain ⟨k, hk, e1, e2, e3⟩ := tokens_source h
  rw [SmlLexer.advance_span] at e2
  have e3' : input.drop k = [] ∨ (input.drop k).getD 0 NUL = NUL := by
    simpa [SmlLexer.peek, SmlLexer.advance_rest, SmlLexer.mk0] using e3
  refine ⟨k, hk, e1, e2, e3', fun hnul => ?_⟩
  have := drop_nil_of_head_nul hnul e3'
  have hk2 : input.length ≤ k := List.drop_eq_nil_iff.1 this
  exact List.take_of_length_le hk2

/-! ## C1: which inputs parse -/

theorem la_eof_nil {ts : List Token} {eof : Token} (hts : ∀ t ∈ ts, t.type ≠ .Eof)
    (h : (Tok.la ts eof).type = .Eof) : ts = [] := by
  cases ts with
  | nil => rfl
  | cons t ts => exact absurd h (hts t (List.mem_cons_self _ _))

theorem sig_types {input : List Char} {all : List Token} {eof : Token}
    (h : tokenize input = some (all, eof)) :
    eof.type = .Eof ∧ ∀ t ∈ sig all, t.type ≠ .Eof := by
  obtain ⟨a, b⟩ := tokens_types h
  exact ⟨a, fun t ht => b t (List.mem_filter.1 ht).1⟩

/-- On an input that tokenises, the run returns normally exactly when the significant tokens
form a document of the grammar, and then the handler has received its flattening. -/
theorem parseText_of_document {enums : EnumMap} {input : List Char} {all : List Token}
    {eof : Token} {doc : List Element} (h : tokenize input = some (all, eof))
    (hd : IsDocument enums (sig all) doc) :
    ∃ p, parseText enums input = .ok p (documentEvents doc) := by
  have hs := parseText_sim enums h
  have hc := Tok.parseLoop_complete (sig_types h).1 hd ((sig all).length + 1) []
    (Nat.lt_succ_self _)
  unfold Tok.parse at hs
  rw [hc] at hs
  obtain ⟨p, e, -⟩ := hs
  exact ⟨p, by simpa using e⟩

theorem document_of_parseText {enums : EnumMap} {input : List Char} {p : SmlSaxParser}
    {handler : List Event} (h : parseText enums input = .ok p handler) :
    ∃ all eof doc, tokenize input = some (all, eof) ∧ IsDocument enums (sig all) doc ∧
      handler = documentEvents doc ∧ p.Ready enums [] eof := by
  obtain ⟨⟨all, eof, ht⟩, -, -⟩ := parseText_tokenises h
  have hs := parseText_sim enums ht
  cases hx : Tok.parse enums eof (sig all) with
  | error e h5 => rw [hx, h] at hs; simp [Simulates] at hs
  | timeout => rw [hx, h] at hs; simp [Simulates] at hs
  | ok ts' h' =>
    rw [hx, h] at hs
    obtain ⟨p', e, r⟩ := hs
    simp only [Outcome.ok.injEq] at e
    obtain ⟨body, doc, e1, idoc, e2, e3⟩ := Tok.parseLoop_sound (sig_types ht).1 _ _ _ _ _ hx
    have hnil : ts' = [] := by
      apply la_eof_nil _ e3
      intro t hin
      exact (sig_types ht).2 t (by rw [e1]; exact List.mem_append_right _ hin)
    rw [hnil, List.append_nil] at e1
    rw [hnil] at r
    exact ⟨all, eof, doc, ht, e1 ▸ idoc, by rw [e.2, e2]; simp, e.1 ▸ r⟩

/-- C1 (as amended): `parse` returns normally exactly when the input tokenises and its
significant tokens (whitespace and comments discarded) are a sequence of zero or more elements of
the grammar; when it returns normally, the lexer cursor is at the end of the input or at a NUL
character (which `next` reports as `Eof`), and at the end of the input (index = input length)
when the input contains no NUL. -/
theorem parse_returns_iff_grammar (enums : EnumMap) (input : List Char) :
    ((parseText enums input).returnsNormally = true ↔
      ∃ all eof doc, tokenize input = some (all, eof) ∧ IsDocument enums (sig all) doc) ∧
    (∀ lx, (parseText enums input).lexer = some lx →
      (lx.rest = [] ∨ lx.peek 0 = NUL) ∧
      (∃ k, lx = SmlLexer.advance k (SmlLexer.mk0 input)) ∧
      (NUL ∉ input → lx.rest = [] ∧ lx.i_ = input.length)) := by
  constructor
  · constructor
    · intro h
      cases hx : parseText enums input with
      | error e h5 => rw [hx] at h; simp [Outcome.returnsNormally] at h
      | timeout => rw [hx] at h; simp [Outcome.returnsNormally] at h
      | ok p handler =>
        obtain ⟨all, eof, doc, a, b, -⟩ := document_of_parseText hx
        exact ⟨all, eof, doc, a, b⟩
    · rintro ⟨all, eof, doc, a, b⟩
      obtain ⟨p, e⟩ := parseText_of_document a b
      rw [e]; rfl
  · intro lx hlx
    cases hx : parseText enums input with
    | error e h5 => rw [hx] at hlx; simp [Outcome.lexer] at hlx
    | timeout => rw [hx] at hlx; simp [Outcome.lexer] at hlx
    | ok p handler =>
      rw [hx] at hlx
      simp only [Outcome.lexer, Option.some.injEq] at hlx
      obtain ⟨-, hty, k, hk⟩ := parseText_tokenises hx
      obtain ⟨all, eof, doc, -, -, -, r⟩ := document_of_parseText hx
      obtain ⟨lx0, hn⟩ := r.1.2.1
      obtain ⟨e1, -, e3⟩ := SmlLexer.next_eof hn hty
      rw [← e1] at e3
      rw [← hlx]
      refine ⟨e3, ⟨k, hk⟩, fun hnul => ?_⟩
      have hdrop : input.drop k = [] := by
        apply drop_nil_of_head_nul hnul
        have := e3
        rw [hk, SmlLexer.advance_rest] at this
        simpa [SmlLexer.peek, hk, SmlLexer.advance_rest, SmlLexer.mk0] using this
      have hr : p.lexer_.rest = [] := by rw [hk, SmlLexer.advance_rest]; exact hdrop
      refine ⟨hr, ?_⟩
      have hsp := SmlLexer.advance_span k (SmlLexer.mk0 input)
      rw [← hk] at hsp
      have hi := congrArg Span.index hsp
      rw [Span.over_index] at hi
      have hk2 : input.length ≤ k := List.drop_eq_nil_iff.1 hdrop
      simp only [SmlLexer.spanStart, SmlLexer.mk0] at hi
      rw [hi, List.length_take]
      omega

/-- C1, the claim as stated fails: on `a{}` followed by a NUL character and `}` the parse returns
normally with the cursor at index 3 of 5, the NUL and the `}` unconsumed. -/
theorem parse_stops_at_nul :
    (parseText EnumMap.empty ['a', '{', '}', NUL, '}']).returnsNormally = true ∧
    (parseText EnumMap.empty ['a', '{', '}', NUL, '}']).lexer.map (fun lx => (lx.i_, lx.rest))
      = some (3, [NUL, '}']) ∧
    (['a', '{', '}', NUL, '}'] : List Char).length = 5 := by
  decide

/-! ## C2, C3: the events of a parse that returns normally -/

theorem nesting_append (s : List (List Char)) (a b : List Event) :
    nesting s (a ++ b) = (nesting s a).bind fun s' => nesting s' b := by
  induction a generalizing s with
  | nil => simp [nesting]
  | cons e a ih =>
    cases e with
    | startElement n => simp [nesting, ih]
    | onProperty n v => simp [nesting, ih]
    | endElement n =>
      cases s with
      | nil => simp [nesting]
      | cons top s =>
        simp only [List.cons_append, nesting]
        split
        · exact ih s
        · rfl

theorem nesting_members (ms : Members) (s : List (List Char)) : nesting s ms.events = some s := by
  induction ms generalizing s with
  | nil => rfl
  | property n v rest ih => simp [Members.events, nesting, ih]
  | element n cs rest ih1 ih2 =>
    simp [Members.events, nesting, nesting_append, ih1, ih2]

theorem nesting_document (doc : List Element) : nesting [] (documentEvents doc) = some [] := by
  induction doc with
  | nil => rfl
  | cons e es ih =>
    simp [documentEvents, nesting, nesting_append, nesting_members, ih]

theorem nesting_depth {s s' : List (List Char)} {evs : List Event}
    (h : nesting s evs = some s') : depth evs + s.length = s'.length := by
  induction evs generalizing s with
  | nil => simp [nesting] at h; simp [depth, h]
  | cons e evs ih =>
    cases e with
    | startElement n =>
      have := ih (s := n :: s) h
      simp only [depth, List.length_cons] at this ⊢
      omega
    | onProperty n v => exact ih (s := s) h
    | endElement n =>
      cases s with
      | nil => simp [nesting] at h
      | cons top s =>
        simp only [nesting] at h
        split at h
        · have := ih (s := s) h
          simp only [depth, List.length_cons] at this ⊢
          push_cast
          omega
        · simp at h

theorem nesting_take {s s' : List (List Char)} {evs : List Event}
    (h : nesting s evs = some s') (k : Nat) : ∃ s'', nesting s (evs.take k) = some s'' := by
  induction evs generalizing s k with
  | nil => exact ⟨s, by simp [nesting]⟩
  | cons e evs ih =>
    cases k with
    | zero => exact ⟨s, by simp [nesting]⟩
    | succ k =>
      cases e with
      | startElement n => exact ih (s := n :: s) h k
      | onProperty n v => exact ih (s := s) h k
      | endElement n =>
        cases s with
        | nil => simp [nesting] at h
        | cons top s =>
          simp only [nesting] at h
          split at h
          · next hn =>
            obtain ⟨s'', e⟩ := ih (s := s) h k
            exact ⟨s'', by simp [nesting, hn, e]⟩
          · simp at h

theorem count_members (ms : Members) (n : List Char) :
    ms.events.count (.startElement n) = ms.events.count (.endElement n) := by
  induction ms with
  | nil => rfl
  | property m v rest ih => simp [Members.events, List.count_cons, ih]
  | element m cs rest ih1 ih2 =>
    simp only [Members.events, List.count_cons, List.count_append, ih1, ih2]
    simp
    omega

theorem count_document (doc : List Element) (n : List Char) :
    (documentEvents doc).count (.startElement n) = (documentEvents doc).count (.endElement n) := by
  induction doc with
  | nil => rfl
  | cons e es ih =>
    simp only [documentEvents, List.count_cons, List.count_append, ih, count_members]
    simp
    omega

theorem events_of_returnsNormally {enums : EnumMap} {input : List Char}
    (h : (parseText enums input).returnsNormally = true) :
    ∃ all eof doc, tokenize input = some (all, eof) ∧ IsDocument enums (sig all) doc ∧
      (parseText enums input).events = documentEvents doc := by
  cases hx : parseText enums input with
  | error e h5 => rw [hx] at h; simp [Outcome.returnsNormally] at h
  | timeout => rw [hx] at h; simp [Outcome.returnsNormally] at h
  | ok p handler =>
    obtain ⟨all, eof, doc, a, b, c, -⟩ := document_of_parseText hx
    exact ⟨all, eof, doc, a, b, c⟩

/-- C2: when `parse` returns normally the emitted events are balanced.  Run against the stack of
open elements, every `endElement` carries the name of the innermost open element and closes it,
and no element is left open; every name is started as often as it is ended; the nesting depth
(starts minus ends) of every prefix is not negative, and it is zero at the end. -/
theorem parse_events_balanced (enums : EnumMap) (input : List Char)
    (h : (parseText enums input).returnsNormally = true) :
    nesting [] (parseText enums input).events = some [] ∧
    (∀ name, (parseText enums input).events.count (.startElement name) =
      (parseText enums input).events.count (.endElement name)) ∧
    (∀ k, 0 ≤ depth ((parseText enums input).events.take k)) ∧
    depth (parseText enums input).events = 0 := by
  obtain ⟨all, eof, doc, -, -, e⟩ := events_of_returnsNormally h
  rw [e]
  have hn := nesting_document doc
  refine ⟨hn, count_document doc, fun k => ?_, ?_⟩
  · obtain ⟨s'', hs⟩ := nesting_take hn k
    have := nesting_depth hs
    simp only [List.length_nil] at this
    omega
  · have := nesting_depth hn
    simpa using this

/-- C2 at `a { b { c: 1 } }`. -/
theorem parse_events_balanced_witness :
    (parseText EnumMap.empty "a \x7b b \x7b c: 1 \x7d \x7d".toList).returnsNormally = true ∧
    (nesting [] (parseText EnumMap.empty "a \x7b b \x7b c: 1 \x7d \x7d".toList).events = some [] ∧
      (∀ name, (parseText EnumMap.empty "a \x7b b \x7b c: 1 \x7d \x7d".toList).events.count
          (.startElement name) =
        (parseText EnumMap.empty "a \x7b b \x7b c: 1 \x7d \x7d".toList).events.count (.endElement name)) ∧
      (∀ k, 0 ≤ depth ((parseText EnumMap.empty "a \x7b b \x7b c: 1 \x7d \x7d".toList).events.take k)) ∧
      depth (parseText EnumMap.empty "a \x7b b \x7b c: 1 \x7d \x7d".toList).events = 0) :=
  ⟨by decide, parse_events_balanced _ _ (by decide)⟩

/-- C3: when `parse` returns normally, the input tokenises, its significant tokens form a
document of the grammar, and the emitted events are the document-order flattening of that
document (of every document the grammar assigns to the tokens): for each element
`startElement`, then its members in source order, a property as `onProperty` and a nested
element as its own events, then `endElement`. -/
theorem parse_events_document_order (enums : EnumMap) (input : List Char)
    (h : (parseText enums input).returnsNormally = true) :
    ∃ all eof doc, tokenize input = some (all, eof) ∧ IsDocument enums (sig all) doc ∧
      (parseText enums input).events = documentEvents doc ∧
      ∀ doc', IsDocument enums (sig all) doc' →
        (parseText enums input).events = documentEvents doc' := by
  obtain ⟨all, eof, doc, a, b, c⟩ := events_of_returnsNormally h
  refine ⟨all, eof, doc, a, b, c, fun doc' hd => ?_⟩
  obtain ⟨p, e⟩ := parseText_of_document a hd
  rw [e]; rfl

/-- C3 at scenario C, `a { b { c: 1 } }`: the events are start a, start b, property c = 1, end b,
end a; and at `a{p:2147483648}`, where the `int` payload of the property is -2147483648. -/
theorem parse_events_document_order_witness :
    (parseText EnumMap.empty "a \x7b b \x7b c: 1 \x7d \x7d".toList).returnsNormally = true ∧
    (parseText EnumMap.empty "a \x7b b \x7b c: 1 \x7d \x7d".toList).events =
      [.startElement ['a'], .startElement ['b'], .onProperty ['c'] (.FromInt 1),
        .endElement ['b'], .endElement ['a']] ∧
    (parseText EnumMap.empty "a\x7bp:2147483648\x7d".toList).events =
      [.startElement ['a'], .onProperty ['p'] (.FromInt (-2147483648)), .endElement ['a']] ∧
    ∃ all eof doc, tokenize "a \x7b b \x7b c: 1 \x7d \x7d".toList = some (all, eof) ∧
      IsDocument EnumMap.empty (sig all) doc ∧
      (parseText EnumMap.empty "a \x7b b \x7b c: 1 \x7d \x7d".toList).events = documentEvents doc ∧
      ∀ doc', IsDocument EnumMap.empty (sig all) doc' →
        (parseText EnumMap.empty "a \x7b b \x7b c: 1 \x7d \x7d".toList).events = documentEvents doc' :=
  ⟨by decide, by decide, by decide, parse_events_document_order _ _ (by decide)⟩

/-! ## C7: the parse depends on the significant tokens only -/

namespace Tok

theorem la_erase (ts : List Token) (eof : Token) :
    la (ts.map Token.erase) eof.erase = (la ts eof).erase := by
  cases ts <;> rfl

theorem tail_erase (ts : List Token) : (ts.map Token.erase).tail = ts.tail.map Token.erase :=
  (List.map_tail _ _).symm

theorem erase_type (t : Token) : t.erase.type = t.type := rfl

theorem erase_text (t : Token) : t.erase.text = t.text := rfl

theorem erase_start (t : Token) : t.erase.start = ⟨0, 0, 0⟩ := rfl

theorem parseValue_erase (enums : EnumMap) (property : List Char) (ts : List Token)
    (eof : Token) :
    parseValue enums property (ts.map Token.erase) eof.erase =
      match parseValue enums property ts eof with
      | .ok v => .ok (v.1, v.2.map Token.erase)
      | .error e => .error ⟨e.message, ⟨0, 0, 0⟩⟩ := by
  unfold parseValue
  simp only [tail_erase, la_erase, erase_type, erase_text, erase_start]
  by_cases c1 : (la ts eof).type = .String
  · simp only [if_pos c1]
  simp only [if_neg c1]
  by_cases c2 : (la ts eof).type = .Float
  · simp only [if_pos c2]
  simp only [if_neg c2]
  by_cases c3 : (la ts eof).type = .Bool
  · simp only [if_pos c3]
  simp only [if_neg c3]
  by_cases c4 : (la ts eof).type = .Int
  · simp only [if_pos c4]
    by_cases c5 : (la ts.tail eof).type ≠ .Comma
    · simp only [if_pos c5]
    simp only [if_neg c5]
    by_cases c6 : (la ts.tail.tail eof).type ≠ .Int
    · simp only [if_pos c6]
    simp only [if_neg c6]
    by_cases c7 : (la ts.tail.tail.tail eof).type = .Comma
    · simp only [if_pos c7]
      by_cases c8 : (la ts.tail.tail.tail.tail eof).type ≠ .Int
      · simp only [if_pos c8]
      · simp only [if_neg c8]
    · simp only [if_neg c7]
  simp only [if_neg c4]
  by_cases c9 : (la ts eof).type = .Ident
  · simp only [if_pos c9]
    by_cases c10 : (!(enums.allows property (la ts eof).text)) = true
    · simp only [if_pos c10]
    · simp only [if_neg c10]
  · simp only [if_neg c9]

theorem parseElementBody_erase (enums : EnumMap) (eof : Token) (n : Nat) :
    ∀ (ts : List Token) (handler : List Event),
      parseElementBody enums eof.erase n (ts.map Token.erase) handler =
        (parseElementBody enums eof n ts handler).erase := by
  induction n with
  | zero => intro ts handler; rfl
  | succ n ih =>
    intro ts handler
    rw [parseElementBody, parseElementBody]
    simp only [tail_erase, la_erase, erase_type, erase_text, erase_start, parseValue_erase, ih]
    by_cases c1 : (la ts eof).type ≠ .RBrace ∧ (la ts eof).type ≠ .Eof
    · simp only [if_pos c1]
      by_cases c2 : (la ts eof).type ≠ .Ident
      · simp only [if_pos c2]; rfl
      simp only [if_neg c2]
      by_cases c3 : (la ts.tail eof).type = .Colon
      · simp only [if_pos c3]
        cases hv : parseValue enums (la ts eof).text ts.tail.tail eof with
        | error e => rfl
        | ok v => exact ih _ _
      simp only [if_neg c3]
      by_cases c4 : (la ts.tail eof).type ≠ .LBrace
      · simp only [if_pos c4]; rfl
      simp only [if_neg c4]
      cases hx : parseElementBody enums eof n ts.tail.tail
          (handler ++ [.startElement (la ts eof).text]) with
      | error e h5 => rfl
      | timeout => rfl
      | ok ts5 h5 =>
        simp only [TOutcome.erase, tail_erase, la_erase, erase_type, erase_start, ih]
        by_cases c5 : (la ts5 eof).type ≠ .RBrace
        · simp only [if_pos c5]
        · simp only [if_neg c5]
    · simp only [if_neg c1]; rfl

theorem parseElement_erase (enums : EnumMap) (eof : Token) (n : Nat) (ts : List Token)
    (handler : List Event) :
    parseElement enums eof.erase n (ts.map Token.erase) handler =
      (parseElement enums eof n ts handler).erase := by
  unfold parseElement
  simp only [tail_erase, la_erase, erase_type, erase_text, erase_start, parseElementBody_erase]
  by_cases c1 : (la ts eof).type ≠ .Ident
  · simp only [if_pos c1]; rfl
  simp only [if_neg c1]
  by_cases c2 : (la ts.tail eof).type ≠ .LBrace
  · simp only [if_pos c2]; rfl
  simp only [if_neg c2]
  cases hx : parseElementBody enums eof n ts.tail.tail
      (handler ++ [.startElement (la ts eof).text]) with
  | error e h5 => rfl
  | timeout => rfl
  | ok ts5 h5 =>
    simp only [TOutcome.erase, tail_erase, la_erase, erase_type, erase_start]
    by_cases c5 : (la ts5 eof).type ≠ .RBrace
    · simp only [if_pos c5]
    · simp only [if_neg c5]

theorem parseLoop_erase (enums : EnumMap) (eof : Token) (n : Nat) :
    ∀ (ts : List Token) (handler : List Event),
      parseLoop enums eof.erase n (ts.map Token.erase) handler =
        (parseLoop enums eof n ts handler).erase := by
  induction n with
  | zero => intro ts handler; rfl
  | succ n ih =>
    intro ts handler
    rw [parseLoop, parseLoop]
    simp only [la_erase, erase_type, parseElement_erase]
    by_cases c1 : (la ts eof).type ≠ .Eof
    · simp only [if_pos c1]
      cases hx : parseElement enums eof n ts handler with
      | error e h5 => rfl
      | timeout => rfl
      | ok ts1 h1 => simp only [TOutcome.erase, ih]
    · simp only [if_neg c1]; rfl

/-! ### The token-level parser does not run out of fuel -/

theorem parseElementBody_total {enums : EnumMap} {eof : Token} (heof : eof.type = .Eof)
    (n : Nat) : ∀ (ts : List Token) (handler : List Event), ts.length < n →
      parseElementBody enums eof n ts handler ≠ .timeout := by
  induction n with
  | zero => intro ts handler hn; omega
  | succ n ih =>
    intro ts handler hn
    rw [parseElementBody]
    by_cases c1 : (la ts eof).type ≠ .RBrace ∧ (la ts eof).type ≠ .Eof
    · simp only [if_pos c1]
      have l1 := length_tail_lt heof c1.2
      by_cases c2 : (la ts eof).type ≠ .Ident
      · simp only [if_pos c2]; simp
      simp only [if_neg c2]
      by_cases c3 : (la ts.tail eof).type = .Colon
      · simp only [if_pos c3]
        have l2 := length_tail_lt heof (show (la ts.tail eof).type ≠ .Eof by rw [c3]; decide)
        cases hv : parseValue enums (la ts eof).text ts.tail.tail eof with
        | error e => simp
        | ok v =>
          have := parseValue_length heof hv
          exact ih _ _ (by omega)
      simp only [if_neg c3]
      by_cases c4 : (la ts.tail eof).type ≠ .LBrace
      · simp only [if_pos c4]; simp
      simp only [if_neg c4]
      have l2 := length_tail_lt heof
        (show (la ts.tail eof).type ≠ .Eof by rw [not_not.1 c4]; decide)
      cases hx : parseElementBody enums eof n ts.tail.tail
          (handler ++ [.startElement (la ts eof).text]) with
      | error e h5 => simp
      | timeout => exact absurd hx (ih _ _ (by omega))
      | ok ts5 h5 =>
        simp only
        have := parseElementBody_length heof hx
        by_cases c5 : (la ts5 eof).type ≠ .RBrace
        · simp only [if_pos c5]; simp
        simp only [if_neg c5]
        have : ts5.tail.length ≤ ts5.length := by simp
        exact ih _ _ (by omega)
    · simp only [if_neg c1]; simp

theorem parseElement_total {enums : EnumMap} {eof : Token} (heof : eof.type = .Eof)
    (n : Nat) (ts : List Token) (handler : List Event) (hn : ts.length ≤ n) :
    parseElement enums eof n ts handler ≠ .timeout := by
  unfold parseElement
  by_cases c1 : (la ts eof).type ≠ .Ident
  · simp only [if_pos c1]; simp
  simp only [if_neg c1]
  have l1 := length_tail_lt heof (show (la ts eof).type ≠ .Eof by rw [not_not.1 c1]; decide)
  by_cases c2 : (la ts.tail eof).type ≠ .LBrace
  · simp only [if_pos c2]; simp
  simp only [if_neg c2]
  have l2 := length_tail_lt heof
    (show (la ts.tail eof).type ≠ .Eof by rw [not_not.1 c2]; decide)
  cases hx : parseElementBody enums eof n ts.tail.tail
      (handler ++ [.startElement (la ts eof).text]) with
  | error e h5 => simp
  | timeout => exact absurd hx (parseElementBody_total heof n _ _ (by omega))
  | ok ts5 h5 =>
    simp only
    by_cases c5 : (la ts5 eof).type ≠ .RBrace
    · simp only [if_pos c5]; simp
    · simp only [if_neg c5]; simp

theorem parseLoop_total {enums : EnumMap} {eof : Token} (heof : eof.type = .Eof)
    (n : Nat) : ∀ (ts : List Token) (handler : List Event), ts.length < n →
      parseLoop enums eof n ts handler ≠ .timeout := by
  induction n with
  | zero => intro ts handler hn; omega
  | succ n ih =>
    intro ts handler hn
    rw [parseLoop]
    by_cases c1 : (la ts eof).type ≠ .Eof
    · simp only [if_pos c1]
      cases hx : parseElement enums eof n ts handler with
      | error e h5 => simp
      | timeout => exact absurd hx (parseElement_total heof n _ _ (by omega))
      | ok ts1 h1 =>
        simp only
        have := parseElement_length heof hx
        exact ih _ _ (by omega)
    · simp only [if_neg c1]; simp

end Tok

theorem Simulates.events {enums : EnumMap} {eof : Token} {o : Outcome} {a : TOutcome}
    (h : Simulates enums eof o a) : o.events = a.events ∧ o.verdict = a.verdict := by
  cases a with
  | ok ts handler => obtain ⟨p, e, -⟩ := h; rw [e]; exact ⟨rfl, rfl⟩
  | error e handler => simp only [Simulates] at h; rw [h]; exact ⟨rfl, rfl⟩
  | timeout => simp only [Simulates] at h; rw [h]; exact ⟨rfl, rfl⟩

theorem TOutcome.erase_events (a : TOutcome) :
    a.erase.events = a.events ∧ a.erase.verdict = a.verdict := by
  cases a <;> exact ⟨rfl, rfl⟩

theorem erase_of_lexeme {ts1 ts2 : List Token}
    (h : ts1.map Token.lexeme = ts2.map Token.lexeme) :
    ts1.map Token.erase = ts2.map Token.erase := by
  have key : ∀ ts : List Token, ts.map Token.erase =
      (ts.map Token.lexeme).map fun l => (⟨l.1, l.2, ⟨0, 0, 0⟩, ⟨0, 0, 0⟩⟩ : Token) := by
    intro ts
    rw [List.map_map]
    rfl
  rw [key ts1, key ts2, h]

/-- On an input that tokenises the events and the verdict of the run are those of the
token-level run on the significant tokens, positions erased. -/
theorem parseText_erased (enums : EnumMap) {input : List Char} {all : List Token} {eof : Token}
    (h : tokenize input = some (all, eof)) :
    (parseText enums input).events =
      (Tok.parseLoop enums eof.erase ((sig all).length + 1) ((sig all).map Token.erase) []).events ∧
    (parseText enums input).verdict =
      (Tok.parseLoop enums eof.erase ((sig all).length + 1) ((sig all).map Token.erase) []).verdict ∧
    (parseText enums input).verdict ≠ none := by
  have hs := (parseText_sim enums h).events
  have he := (Tok.parse enums eof (sig all)).erase_events
  unfold Tok.parse at hs he
  rw [Tok.parseLoop_erase]
  refine ⟨by rw [hs.1, he.1], by rw [hs.2, he.2], ?_⟩
  rw [hs.2]
  have := @Tok.parseLoop_total enums eof (sig_types h).1 ((sig all).length + 1) (sig all) []
    (Nat.lt_succ_self _)
  cases hx : Tok.parseLoop enums eof ((sig all).length + 1) (sig all) [] with
  | timeout => exact absurd hx this
  | ok ts handler => simp [TOutcome.verdict]
  | error e handler => simp [TOutcome.verdict]

namespace Tok

theorem la_mem {ts : List Token} {eof : Token} (heof : eof.type = .Eof)
    (h : (la ts eof).type ≠ .Eof) : la ts eof ∈ ts := by
  have := la_cons heof h
  rw [this]
  exact List.mem_cons_self _ _

theorem mem_tail {ts : List Token} {t : Token} (h : t ∈ ts.tail) : t ∈ ts :=
  List.mem_of_mem_tail h

theorem isValue_texts {enums : EnumMap} {property : List Char} {vts : List Token}
    {v : PropertyValue} (h : IsValue enums property vts v) (name : List Char) :
    ∀ s ∈ (Event.onProperty name v).texts, s = name ∨ ∃ t ∈ vts, t.text = s := by
  cases h <;> simp [Event.texts]

/-- Every text the token-level parser hands to the handler is the text of one of its tokens. -/
theorem parseElementBody_texts {enums : EnumMap} {eof : Token} (heof : eof.type = .Eof)
    (T : List Char → Prop) (n : Nat) :
    ∀ (ts : List Token) (handler : List Event), (∀ t ∈ ts, T t.text) →
      (∀ ev ∈ handler, ∀ s ∈ ev.texts, T s) →
      ∀ ev ∈ (parseElementBody enums eof n ts handler).events, ∀ s ∈ ev.texts, T s := by
  induction n with
  | zero => intro ts handler _ _ ev hev; simp [parseElementBody, TOutcome.events] at hev
  | succ n ih =>
    intro ts handler hts hh
    rw [parseElementBody]
    by_cases c1 : (la ts eof).type ≠ .RBrace ∧ (la ts eof).type ≠ .Eof
    · simp only [if_pos c1]
      have m1 := hts _ (la_mem heof c1.2)
      by_cases c2 : (la ts eof).type ≠ .Ident
      · simp only [if_pos c2]; exact hh
      simp only [if_neg c2]
      by_cases c3 : (la ts.tail eof).type = .Colon
      · simp only [if_pos c3]
        cases hv : parseValue enums (la ts eof).text ts.tail.tail eof with
        | error e => exact hh
        | ok v =>
          obtain ⟨vts, e1, iv⟩ := parseValue_sound heof hv
          apply ih
          · intro t ht
            exact hts t (mem_tail (mem_tail (by rw [e1]; exact List.mem_append_right _ ht)))
          · intro ev hev s hs
            rcases List.mem_append.1 hev with hev | hev
            · exact hh ev hev s hs
            · rw [List.mem_singleton.1 hev] at hs
              rcases isValue_texts iv _ s hs with h | ⟨t, ht, h⟩
              · rw [h]; exact m1
              · rw [← h]
                exact hts t (mem_tail (mem_tail (by rw [e1]; exact List.mem_append_left _ ht)))
      simp only [if_neg c3]
      by_cases c4 : (la ts.tail eof).type ≠ .LBrace
      · simp only [if_pos c4]; exact hh
      simp only [if_neg c4]
      have hstart : ∀ ev ∈ handler ++ [Event.startElement (la ts eof).text],
          ∀ s ∈ ev.texts, T s := by
        intro ev hev s hs
        rcases List.mem_append.1 hev with hev | hev
        · exact hh ev hev s hs
        · rw [List.mem_singleton.1 hev] at hs
          simp only [Event.texts, List.mem_singleton] at hs
          rw [hs]; exact m1
      have h1 := ih ts.tail.tail _ (fun t ht => hts t (mem_tail (mem_tail ht))) hstart
      cases hx : parseElementBody enums eof n ts.tail.tail
          (handler ++ [.startElement (la ts eof).text]) with
      | error e h5 => rw [hx] at h1; exact h1
      | timeout => rw [hx] at h1; exact h1
      | ok ts5 h5 =>
        rw [hx] at h1
        simp only
        by_cases c5 : (la ts5 eof).type ≠ .RBrace
        · simp only [if_pos c5]; exact h1
        simp only [if_neg c5]
        obtain ⟨body, cs, e1, -⟩ := parseElementBody_sound heof n _ _ _ _ hx
        apply ih
        · intro t ht
          exact hts t (mem_tail (mem_tail (by
            rw [e1]; exact List.mem_append_right _ (mem_tail ht))))
        · intro ev hev s hs
          rcases List.mem_append.1 hev with hev | hev
          · exact h1 ev hev s hs
          · rw [List.mem_singleton.1 hev] at hs
            simp only [Event.texts, List.mem_singleton] at hs
            rw [hs]; exact m1
    · simp only [if_neg c1]; exact hh

theorem parseElement_texts {enums : EnumMap} {eof : Token} (heof : eof.type = .Eof)
    (T : List Char → Prop) (n : Nat) (ts : List Token) (handler : List Event)
    (hts : ∀ t ∈ ts, T t.text) (hh : ∀ ev ∈ handler, ∀ s ∈ ev.texts, T s) :
    ∀ ev ∈ (parseElement enums eof n ts handler).events, ∀ s ∈ ev.texts, T s := by
  unfold parseElement
  by_cases c1 : (la ts eof).type ≠ .Ident
  · simp only [if_pos c1]; exact hh
  simp only [if_neg c1]
  have m1 := hts _ (la_mem heof (show (la ts eof).type ≠ .Eof by rw [not_not.1 c1]; decide))
  by_cases c2 : (la ts.tail eof).type ≠ .LBrace
  · simp only [if_pos c2]; exact hh
  simp only [if_neg c2]
  have hstart : ∀ ev ∈ handler ++ [Event.startElement (la ts eof).text],
      ∀ s ∈ ev.texts, T s := by
    intro ev hev s hs
    rcases List.mem_append.1 hev with hev | hev
    · exact hh ev hev s hs
    · rw [List.mem_singleton.1 hev] at hs
      simp only [Event.texts, List.mem_singleton] at hs
      rw [hs]; exact m1
  have h1 := @parseElementBody_texts enums eof heof T n ts.tail.tail _
    (fun t ht => hts t (mem_tail (mem_tail ht))) hstart
  cases hx : parseElementBody enums eof n ts.tail.tail
      (handler ++ [.startElement (la ts eof).text]) with
  | error e h5 => rw [hx] at h1; exact h1
  | timeout => rw [hx] at h1; exact h1
  | ok ts5 h5 =>
    rw [hx] at h1
    simp only
    by_cases c5 : (la ts5 eof).type ≠ .RBrace
    · simp only [if_pos c5]; exact h1
    simp only [if_neg c5]
    intro ev hev s hs
    rcases List.mem_append.1 hev with hev | hev
    · exact h1 ev hev s hs
    · rw [List.mem_singleton.1 hev] at hs
      simp only [Event.texts, List.mem_singleton] at hs
      rw [hs]; exact m1

theorem parseLoop_texts {enums : EnumMap} {eof : Token} (heof : eof.type = .Eof)
    (T : List Char → Prop) (n : Nat) :
    ∀ (ts : List Token) (handler : List Event), (∀ t ∈ ts, T t.text) →
      (∀ ev ∈ handler, ∀ s ∈ ev.texts, T s) →
      ∀ ev ∈ (parseLoop enums eof n ts handler).events, ∀ s ∈ ev.texts, T s := by
  induction n with
  | zero => intro ts handler _ _ ev hev; simp [parseLoop, TOutcome.events] at hev
  | succ n ih =>
    intro ts handler hts hh
    rw [parseLoop]
    by_cases c1 : (la ts eof).type ≠ .Eof
    · simp only [if_pos c1]
      have h1 := @parseElement_texts enums eof heof T n ts handler hts hh
      cases hx : parseElement enums eof n ts handler with
      | error e h5 => rw [hx] at h1; exact h1
      | timeout => rw [hx] at h1; exact h1
      | ok ts1 h1' =>
        rw [hx] at h1
        obtain ⟨name, lb, body, cs, rb, e, -⟩ := parseElement_sound heof hx
        apply ih _ _ _ h1
        intro t ht
        apply hts
        rw [e]
        simp only [List.mem_cons, List.mem_append]
        exact Or.inr (Or.inr (Or.inr (Or.inr ht)))
    · simp only [if_neg c1]; exact hh

end Tok

/-- C7: whitespace and comments are transparent.  Two inputs that both tokenise and have the
same significant tokens (kind and text, after removing `Ws`, `LineComment` and `BlockComment`
tokens) give, with the same registry, the same handler events, and either both parses return
normally or both fail with the same message (the positions may differ).  Every text that reaches
the handler is the text of a significant token. -/
theorem whitespace_comment_transparent (enums : EnumMap) (input1 input2 : List Char)
    (all1 all2 : List Token) (eof1 eof2 : Token)
    (h1 : tokenize input1 = some (all1, eof1)) (h2 : tokenize input2 = some (all2, eof2))
    (hsame : (sig all1).map Token.lexeme = (sig all2).map Token.lexeme) :
    (parseText enums input1).events = (parseText enums input2).events ∧
    (parseText enums input1).returnsNormally = (parseText enums input2).returnsNormally ∧
    (parseText enums input1).exception.map (fun e => e.message) =
      (parseText enums input2).exception.map (fun e => e.message) ∧
    ((parseText enums input1).returnsNormally = true ∨
      (parseText enums input1).exception.isSome = true) ∧
    (∀ ev ∈ (parseText enums input1).events, ∀ s ∈ ev.texts, ∃ t ∈ sig all1, t.text = s) := by
  obtain ⟨a1, b1, c1⟩ := parseText_erased enums h1
  obtain ⟨a2, b2, -⟩ := parseText_erased enums h2
  have he := erase_of_lexeme hsame
  have hlen : (sig all1).length = (sig all2).length := by
    have := congrArg List.length hsame
    simpa using this
  have heof : eof1.erase = eof2.erase := by
    obtain ⟨k1, -, -, e1, -⟩ := eof_position h1
    obtain ⟨k2, -, -, e2, -⟩ := eof_position h2
    rw [e1, e2]; rfl
  rw [he, hlen, heof] at a1 b1
  have hv : (parseText enums input1).verdict = (parseText enums input2).verdict := by
    rw [b1, b2]
  refine ⟨by rw [a1, a2], ?_, ?_, ?_, ?_⟩
  · cases hx : parseText enums input1 <;> cases hy : parseText enums input2 <;>
      simp [hx, hy, Outcome.verdict, Outcome.returnsNormally] at hv ⊢
  · cases hx : parseText enums input1 <;> cases hy : parseText enums input2 <;>
      simp [hx, hy, Outcome.verdict, Outcome.exception] at hv ⊢
    exact hv
  · cases hx : parseText enums input1 <;>
      simp [hx, Outcome.verdict, Outcome.returnsNormally, Outcome.exception] at c1 ⊢
  · have hs := (parseText_sim enums h1).events.1
    rw [hs]
    exact Tok.parseLoop_texts (sig_types h1).1 (fun s => ∃ t ∈ sig all1, t.text = s) _ _ _
      (fun t ht => ⟨t, ht, rfl⟩) (by simp)

/-- C7 at `a { b : 1 }` with and without whitespace and comments. -/
theorem whitespace_comment_transparent_witness :
    (parseText EnumMap.empty "a\x7bb:1\x7d".toList).events =
      (parseText EnumMap.empty "a /* x */ \x7b\n  b : 1 // y\n\x7d".toList).events ∧
    (parseText EnumMap.empty "a\x7bb:1\x7d".toList).returnsNormally =
      (parseText EnumMap.empty "a /* x */ \x7b\n  b : 1 // y\n\x7d".toList).returnsNormally ∧
    (parseText EnumMap.empty "a\x7bb:1\x7d".toList).exception.map (fun e => e.message) =
      (parseText EnumMap.empty "a /* x */ \x7b\n  b : 1 // y\n\x7d".toList).exception.map
        (fun e => e.message) ∧
    ((parseText EnumMap.empty "a\x7bb:1\x7d".toList).returnsNormally = true ∨
      (parseText EnumMap.empty "a\x7bb:1\x7d".toList).exception.isSome = true) ∧
    (∀ ev ∈ (parseText EnumMap.empty "a\x7bb:1\x7d".toList).events, ∀ s ∈ ev.texts,
      ∃ t ∈ sig (Option.get (tokenize "a\x7bb:1\x7d".toList) (by decide)).1, t.text = s) :=
  whitespace_comment_transparent EnumMap.empty "a\x7bb:1\x7d".toList
    "a /* x */ \x7b\n  b : 1 // y\n\x7d".toList _ _ _ _
    (Option.some_get (by decide)).symm
    (Option.some_get (show (tokenize "a /* x */ \x7b\n  b : 1 // y\n\x7d".toList).isSome = true by
      decide)).symm
    (by decide)

/-! ## C10: a missing closing brace -/

/-- C10 (as amended): on an input that tokenises to an opened element `name {` followed by zero
or more complete members and nothing else (whitespace and comments apart), `parse` emits the
events of the element so far and fails in the `expect` of the closing `}` with a parse error
positioned at the `Eof` token: where the lexer stopped, which is the end of the input or a NUL
character, and is the end of the input (index = input length, line and column of the end)
whenever the input contains no NUL. -/
theorem missing_closing_brace (enums : EnumMap) (input : List Char) (all : List Token)
    (eof name lb : Token) (body : List Token) (ms : Members)
    (h : tokenize input = some (all, eof)) (hs : sig all = name :: lb :: body)
    (hn : name.type = .Ident) (hl : lb.type = .LBrace) (hm : IsMembers enums body ms) :
    parseText enums input =
      .error ⟨"Expected token type mismatch".toList, eof.start⟩
        (.startElement name.text :: ms.events) ∧
    (∃ k, k ≤ input.length ∧ eof.start = (Span.mk 0 1 1).over (input.take k) ∧
      (input.drop k = [] ∨ (input.drop k).getD 0 NUL = NUL)) ∧
    (NUL ∉ input → eof.start = (Span.mk 0 1 1).over input ∧ eof.start.index = input.length) := by
  obtain ⟨k, hk, -, e2, e3, e4⟩ := eof_position h
  have heof := (sig_types h).1
  refine ⟨?_, ⟨k, hk, by rw [e2], e3⟩, fun hnul => ?_⟩
  · have hsim := parseText_sim enums h
    have hb := Tok.parseElementBody_complete eof hm (body.length + 1 + 1) []
      [.startElement name.text] (Or.inr heof) (by omega)
    rw [List.append_nil] at hb
    have hne : eof.type ≠ .RBrace := by rw [heof]; decide
    have : Tok.parse enums eof (sig all) =
        .error ⟨"Expected token type mismatch".toList, eof.start⟩
          (.startElement name.text :: ms.events) := by
      rw [hs]
      simp [Tok.parse, Tok.parseLoop, Tok.parseElement, Tok.la, hn, hl, hb, hne]
    rw [this] at hsim
    exact hsim
  · have := e4 hnul
    rw [this] at e2
    rw [e2]
    exact ⟨rfl, by rw [Span.over_index]; simp⟩

/-- C10 at scenario D, `x { y: "hi" ` without the closing brace: the error is at index 12, the
length of the input. -/
theorem missing_closing_brace_witness :
    parseText EnumMap.empty "x \x7b y: \"hi\" ".toList =
      .error ⟨"Expected token type mismatch".toList, ⟨12, 1, 13⟩⟩
        [.startElement ['x'], .onProperty ['y'] (.FromString ['h', 'i'])] ∧
    "x \x7b y: \"hi\" ".toList.length = 12 := by
  have h := missing_closing_brace EnumMap.empty "x \x7b y: \"hi\" ".toList
    [⟨.Ident, ['x'], ⟨0, 1, 1⟩, ⟨1, 1, 2⟩⟩, ⟨.Ws, [' '], ⟨1, 1, 2⟩, ⟨2, 1, 3⟩⟩,
      ⟨.LBrace, ['{'], ⟨2, 1, 3⟩, ⟨3, 1, 4⟩⟩, ⟨.Ws, [' '], ⟨3, 1, 4⟩, ⟨4, 1, 5⟩⟩,
      ⟨.Ident, ['y'], ⟨4, 1, 5⟩, ⟨5, 1, 6⟩⟩, ⟨.Colon, [':'], ⟨5, 1, 6⟩, ⟨6, 1, 7⟩⟩,
      ⟨.Ws, [' '], ⟨6, 1, 7⟩, ⟨7, 1, 8⟩⟩, ⟨.String, ['h', 'i'], ⟨7, 1, 8⟩, ⟨11, 1, 12⟩⟩,
      ⟨.Ws, [' '], ⟨11, 1, 12⟩, ⟨12, 1, 13⟩⟩]
    ⟨.Eof, [], ⟨12, 1, 13⟩, ⟨12, 1, 13⟩⟩
    ⟨.Ident, ['x'], ⟨0, 1, 1⟩, ⟨1, 1, 2⟩⟩ ⟨.LBrace, ['{'], ⟨2, 1, 3⟩, ⟨3, 1, 4⟩⟩
    [⟨.Ident, ['y'], ⟨4, 1, 5⟩, ⟨5, 1, 6⟩⟩, ⟨.Colon, [':'], ⟨5, 1, 6⟩, ⟨6, 1, 7⟩⟩,
      ⟨.String, ['h', 'i'], ⟨7, 1, 8⟩, ⟨11, 1, 12⟩⟩]
    (.property ['y'] (.FromString ['h', 'i']) .nil)
    (by decide) (by decide) rfl rfl
    (IsMembers.property _ _ [_] _ [] _ rfl rfl (IsValue.string _ rfl) IsMembers.nil)
  exact ⟨h.1, by decide⟩

/-- C10, the claim as stated fails: `x {//` followed by a NUL character opens an element and
ends in a comment without the closing brace; the error is positioned at index 5, the NUL, while
the input has length 6. -/
theorem missing_closing_brace_at_nul :
    (tokenize ['x', ' ', '{', '/', '/', NUL]).map (fun q => (sig q.1).map Token.lexeme) =
      some [(.Ident, ['x']), (.LBrace, ['{'])] ∧
    (parseText EnumMap.empty ['x', ' ', '{', '/', '/', NUL]).exception =
      some ⟨"Expected token type mismatch".toList, ⟨5, 1, 6⟩⟩ ∧
    (['x', ' ', '{', '/', '/', NUL] : List Char).length = 6 := by
  decide

/-! ## C4, C5: value resolution in `parseValue` -/

namespace SmlSaxParser

theorem skipLoop_of_significant (n : Nat) (p : SmlSaxParser)
    (h : ignorable p.lookahead_.type = false) : skipLoop n p = .ok p := by
  cases n <;> simp [skipLoop, h]

theorem skipLoop_skipsTo {lx : SmlLexer} {t : Token} {lx' : SmlLexer}
    (h : SmlLexer.SkipsTo lx t lx') :
    ∀ (n : Nat) (w : Token) (enums : EnumMap), ignorable w.type = true → lx.rest.length < n →
      skipLoop n ⟨lx, w, enums⟩ = .ok ⟨lx', t, enums⟩ := by
  induction h with
  | here hn ht =>
    intro n w enums hw hlt
    cases n with
    | zero => omega
    | succ n =>
      rw [skipLoop]
      simp only [hw, if_true, hn]
      exact skipLoop_of_significant _ _ ht
  | skip hn hw' _ ih =>
    intro n w enums hw hlt
    cases n with
    | zero => omega
    | succ n =>
      rw [skipLoop]
      simp only [hw, if_true, hn]
      have hne : ¬ ignorable TokenType.Eof = true := by decide
      have := SmlLexer.next_advances hn (by intro he; rw [he] at hw'; exact hne hw')
      exact ih n _ enums hw' (by simp only at this; omega)

/-- `consume` followed by `skipIgnorables` moves the lookahead to the next significant token. -/
theorem consume_skip {p : SmlSaxParser} {t : Token} {lx' : SmlLexer}
    (h : SmlLexer.SkipsTo p.lexer_ t lx') :
    ∃ p1, consume p = .ok (p.lookahead_, p1) ∧ skipIgnorables p1 = .ok ⟨lx', t, p.enums_⟩ := by
  cases h with
  | here hn ht =>
    exact ⟨⟨lx', t, p.enums_⟩, by simp [consume, hn], skipLoop_of_significant _ _ ht⟩
  | skip hn hw hs =>
    exact ⟨⟨_, _, p.enums_⟩, by simp [consume, hn],
      skipLoop_skipsTo hs _ _ _ hw (Nat.lt_succ_self _)⟩

/-- C4 (as amended): integer-sequence resolution in `parseValue`, at a lookahead that is an `Int`
token with text `a` (`atoi` is the `int` stored, the decimal value `atoiLoop 0` of a literal
within the 32-bit signed range), ignorable tokens allowed between the parts.
If the next significant token is not `,` the value is `Int(a)`.  If it is `,` followed by an
`Int` token `b` and then by a significant token that is not `,`, the value is `Vec2i(a, b)`.  If
it is `, b , c` with `Int` tokens `b` and `c`, the value is `Vec3i(a, b, c)` provided the token
after `c` lexes; when it does not, `parseValue` fails with that lex error.  If the first or the
second `,` is followed by a significant token that is not an `Int`, `parseValue` fails with
"Expected integer component after ','" at the start of that token. -/
theorem int_sequence_resolution (property : List Char) (p : SmlSaxParser)
    (hint : p.lookahead_.type = .Int) :
    (∀ t lx1, SmlLexer.SkipsTo p.lexer_ t lx1 → t.type ≠ .Comma →
      parseValue property p = .ok (.FromInt (atoi p.lookahead_.text), ⟨lx1, t, p.enums_⟩)) ∧
    (∀ c lx1 b lx2 t lx3, SmlLexer.SkipsTo p.lexer_ c lx1 → c.type = .Comma →
      SmlLexer.SkipsTo lx1 b lx2 → b.type = .Int → SmlLexer.SkipsTo lx2 t lx3 →
      t.type ≠ .Comma →
      parseValue property p =
        .ok (.FromVec2i (atoi p.lookahead_.text) (atoi b.text), ⟨lx3, t, p.enums_⟩)) ∧
    (∀ c lx1 b lx2 d lx3 e lx4, SmlLexer.SkipsTo p.lexer_ c lx1 → c.type = .Comma →
      SmlLexer.SkipsTo lx1 b lx2 → b.type = .Int → SmlLexer.SkipsTo lx2 d lx3 →
      d.type = .Comma → SmlLexer.SkipsTo lx3 e lx4 → e.type = .Int →
      (∀ r, lx4.next = .ok r →
        parseValue property p =
          .ok (.FromVec3i (atoi p.lookahead_.text) (atoi b.text) (atoi e.text),
            ⟨r.2, r.1, p.enums_⟩)) ∧
      (∀ err, lx4.next = .error err → parseValue property p = .error err)) ∧
    (∀ c lx1 t lx2, SmlLexer.SkipsTo p.lexer_ c lx1 → c.type = .Comma →
      SmlLexer.SkipsTo lx1 t lx2 → t.type ≠ .Int →
      parseValue property p =
        .error ⟨"Expected integer component after ','".toList, t.start⟩) ∧
    (∀ c lx1 b lx2 d lx3 t lx4, SmlLexer.SkipsTo p.lexer_ c lx1 → c.type = .Comma →
      SmlLexer.SkipsTo lx1 b lx2 → b.type = .Int → SmlLexer.SkipsTo lx2 d lx3 →
      d.type = .Comma → SmlLexer.SkipsTo lx3 t lx4 → t.type ≠ .Int →
      parseValue property p =
        .error ⟨"Expected integer component after ','".toList, t.start⟩) ∧
    (∀ text : List Char, atoiLoop 0 text ≤ 2147483647 → atoi text = atoiLoop 0 text) := by
  have h0 : ∀ q : SmlSaxParser, q.lookahead_.type = .Int →
      parseValue property q = (consume q).bind fun r1 =>
        (skipIgnorables r1.2).bind fun p2 =>
        if p2.lookahead_.type ≠ .Comma then .ok (.FromInt (atoi r1.1.text), p2)
        else
          (consume p2).bind fun r3 =>
          (skipIgnorables r3.2).bind fun p4 =>
          if p4.lookahead_.type ≠ .Int then
            .error ⟨"Expected integer component after ','".toList, p4.lookahead_.start⟩
          else
            (consume p4).bind fun r5 =>
            (skipIgnorables r5.2).bind fun p6 =>
            if p6.lookahead_.type = .Comma then
              (consume p6).bind fun r7 =>
              (skipIgnorables r7.2).bind fun p8 =>
              if p8.lookahead_.type ≠ .Int then
                .error ⟨"Expected integer component after ','".toList, p8.lookahead_.start⟩
              else
                (consume p8).bind fun r9 =>
                .ok (.FromVec3i (atoi r1.1.text) (atoi r5.1.text) (atoi r9.1.text), r9.2)
            else .ok (.FromVec2i (atoi r1.1.text) (atoi r5.1.text), p6) := by
    intro q hq
    unfold parseValue
    simp [hq]
  rw [h0 p hint]
  refine ⟨?_, ?_, ?_, ?_, ?_, fun text h => atoi_exact h⟩
  · intro t lx1 s1 ht
    obtain ⟨p1, e1, e2⟩ := consume_skip s1
    simp [e1, e2, Res.bind, ht]
  · intro c lx1 b lx2 t lx3 s1 hc s2 hb s3 ht
    obtain ⟨p1, e1, e2⟩ := consume_skip s1
    obtain ⟨p3, e3, e4⟩ := consume_skip (p := ⟨lx1, c, p.enums_⟩) s2
    obtain ⟨p5, e5, e6⟩ := consume_skip (p := ⟨lx2, b, p.enums_⟩) s3
    simp [e1, e2, e3, e4, e5, e6, Res.bind, hc, hb, ht]
  · intro c lx1 b lx2 d lx3 e lx4 s1 hc s2 hb s3 hd s4 he
    obtain ⟨p1, e1, e2⟩ := consume_skip s1
    obtain ⟨p3, e3, e4⟩ := consume_skip (p := ⟨lx1, c, p.enums_⟩) s2
    obtain ⟨p5, e5, e6⟩ := consume_skip (p := ⟨lx2, b, p.enums_⟩) s3
    obtain ⟨p7, e7, e8⟩ := consume_skip (p := ⟨lx3, d, p.enums_⟩) s4
    constructor
    · intro r hr
      have e9 : consume ⟨lx4, e, p.enums_⟩ = .ok (e, ⟨r.2, r.1, p.enums_⟩) := by
        simp [consume, hr]
      simp [e1, e2, e3, e4, e5, e6, e7, e8, e9, Res.bind, hc, hb, hd, he]
    · intro err hr
      have e9 : consume ⟨lx4, e, p.enums_⟩ = .error err := by
        simp [consume, hr]
      simp [e1, e2, e3, e4, e5, e6, e7, e8, e9, Res.bind, hc, hb, hd, he]
  · intro c lx1 t lx2 s1 hc s2 ht
    obtain ⟨p1, e1, e2⟩ := consume_skip s1
    obtain ⟨p3, e3, e4⟩ := consume_skip (p := ⟨lx1, c, p.enums_⟩) s2
    simp [e1, e2, e3, e4, Res.bind, hc, ht]
  · intro c lx1 b lx2 d lx3 t lx4 s1 hc s2 hb s3 hd s4 ht
    obtain ⟨p1, e1, e2⟩ := consume_skip s1
    obtain ⟨p3, e3, e4⟩ := consume_skip (p := ⟨lx1, c, p.enums_⟩) s2
    obtain ⟨p5, e5, e6⟩ := consume_skip (p := ⟨lx2, b, p.enums_⟩) s3
    obtain ⟨p7, e7, e8⟩ := consume_skip (p := ⟨lx3, d, p.enums_⟩) s4
    simp [e1, e2, e3, e4, e5, e6, e7, e8, Res.bind, hc, hb, hd, ht]

end SmlSaxParser

namespace SmlSaxParser

/-- C4 at the value `5, 6, 7` (followed by ` }`): the lookahead is the token `5`, the value is
`Vec3i(5, 6, 7)`; and the examples of the specification `5`, `5, 6`, `5, 6, 7` and `5, 6,`
followed by a non-integer. -/
theorem int_sequence_resolution_witness :
    parseValue ['p'] ⟨⟨", 6, 7 \x7d".toList, 1, 1, 2⟩, ⟨.Int, ['5'], ⟨0, 1, 1⟩, ⟨1, 1, 2⟩⟩,
        EnumMap.empty⟩ =
      .ok (.FromVec3i 5 6 7,
        ⟨⟨"\x7d".toList, 8, 1, 9⟩, ⟨.Ws, [' '], ⟨7, 1, 8⟩, ⟨8, 1, 9⟩⟩, EnumMap.empty⟩) ∧
    (parseText EnumMap.empty "a \x7b p: 5 \x7d".toList).events =
      [.startElement ['a'], .onProperty ['p'] (.FromInt 5), .endElement ['a']] ∧
    (parseText EnumMap.empty "a \x7b p: 5, 6 \x7d".toList).events =
      [.startElement ['a'], .onProperty ['p'] (.FromVec2i 5 6), .endElement ['a']] ∧
    (parseText EnumMap.empty "a \x7b p: 5, 6, 7 \x7d".toList).events =
      [.startElement ['a'], .onProperty ['p'] (.FromVec3i 5 6 7), .endElement ['a']] ∧
    (parseText EnumMap.empty "a \x7b p: 5, 6, x \x7d".toList).exception =
      some ⟨"Expected integer component after ','".toList, ⟨13, 1, 14⟩⟩ ∧
    (parseText EnumMap.empty "room \x7b size: 10, 20 \x7d".toList).events =
      [.startElement "room".toList, .onProperty "size".toList (.FromVec2i 10 20),
        .endElement "room".toList] :=
  ⟨((int_sequence_resolution ['p']
      ⟨⟨", 6, 7 \x7d".toList, 1, 1, 2⟩, ⟨.Int, ['5'], ⟨0, 1, 1⟩, ⟨1, 1, 2⟩⟩, EnumMap.empty⟩
      rfl).2.2.1
      ⟨.Comma, [','], ⟨1, 1, 2⟩, ⟨2, 1, 3⟩⟩ ⟨" 6, 7 \x7d".toList, 2, 1, 3⟩
      ⟨.Int, ['6'], ⟨3, 1, 4⟩, ⟨4, 1, 5⟩⟩ ⟨", 7 \x7d".toList, 4, 1, 5⟩
      ⟨.Comma, [','], ⟨4, 1, 5⟩, ⟨5, 1, 6⟩⟩ ⟨" 7 \x7d".toList, 5, 1, 6⟩
      ⟨.Int, ['7'], ⟨6, 1, 7⟩, ⟨7, 1, 8⟩⟩ ⟨" \x7d".toList, 7, 1, 8⟩
      (.here rfl rfl) rfl
      (.skip (w := ⟨.Ws, [' '], ⟨2, 1, 3⟩, ⟨3, 1, 4⟩⟩) rfl rfl (.here rfl rfl)) rfl
      (.here rfl rfl) rfl
      (.skip (w := ⟨.Ws, [' '], ⟨5, 1, 6⟩, ⟨6, 1, 7⟩⟩) rfl rfl (.here rfl rfl)) rfl).1
      (⟨.Ws, [' '], ⟨7, 1, 8⟩, ⟨8, 1, 9⟩⟩, ⟨"\x7d".toList, 8, 1, 9⟩) rfl,
    by decide, by decide, by decide, by decide, by decide⟩

/-- C4, the claim as stated fails: in `a{p:1,2,3$}` the value is written `1,2,3`, an `Int`
followed by `,` `Int` `,` `Int`, but `parseValue` does not return `Vec3i(1, 2, 3)`: fetching the
token after `3` throws the lex error, and no `onProperty` is emitted. -/
theorem vec3_preempted_by_lex_error :
    parseValue ['p'] ⟨⟨",2,3$\x7d".toList, 5, 1, 6⟩, ⟨.Int, ['1'], ⟨4, 1, 5⟩, ⟨5, 1, 6⟩⟩,
        EnumMap.empty⟩ =
      .error ⟨"Unexpected character '$'".toList, ⟨9, 1, 10⟩⟩ ∧
    (tokenize "a\x7bp:1,2,3".toList).map (fun q => (sig q.1).map Token.lexeme) =
      some [(.Ident, ['a']), (.LBrace, ['{']), (.Ident, ['p']), (.Colon, [':']),
        (.Int, ['1']), (.Comma, [',']), (.Int, ['2']), (.Comma, [',']), (.Int, ['3'])] ∧
    parseText EnumMap.empty "a\x7bp:1,2,3$\x7d".toList =
      .error ⟨"Unexpected character '$'".toList, ⟨9, 1, 10⟩⟩ [.startElement ['a']] :=
  ⟨rfl, by decide, rfl⟩

end SmlSaxParser

namespace SmlSaxParser

theorem allows_iff (m : EnumMap) (property value : List Char) :
    m.allows property value = true ↔ ∃ s, m property = some s ∧ value ∈ s := by
  unfold EnumMap.allows
  cases h : m property with
  | none => simp
  | some s => simp

/-- C5 (as amended): enum resolution in `parseValue`, at a lookahead that is an identifier token
with text `v`.  When the token after it lexes, `parseValue` returns `Enum(v)` if and only if the
registry holds a set for the property that contains `v`, and otherwise fails with
"Unknown enum value '<v>' for property '<p>'" at the start of the identifier token.  When the
token after it does not lex, `parseValue` fails with that lex error instead, whatever the
registry holds.  A property with nothing registered, or registered with an empty list of values,
allows no value. -/
theorem enum_resolution (property : List Char) (p : SmlSaxParser)
    (hid : p.lookahead_.type = .Ident) :
    (∀ r, p.lexer_.next = .ok r →
      (parseValue property p = .ok (.FromEnum p.lookahead_.text, ⟨r.2, r.1, p.enums_⟩) ↔
        ∃ s, p.enums_ property = some s ∧ p.lookahead_.text ∈ s) ∧
      ((¬ ∃ s, p.enums_ property = some s ∧ p.lookahead_.text ∈ s) →
        parseValue property p =
          .error ⟨"Unknown enum value '".toList ++ p.lookahead_.text ++
            "' for property '".toList ++ property ++ "'".toList, p.lookahead_.start⟩)) ∧
    (∀ err, p.lexer_.next = .error err → parseValue property p = .error err) ∧
    ((p.enums_ property = none ∨ p.enums_ property = some ∅) →
      ∀ v, p.isEnumValueAllowed property v = false) := by
  have h0 : parseValue property p = (consume p).bind fun r =>
      if !(r.2.isEnumValueAllowed property r.1.text) then
        .error ⟨"Unknown enum value '".toList ++ r.1.text ++ "' for property '".toList ++
          property ++ "'".toList, r.1.start⟩
      else .ok (.FromEnum r.1.text, r.2) := by
    unfold parseValue
    simp [hid]
  refine ⟨fun r hr => ?_, fun err hr => ?_, fun hnone v => ?_⟩
  · have e1 : consume p = .ok (p.lookahead_, ⟨r.2, r.1, p.enums_⟩) := by simp [consume, hr]
    rw [h0, e1]
    simp only [Res.bind, isEnumValueAllowed_eq, ← allows_iff]
    cases hal : p.enums_.allows property p.lookahead_.text <;> simp
  · have e1 : consume p = .error err := by simp [consume, hr]
    rw [h0, e1]; rfl
  · unfold isEnumValueAllowed
    rcases hnone with h | h <;> simp [h]

/-- C5 at scenario B: the identifier `open` as value of `state`, with `open` and `closed`
registered, resolves to `Enum("open")`; with nothing registered the parse fails with
"Unknown enum value 'open' for property 'state'". -/
theorem enum_resolution_witness :
    parseValue "state".toList
        ⟨⟨" \x7d".toList, 4, 1, 5⟩, ⟨.Ident, "open".toList, ⟨0, 1, 1⟩, ⟨4, 1, 5⟩⟩,
          registered [("state".toList, ["open".toList, "closed".toList])]⟩ =
      .ok (.FromEnum "open".toList,
        ⟨⟨"\x7d".toList, 5, 1, 6⟩, ⟨.Ws, [' '], ⟨4, 1, 5⟩, ⟨5, 1, 6⟩⟩,
          registered [("state".toList, ["open".toList, "closed".toList])]⟩) ∧
    (parseText (registered [("state".toList, ["open".toList, "closed".toList])])
        "door \x7b state: open \x7d".toList).events =
      [.startElement "door".toList, .onProperty "state".toList (.FromEnum "open".toList),
        .endElement "door".toList] ∧
    (parseText EnumMap.empty "door \x7b state: open \x7d".toList).exception =
      some ⟨"Unknown enum value 'open' for property 'state'".toList, ⟨14, 1, 15⟩⟩ :=
  ⟨((enum_resolution "state".toList
      ⟨⟨" \x7d".toList, 4, 1, 5⟩, ⟨.Ident, "open".toList, ⟨0, 1, 1⟩, ⟨4, 1, 5⟩⟩,
        registered [("state".toList, ["open".toList, "closed".toList])]⟩ rfl).1
      (⟨.Ws, [' '], ⟨4, 1, 5⟩, ⟨5, 1, 6⟩⟩, ⟨"\x7d".toList, 5, 1, 6⟩) rfl).1.2
      ⟨_, rfl, by decide⟩,
    by decide, by decide⟩

/-- C5, the claim as stated fails: in `door{state:open$}` the identifier `open` is in value
position and is registered for `state`, but `parseValue` does not return `Enum("open")`; with
nothing registered it does not fail with "Unknown enum value" either.  Fetching the token after
the identifier throws the lex error first. -/
theorem enum_preempted_by_lex_error :
    parseValue "state".toList
        ⟨⟨"$\x7d".toList, 15, 1, 16⟩, ⟨.Ident, "open".toList, ⟨11, 1, 12⟩, ⟨15, 1, 16⟩⟩,
          registered [("state".toList, ["open".toList, "closed".toList])]⟩ =
      .error ⟨"Unexpected character '$'".toList, ⟨15, 1, 16⟩⟩ ∧
    (registered [("state".toList, ["open".toList, "closed".toList])]).allows
      "state".toList "open".toList = true ∧
    parseText (registered [("state".toList, ["open".toList, "closed".toList])])
        "door\x7bstate:open$\x7d".toList =
      .error ⟨"Unexpected character '$'".toList, ⟨15, 1, 16⟩⟩ [.startElement "door".toList] ∧
    parseText EnumMap.empty "door\x7bstate:open$\x7d".toList =
      .error ⟨"Unexpected character '$'".toList, ⟨15, 1, 16⟩⟩ [.startElement "door".toList] :=
  ⟨rfl, by decide, rfl, rfl⟩

end SmlSaxParser

/-! ## C6: lexer round trip -/

/-- C6 (as amended): on an input that tokenises, concatenating in order the source of every
token (its text, for a `String` token the text put back between the two quote characters)
yields the input up to the position where `next` returned `Eof`, which is the end of the input
or a NUL character; it yields exactly the input when the input contains no NUL.  The `Eof` token
has empty text. -/
theorem lexer_round_trip (input : List Char) (all : List Token) (eof : Token)
    (h : tokenize input = some (all, eof)) :
    (∃ k, k ≤ input.length ∧ (all.map Token.source).flatten = input.take k ∧
      (input.drop k = [] ∨ (input.drop k).getD 0 NUL = NUL)) ∧
    (NUL ∉ input → (all.map Token.source).flatten = input) ∧
    (∀ t ∈ all, t.type ≠ .String → t.source = t.text) ∧
    (∀ t ∈ all, t.type = .String → t.source = '"' :: (t.text ++ ['"'])) ∧
    eof.text = [] := by
  obtain ⟨k, hk, e1, e2, e3, e4⟩ := eof_position h
  refine ⟨⟨k, hk, e1, e3⟩, fun hnul => by rw [e1, e4 hnul], ?_, ?_, by rw [e2]⟩
  · intro t _ ht; simp [Token.source, ht]
  · intro t _ ht; simp [Token.source, ht]

/-- C6 at `a { b: "hi" } // c`. -/
theorem lexer_round_trip_witness :
    ((Option.get (tokenize "a \x7b b: \"hi\" \x7d // c".toList) (by decide)).1.map
      Token.source).flatten = "a \x7b b: \"hi\" \x7d // c".toList :=
  (lexer_round_trip "a \x7b b: \"hi\" \x7d // c".toList _ _
    (Option.some_get (show (tokenize "a \x7b b: \"hi\" \x7d // c".toList).isSome = true by
      decide)).symm).2.1 (by decide)

/-- C6, the claim as stated fails: the input `"a"` (a string literal, three characters) lexes to
one `String` token with text `a`, and the concatenated token texts are `a`, not the input. -/
theorem text_concat_drops_quotes :
    (tokenize ['"', 'a', '"']).map (fun q => (q.1.map Token.text).flatten ++ q.2.text) =
      some ['a'] ∧
    (['a'] : List Char) ≠ ['"', 'a', '"'] := by
  decide

/-! ## C9: lex errors -/

namespace SmlLexer

theorem stringLoop_error (n : Nat) (lx : SmlLexer) (quote : Char) (text : List Char)
    (e : SmlParseException) (h : stringLoop n lx quote text = .error e) :
    e.message = "Unterminated string literal".toList := by
  induction n generalizing lx text with
  | zero => simp only [stringLoop, Except.error.injEq] at h; rw [← h]
  | succ n ih =>
    rw [stringLoop] at h
    split at h
    · simp only [Except.error.injEq] at h; rw [← h]
    · split at h
      · simp at h
      · exact ih _ _ h

theorem lexString_error (lx : SmlLexer) (e : SmlParseException) (h : lexString lx = .error e) :
    e.message = "Unterminated string literal".toList := by
  unfold lexString at h
  split at h
  · next e' he =>
    simp only [Except.error.injEq] at h
    rw [← h]
    exact stringLoop_error _ _ _ _ _ he
  · simp at h

/-- C9 (as amended): `next` fails with "Unexpected character" at the cursor position exactly
when the character at the cursor cannot begin a token, that is when the cursor is not at the end
of the input and the character is none of: a character of `std::isspace` (space, tab, newline,
vertical tab, form feed, carriage return), a comment start (`//` or `/*`), `{`, `}`, `:`, `,`, a
double quote, NUL (at which `next` returns `Eof`), a letter, an underscore, a digit.  The only
other lex failure is the unterminated string literal, at a double quote.  Everything the
specification lists as a token start is one. -/
theorem lex_error_iff (lx : SmlLexer) :
    (lx.beginsToken = false →
      lx.next = .error ⟨"Unexpected character '".toList ++ [lx.peek 0] ++ ['\''],
        lx.spanStart⟩) ∧
    (∀ e, lx.next = .error e →
      (lx.beginsToken = false ∧
        e = ⟨"Unexpected character '".toList ++ [lx.peek 0] ++ ['\''], lx.spanStart⟩) ∨
      (lx.peek 0 = '"' ∧ e.message = "Unterminated string literal".toList)) ∧
    (lx.beginsTokenAsSpecified = true → lx.beginsToken = true) := by
  refine ⟨?_, ?_, ?_⟩
  · intro h
    simp only [beginsToken, Bool.or_eq_false_iff, Bool.and_eq_false_imp, decide_eq_false_iff_not,
      beq_eq_false_iff_ne, ne_eq, Bool.or_eq_true, beq_iff_eq, not_or] at h
    obtain ⟨⟨⟨⟨⟨⟨⟨⟨⟨⟨⟨c1, c2⟩, c3⟩, c5⟩, c6⟩, c7⟩, c8⟩, c9⟩, c10⟩, c11⟩, c12⟩, c13⟩ := h
    unfold next
    rw [if_neg c1, if_neg (by simp [c2]), if_neg (fun hh => (c3 hh.1).1 hh.2),
      if_neg (fun hh => (c3 hh.1).2 hh.2), if_neg c5, if_neg c6, if_neg c7, if_neg c8, if_neg c9,
      if_neg c10, if_neg (by simp [c11, c12]), if_neg (by simp [c13])]
  · intro e h
    unfold next at h
    by_cases c1 : lx.rest = []
    · rw [if_pos c1] at h; simp at h
    rw [if_neg c1] at h
    by_cases c2 : isspace (lx.peek 0) = true
    · rw [if_pos c2] at h; simp at h
    rw [if_neg c2] at h
    by_cases c3 : lx.peek 0 = '/' ∧ lx.peek 1 = '/'
    · rw [if_pos c3] at h; simp at h
    rw [if_neg c3] at h
    by_cases c4 : lx.peek 0 = '/' ∧ lx.peek 1 = '*'
    · rw [if_pos c4] at h; simp at h
    rw [if_neg c4] at h
    by_cases c5 : lx.peek 0 = '{'
    · rw [if_pos c5] at h; simp at h
    rw [if_neg c5] at h
    by_cases c6 : lx.peek 0 = '}'
    · rw [if_pos c6] at h; simp at h
    rw [if_neg c6] at h
    by_cases c7 : lx.peek 0 = ':'
    · rw [if_pos c7] at h; simp at h
    rw [if_neg c7] at h
    by_cases c8 : lx.peek 0 = ','
    · rw [if_pos c8] at h; simp at h
    rw [if_neg c8] at h
    by_cases c9 : lx.peek 0 = '"'
    · rw [if_pos c9] at h
      exact Or.inr ⟨c9, lexString_error lx e h⟩
    rw [if_neg c9] at h
    by_cases c10 : lx.peek 0 = NUL
    · rw [if_pos c10] at h; simp at h
    rw [if_neg c10] at h
    by_cases c11 : (isalpha (lx.peek 0) || lx.peek 0 == '_') = true
    · rw [if_pos c11] at h; simp at h
    rw [if_neg c11] at h
    by_cases c12 : isdigit (lx.peek 0) = true
    · rw [if_pos c12] at h; simp at h
    rw [if_neg c12] at h
    simp only [Except.error.injEq] at h
    refine Or.inl ⟨?_, h.symm⟩
    simp only [Bool.or_eq_true, beq_iff_eq, not_or] at c11
    simp only [beginsToken, Bool.or_eq_false_iff, Bool.and_eq_false_imp, decide_eq_false_iff_not,
      beq_eq_false_iff_ne, ne_eq, Bool.or_eq_true, beq_iff_eq, not_or]
    refine ⟨⟨⟨⟨⟨⟨⟨⟨⟨⟨⟨c1, by simpa using c2⟩, fun hh => ⟨fun h1 => c3 ⟨hh, h1⟩,
      fun h1 => c4 ⟨hh, h1⟩⟩⟩, c5⟩, c6⟩, c7⟩, c8⟩, c9⟩, c10⟩, by simpa using c11.1⟩, c11.2⟩,
      by simpa using c12⟩
  · intro h
    simp only [beginsTokenAsSpecified, Bool.or_eq_true, decide_eq_true_eq, beq_iff_eq,
      Bool.and_eq_true] at h
    simp only [beginsToken, Bool.or_eq_true, decide_eq_true_eq, beq_iff_eq, Bool.and_eq_true,
      isspace]
    tauto

/-- C9, the claim as stated fails: a vertical tab is none of the characters the specification
lists, and neither is a NUL followed by more input, but `next` does not fail on them: it returns
a `Ws` token for the vertical tab and an `Eof` token at the NUL. -/
theorem next_accepts_vertical_tab_and_nul :
    (SmlLexer.mk0 ['\x0b', 'a']).beginsTokenAsSpecified = false ∧
    (SmlLexer.mk0 ['\x0b', 'a']).next =
      .ok (⟨.Ws, ['\x0b'], ⟨0, 1, 1⟩, ⟨1, 1, 2⟩⟩, ⟨['a'], 1, 1, 2⟩) ∧
    (SmlLexer.mk0 [NUL, 'a']).beginsTokenAsSpecified = false ∧
    (SmlLexer.mk0 [NUL, 'a']).next =
      .ok (⟨.Eof, [], ⟨0, 1, 1⟩, ⟨0, 1, 1⟩⟩, ⟨[NUL, 'a'], 0, 1, 1⟩) :=
  ⟨by decide, rfl, by decide, rfl⟩

end SmlLexer

/-! ## C8: the enum registry -/

theorem EnumMap.store_index (m : EnumMap) (property : List Char) (s : Finset (List Char)) :
    (m.store property s).index property = s := by
  simp [EnumMap.store, EnumMap.index]

theorem EnumMap.store_store (m : EnumMap) (property : List Char) (s1 s2 : Finset (List Char)) :
    (m.store property s1).store property s2 = m.store property s2 := by
  funext k
  simp only [EnumMap.store]
  split <;> rfl

theorem foldl_insert (values : List (List Char)) (s : Finset (List Char)) :
    values.foldl (fun s v => insert v s) s = s ∪ values.toFinset := by
  induction values generalizing s with
  | nil => simp
  | cons v vs ih =>
    rw [List.foldl_cons, ih]
    ext x
    simp only [Finset.mem_union, Finset.mem_insert, List.toFinset_cons]
    tauto

theorem EnumMap.allows_eq_index (m : EnumMap) (a v : List Char) :
    m.allows a v = decide (v ∈ m.index a) := by
  unfold EnumMap.allows EnumMap.index
  split <;> simp [*]

namespace SmlSaxParser

theorem registerEnumValues_cons (p : SmlSaxParser) (property v : List Char)
    (vs : List (List Char)) :
    (p.registerEnumValue property v).registerEnumValues property vs =
      p.registerEnumValues property (v :: vs) := by
  simp only [registerEnumValues, registerEnumValue, EnumMap.store_index, EnumMap.store_store,
    List.foldl_cons]

theorem foldl_registerEnumValue (values : List (List Char)) (hne : values ≠ [])
    (p : SmlSaxParser) (property : List Char) :
    values.foldl (fun q x => q.registerEnumValue property x) p =
      p.registerEnumValues property values := by
  induction values generalizing p with
  | nil => exact absurd rfl hne
  | cons v vs ih =>
    rw [List.foldl_cons]
    cases vs with
    | nil => rfl
    | cons w ws =>
      rw [ih (by simp), registerEnumValues_cons]

theorem allowed_store (m : EnumMap) (property : List Char) (s : Finset (List Char))
    (a v : List Char) :
    (m.store property s).allows a v =
      if a = property then decide (v ∈ s) else m.allows a v := by
  by_cases h : a = property
  · simp [EnumMap.allows, EnumMap.store, h]
  · simp [EnumMap.allows, EnumMap.store, h]

/-- C8 (as amended): registering a value twice leaves the registry in the state registering it
once does; `registerEnumValues(p, vs)` leaves the state that `registerEnumValue(p, x)` for each
`x` of `vs` leaves when `vs` is not empty, and for every `vs`, the empty list included, the same
answers of `isEnumValueAllowed` (for the empty list it adds an entry with an empty set, which
allows nothing); duplicates in `vs` do not matter; and no registration removes an allowed
value. -/
theorem registry_idempotent (p : SmlSaxParser) (property value : List Char)
    (values : List (List Char)) :
    (p.registerEnumValue property value).registerEnumValue property value =
      p.registerEnumValue property value ∧
    (values ≠ [] → p.registerEnumValues property values =
      values.foldl (fun q x => q.registerEnumValue property x) p) ∧
    (∀ a v, (p.registerEnumValues property values).isEnumValueAllowed a v =
      (values.foldl (fun q x => q.registerEnumValue property x) p).isEnumValueAllowed a v) ∧
    p.registerEnumValues property values = p.registerEnumValues property values.dedup ∧
    (∀ a v, p.isEnumValueAllowed a v = true →
      (p.registerEnumValue property value).isEnumValueAllowed a v = true ∧
      (p.registerEnumValues property values).isEnumValueAllowed a v = true) := by
  refine ⟨?_, fun hne => (foldl_registerEnumValue values hne p property).symm, ?_, ?_, ?_⟩
  · simp only [registerEnumValue, EnumMap.store_index, EnumMap.store_store,
      Finset.insert_idem]
  · intro a v
    cases values with
    | nil =>
      simp only [List.foldl_nil, isEnumValueAllowed_eq, registerEnumValues, allowed_store]
      split
      · next h =>
        rw [h, EnumMap.allows_eq_index]
      · rfl
    | cons w ws => rw [foldl_registerEnumValue _ (by simp)]
  · have hd : values.dedup.toFinset = values.toFinset := by ext x; simp
    simp only [registerEnumValues, foldl_insert, hd]
  · intro a v h
    simp only [isEnumValueAllowed_eq] at h ⊢
    simp only [registerEnumValue, registerEnumValues, allowed_store, foldl_insert]
    have hin : a = property → v ∈ p.enums_.index property := by
      intro ha
      rw [ha, EnumMap.allows_eq_index] at h
      simpa using h
    constructor
    · split
      · next ha => simp [hin ha]
      · exact h
    · split
      · next ha => simp [hin ha]
      · exact h

/-- C8, the claim as stated fails: `registerEnumValues(p, [])` on a fresh parser leaves an entry
for `p` (with the empty set) in the registry, while no call of `registerEnumValue` leaves none,
so the two states differ. -/
theorem registerEnumValues_empty_adds_entry :
    (((⟨SmlLexer.mk0 [], ⟨.Eof, [], ⟨0, 1, 1⟩, ⟨0, 1, 1⟩⟩, EnumMap.empty⟩ :
        SmlSaxParser).registerEnumValues ['p'] []).enums_ ['p']).isSome = true ∧
    ((([] : List (List Char)).foldl (fun q x => q.registerEnumValue ['p'] x)
        (⟨SmlLexer.mk0 [], ⟨.Eof, [], ⟨0, 1, 1⟩, ⟨0, 1, 1⟩⟩, EnumMap.empty⟩ :
          SmlSaxParser)).enums_ ['p']).isSome = false := by
  decide

end SmlSaxParser

/-! ## C11: member disambiguation -/

namespace SmlSaxParser

/-- C11 (as amended): member disambiguation in the member loops of `parseElementBody` and
`parseElement`, at a lookahead that is an identifier token `name` whose next significant token is
`t`.  If `t` is `:` the member is parsed as a property: the run goes on with `consume` of the
colon, `parseValue(name)` and `onProperty(name, value)`.  If `t` is `{` the member is parsed as a
nested element: the run goes on with `consume` of the brace, `startElement(name)`, the body, the
closing brace and `endElement(name)`.  If `t` is any other token (end of input included) the run
fails, with no further handler call, with the message "Expected '{' after nested element name '"
followed by the text of `name` and a closing single quote, positioned at the start of `t`. -/
theorem member_disambiguation (n : Nat) (p : SmlSaxParser) (handler : List Event) (t : Token)
    (lx1 : SmlLexer) (hid : p.lookahead_.type = .Ident)
    (hs : SmlLexer.SkipsTo p.lexer_ t lx1) :
    (t.type = .Colon →
      parseElementBody (n + 1) p handler =
        ((consume ⟨lx1, t, p.enums_⟩).on handler fun r3 =>
          (skipIgnorables r3.2).on handler fun p4 =>
          (parseValue p.lookahead_.text p4).on handler fun value =>
          (skipIgnorables value.2).on
            (handler ++ [.onProperty p.lookahead_.text value.1]) fun p6 =>
          parseElementBody n p6 (handler ++ [.onProperty p.lookahead_.text value.1])) ∧
      parseElementLoop (n + 1) p handler = parseElementBody (n + 1) p handler) ∧
    (t.type = .LBrace →
      parseElementBody (n + 1) p handler =
        ((consume ⟨lx1, t, p.enums_⟩).on handler fun r3 =>
          (skipIgnorables r3.2).on (handler ++ [.startElement p.lookahead_.text]) fun p4 =>
          (parseElementBody n p4 (handler ++ [.startElement p.lookahead_.text])).andThen
            fun p5 handler5 =>
          (expect p5 .RBrace).on handler5 fun r6 =>
          (skipIgnorables r6.2).on (handler5 ++ [.endElement p.lookahead_.text]) fun p7 =>
          parseElementBody n p7 (handler5 ++ [.endElement p.lookahead_.text])) ∧
      parseElementLoop (n + 1) p handler = parseElementBody (n + 1) p handler) ∧
    (t.type ≠ .Colon → t.type ≠ .LBrace →
      parseElementBody (n + 1) p handler =
        .error ⟨"Expected '\x7b' after nested element name '".toList ++ p.lookahead_.text ++
          "'".toList, t.start⟩ handler ∧
      parseElementLoop (n + 1) p handler =
        .error ⟨"Expected '\x7b' after nested element name '".toList ++ p.lookahead_.text ++
          "'".toList, t.start⟩ handler) := by
  obtain ⟨p1, e1, e2⟩ := consume_skip hs
  have hc : p.lookahead_.type ≠ .RBrace ∧ p.lookahead_.type ≠ .Eof := by
    rw [hid]; exact ⟨by decide, by decide⟩
  refine ⟨fun ht => ⟨?_, parseElementLoop_eq _ _ _⟩, fun ht => ⟨?_, parseElementLoop_eq _ _ _⟩,
    fun h1 h2 => ?_⟩
  · rw [parseElementBody, if_pos hc, if_neg (not_not.2 hid), e1]
    simp only [Res.on, e2, ht, if_true]
  · have hne : t.type ≠ .Colon := by rw [ht]; decide
    rw [parseElementBody, if_pos hc, if_neg (not_not.2 hid), e1]
    simp only [Res.on, e2, ht, reduceCtorEq, if_false, ne_eq, not_true_eq_false]
  · have key : parseElementBody (n + 1) p handler =
        .error ⟨"Expected '\x7b' after nested element name '".toList ++ p.lookahead_.text ++
          "'".toList, t.start⟩ handler := by
      rw [parseElementBody, if_pos hc, if_neg (not_not.2 hid), e1]
      simp only [Res.on, e2, if_neg h1, if_pos h2]
    exact ⟨key, by rw [parseElementLoop_eq, key]⟩

/-- C11 at the member `b` followed by `}` (the state inside `a { b }` at `b`), and the whole runs
on `a { b }`, `a { b, }`, `a { b "x" }`, `a { b c }` and `a { b` (end of input). -/
theorem member_disambiguation_witness :
    parseElementBody 1
        ⟨⟨" \x7d".toList, 5, 1, 6⟩, ⟨.Ident, ['b'], ⟨4, 1, 5⟩, ⟨5, 1, 6⟩⟩, EnumMap.empty⟩ [] =
      .error ⟨"Expected '\x7b' after nested element name 'b'".toList, ⟨6, 1, 7⟩⟩ [] ∧
    (parseText EnumMap.empty "a \x7b b \x7d".toList).exception =
      some ⟨"Expected '\x7b' after nested element name 'b'".toList, ⟨6, 1, 7⟩⟩ ∧
    (parseText EnumMap.empty "a \x7b b, \x7d".toList).exception =
      some ⟨"Expected '\x7b' after nested element name 'b'".toList, ⟨5, 1, 6⟩⟩ ∧
    (parseText EnumMap.empty "a \x7b b \"x\" \x7d".toList).exception =
      some ⟨"Expected '\x7b' after nested element name 'b'".toList, ⟨6, 1, 7⟩⟩ ∧
    (parseText EnumMap.empty "a \x7b b c \x7d".toList).exception =
      some ⟨"Expected '\x7b' after nested element name 'b'".toList, ⟨6, 1, 7⟩⟩ ∧
    (parseText EnumMap.empty "a \x7b b".toList).exception =
      some ⟨"Expected '\x7b' after nested element name 'b'".toList, ⟨5, 1, 6⟩⟩ ∧
    (parseText EnumMap.empty "a \x7b b: 1 c \x7b \x7d \x7d".toList).events =
      [.startElement ['a'], .onProperty ['b'] (.FromInt 1), .startElement ['c'],
        .endElement ['c'], .endElement ['a']] :=
  ⟨((member_disambiguation 0
      ⟨⟨" \x7d".toList, 5, 1, 6⟩, ⟨.Ident, ['b'], ⟨4, 1, 5⟩, ⟨5, 1, 6⟩⟩, EnumMap.empty⟩ []
      ⟨.RBrace, ['}'], ⟨6, 1, 7⟩, ⟨7, 1, 8⟩⟩ ⟨[], 7, 1, 8⟩ rfl
      (.skip (w := ⟨.Ws, [' '], ⟨5, 1, 6⟩, ⟨6, 1, 7⟩⟩) rfl rfl (.here rfl rfl))).2.2
      (by decide) (by decide)).1,
    by decide, by decide, by decide, by decide, by decide, by decide⟩

/-- C11, the claim as stated fails: on `a { b }` the message of the exception is
"Expected '{' after nested element name 'b'", with the member name appended, not the text
"Expected '{' after nested element name". -/
theorem nested_name_message_has_name :
    (parseText EnumMap.empty "a \x7b b \x7d".toList).exception.map (fun e => e.message) =
      some "Expected '\x7b' after nested element name 'b'".toList ∧
    (parseText EnumMap.empty "a \x7b b \x7d".toList).exception.map (fun e => e.message) ≠
      some "Expected '\x7b' after nested element name".toList ∧
    (parseText EnumMap.empty "a \x7b b \x7d".toList).exception.map (fun e => e.what) =
      some "Expected '\x7b' after nested element name 'b' at line 1, col 7".toList := by
  decide

end SmlSaxParser

/-! ## The lexer as a function of the input suffix -/

namespace SmlLexer

/-- A loop that consumes characters while `p` holds consumes the longest prefix of such
characters. -/
theorem loop_takeWhile (p : Char → Bool) (hp : p NUL = false)
    (loop : Nat → SmlLexer → List Char → SmlLexer × List Char)
    (h0 : ∀ lx text, loop 0 lx text = (lx, text))
    (hs : ∀ n lx text, loop (n + 1) lx text =
      if p (lx.peek 0) = true then loop n (advance 1 lx) (text ++ [lx.peek 0]) else (lx, text)) :
    ∀ n lx text, lx.rest.length ≤ n →
      loop n lx text = (advance (lx.rest.takeWhile p).length lx, text ++ lx.rest.takeWhile p) := by
  intro n
  induction n with
  | zero =>
    intro lx text hn
    have : lx.rest = [] := List.eq_nil_of_length_eq_zero (Nat.le_zero.1 hn)
    simp [h0, this, advance]
  | succ n ih =>
    intro lx text hn
    rw [hs]
    cases h : lx.rest with
    | nil => simp [peek_nil h, hp, advance]
    | cons c r =>
      rw [peek_zero_cons h]
      by_cases hc : p c = true
      · have hr : (advance 1 lx).rest = r := by simp [advance_rest, h]
        rw [if_pos hc, ih _ _ (by rw [hr]; rw [h] at hn; simpa using hn), hr, advance_advance]
        simp [List.takeWhile_cons, hc, Nat.add_comm]
      · rw [if_neg hc]
        simp [List.takeWhile_cons, hc, advance]

theorem wsLoop_eq (n : Nat) (lx : SmlLexer) (text : List Char) (hn : lx.rest.length ≤ n) :
    wsLoop n lx text =
      (advance (lx.rest.takeWhile isspace).length lx, text ++ lx.rest.takeWhile isspace) :=
  loop_takeWhile isspace (by decide) wsLoop (fun _ _ => rfl) (fun _ _ _ => rfl) n lx text hn

theorem digitLoop_eq (n : Nat) (lx : SmlLexer) (text : List Char) (hn : lx.rest.length ≤ n) :
    digitLoop n lx text =
      (advance (lx.rest.takeWhile isdigit).length lx, text ++ lx.rest.takeWhile isdigit) :=
  loop_takeWhile isdigit (by decide) digitLoop (fun _ _ => rfl) (fun _ _ _ => rfl) n lx text hn

theorem lineLoop_eq (n : Nat) (lx : SmlLexer) (text : List Char) (hn : lx.rest.length ≤ n) :
    lineLoop n lx text =
      (advance (lx.rest.takeWhile fun x => x != NUL && x != '\n').length lx,
        text ++ lx.rest.takeWhile fun x => x != NUL && x != '\n') := by
  refine loop_takeWhile (fun x => x != NUL && x != '\n') (by decide) lineLoop (fun _ _ => rfl)
    (fun n lx text => ?_) n lx text hn
  rw [lineLoop]
  by_cases h : lx.peek 0 ≠ NUL ∧ lx.peek 0 ≠ '\n'
  · rw [if_pos h, if_pos (by simp [h.1, h.2])]
  · rw [if_neg h, if_neg]
    intro hc
    simp only [Bool.and_eq_true, bne_iff_ne, ne_eq] at hc
    exact h hc

theorem identLoop_eq (n : Nat) (lx : SmlLexer) (text : List Char) (hn : lx.rest.length ≤ n) :
    identLoop n lx false text =
      (advance (lx.rest.takeWhile fun x => isalnum x || x == '_').length lx,
        text ++ lx.rest.takeWhile fun x => isalnum x || x == '_') := by
  refine loop_takeWhile (fun x => isalnum x || x == '_') (by decide)
    (fun n lx text => identLoop n lx false text) (fun _ _ => rfl) (fun n lx text => ?_) n lx text hn
  simp only [identLoop, Bool.false_eq_true, if_false]
  by_cases hnul : lx.peek 0 = NUL
  · rw [if_pos hnul, hnul, if_neg (by decide)]
  · rw [if_neg hnul]
    cases hb : (isalnum (lx.peek 0) || lx.peek 0 == '_') <;> simp

theorem blockLoop_eq (n : Nat) (lx : SmlLexer) (text : List Char) (hn : lx.rest.length ≤ n) :
    blockLoop n lx text =
      (advance (scanBlock lx.rest).length lx, text ++ scanBlock lx.rest) := by
  induction n generalizing lx text with
  | zero =>
    have : lx.rest = [] := List.eq_nil_of_length_eq_zero (Nat.le_zero.1 hn)
    simp [blockLoop, this, scanBlock, advance]
  | succ n ih =>
    rw [blockLoop]
    cases h : lx.rest with
    | nil => simp [peek_nil h, scanBlock, advance]
    | cons c r =>
      have hp1 : lx.peek 1 = r.headD NUL := by cases r <;> simp [peek, h]
      rw [peek_zero_cons h, hp1, scanBlock]
      by_cases c1 : c = NUL
      · simp [c1, advance]
      · rw [if_neg c1, if_neg c1]
        by_cases c2 : c = '*' ∧ r.headD NUL = '/'
        · rw [if_pos c2, if_pos c2]
          simp
        · rw [if_neg c2, if_neg c2]
          have hr : (advance 1 lx).rest = r := by simp [advance_rest, h]
          rw [ih _ _ (by rw [hr]; rw [h] at hn; simpa using hn), hr, advance_advance]
          simp [Nat.add_comm]

theorem stringLoop_eq (n : Nat) (lx : SmlLexer) (quote : Char) (text : List Char)
    (hq : quote ≠ NUL) (hn : lx.rest.length ≤ n) :
    stringLoop n lx quote text =
      if lx.rest.getD (lx.rest.takeWhile fun x => x != NUL && x != quote).length NUL = quote then
        .ok (advance ((lx.rest.takeWhile fun x => x != NUL && x != quote).length + 1) lx,
          text ++ lx.rest.takeWhile fun x => x != NUL && x != quote)
      else
        .error ⟨"Unterminated string literal".toList,
          (advance (lx.rest.takeWhile fun x => x != NUL && x != quote).length lx).spanStart⟩ := by
  induction n generalizing lx text with
  | zero =>
    have : lx.rest = [] := List.eq_nil_of_length_eq_zero (Nat.le_zero.1 hn)
    simp [stringLoop, this, advance, Ne.symm hq]
  | succ n ih =>
    rw [stringLoop]
    cases h : lx.rest with
    | nil => simp [peek_nil h, advance, Ne.symm hq]
    | cons c r =>
      rw [peek_zero_cons h]
      by_cases c1 : c = NUL
      · simp [c1, advance, Ne.symm hq]
      · rw [if_neg c1]
        by_cases c2 : c = quote
        · simp [c2]
        · rw [if_neg c2]
          have hr : (advance 1 lx).rest = r := by simp [advance_rest, h]
          rw [ih _ _ (by rw [hr]; rw [h] at hn; simpa using hn), hr, advance_advance,
            advance_advance]
          simp only [Nat.add_comm 1]
          simp [List.takeWhile_cons, c1, c2]

end SmlLexer



theorem drop_length_takeWhile (p : Char → Bool) (l : List Char) :
    l.drop (l.takeWhile p).length = l.dropWhile p := by
  induction l with
  | nil => rfl
  | cons c l ih =>
    by_cases h : p c = true
    · simp [List.takeWhile_cons, List.dropWhile_cons, h, ih]
    · simp [List.takeWhile_cons, List.dropWhile_cons, h]

namespace SmlLexer

theorem peek_advance (lx : SmlLexer) (k j : Nat) :
    (advance k lx).peek j = (lx.rest.drop k).getD j NUL := by
  simp [peek, advance_rest]

/-- `next` is `scan` on the rest of the input, with the positions put in. -/
theorem next_scan (lx : SmlLexer) : lx.next = lx.place (scan lx.rest) := by
  cases h : lx.rest with
  | nil => simp [next, h, scan, place, advance]
  | cons c r =>
    have hne : lx.rest ≠ [] := by rw [h]; simp
    have hp0 : lx.peek 0 = c := peek_zero_cons h
    have hp1 : lx.peek 1 = r.headD NUL := by cases r <;> simp [peek, h]
    have hr1 : (advance 1 lx).rest = r := by simp [advance_rest, h]
    unfold next
    rw [if_neg hne, hp0, hp1]
    simp only [scan]
    by_cases c2 : isspace c = true
    · rw [if_pos c2, if_pos c2, wsLoop_eq _ _ _ (Nat.le_refl _), h]
      simp [place, makeToken]
    rw [if_neg c2, if_neg c2]
    by_cases c3 : c = '/' ∧ r.headD NUL = '/'
    · rw [if_pos c3, if_pos c3, lineLoop_eq _ _ _ (Nat.le_refl _), h]
      simp [place, makeToken]
    rw [if_neg c3, if_neg c3]
    by_cases c4 : c = '/' ∧ r.headD NUL = '*'
    · rw [if_pos c4, if_pos c4, blockLoop_eq _ _ _ (Nat.le_refl _), advance_advance]
      have : (advance 2 lx).rest = r.tail := by simp [advance_rest, h]
      rw [this]
      simp [place, makeToken, Nat.add_comm]
    rw [if_neg c4, if_neg c4]
    by_cases c5 : c = '{'
    · rw [if_pos c5, if_pos c5]; simp [place, makeToken]
    rw [if_neg c5, if_neg c5]
    by_cases c6 : c = '}'
    · rw [if_pos c6, if_pos c6]; simp [place, makeToken]
    rw [if_neg c6, if_neg c6]
    by_cases c7 : c = ':'
    · rw [if_pos c7, if_pos c7]; simp [place, makeToken]
    rw [if_neg c7, if_neg c7]
    by_cases c8 : c = ','
    · rw [if_pos c8, if_pos c8]; simp [place, makeToken]
    rw [if_neg c8, if_neg c8]
    by_cases c9 : c = '"'
    · rw [if_pos c9, if_pos c9]
      unfold lexString
      rw [hp0, c9, stringLoop_eq _ _ _ _ (by decide) (Nat.le_refl _), hr1, advance_advance,
        advance_advance]
      by_cases cq : r.getD (r.takeWhile fun x => x != NUL && x != '"').length NUL = '"'
      · rw [if_pos cq, if_pos cq]
        have ea : ∀ L, 1 + (L + 1) = L + 2 := fun L => by omega
        simp [place, ea]
      · rw [if_neg cq, if_neg cq]
        simp [place, Nat.add_comm]
    rw [if_neg c9, if_neg c9]
    by_cases c10 : c = NUL
    · rw [if_pos c10, if_pos c10]; simp [place, advance]
    rw [if_neg c10, if_neg c10]
    by_cases c11 : (isalpha c || c == '_') = true
    · rw [if_pos c11, if_pos c11]
      have e2 : identLoop lx.rest.length lx true [] =
          (advance ((r.takeWhile fun x => isalnum x || x == '_').length + 1) lx,
            c :: r.takeWhile fun x => isalnum x || x == '_') := by
        conv => lhs; rw [h, List.length_cons, identLoop, hp0, if_neg c10]
        simp only [if_true, c11, Bool.not_true, Bool.false_eq_true, if_false]
        rw [identLoop_eq _ _ _ (by rw [hr1]), hr1, advance_advance]
        simp [Nat.add_comm]
      unfold lexIdentOrBool
      simp only [e2]
      split <;> simp [place, *]
    rw [if_neg c11, if_neg c11]
    by_cases c12 : isdigit c = true
    · rw [if_pos c12, if_pos c12]
      unfold lexNumber
      simp only [digitLoop_eq _ _ _ (Nat.le_refl _)]
      simp only [peek_advance, drop_length_takeWhile, advance_rest, advance_advance,
        List.nil_append]
      rw [h]
      by_cases cd : ((c :: r).dropWhile isdigit).getD 0 NUL = '.' ∧
          isdigit (((c :: r).dropWhile isdigit).getD 1 NUL) = true
      · rw [if_pos cd, if_pos cd]
        have e3 : (c :: r).drop ((c :: r).takeWhile isdigit).length = (c :: r).dropWhile isdigit :=
          drop_length_takeWhile _ _
        have e4 : (c :: r).drop (((c :: r).takeWhile isdigit).length + 1) =
            ((c :: r).dropWhile isdigit).drop 1 := by
          rw [← e3, List.drop_drop, Nat.add_comm]
        simp only [List.drop_drop, Nat.add_comm 1, e4]
        simp [place, Nat.add_assoc]
      · rw [if_neg cd, if_neg cd]
        simp [place]
    rw [if_neg c12, if_neg c12]
    simp [place, advance]

end SmlLexer

/-! ## C12: string literals -/

theorem takeWhile_and_of_not_mem (a : Char) (q : Char → Bool) (l : List Char)
    (h : a ∉ l.takeWhile q) : l.takeWhile (fun x => x != a && q x) = l.takeWhile q := by
  induction l with
  | nil => rfl
  | cons c l ih =>
    by_cases hq : q c = true
    · rw [List.takeWhile_cons_of_pos hq] at h ⊢
      have hc : c ≠ a := fun e => h (e ▸ List.mem_cons_self _ _)
      rw [List.takeWhile_cons_of_pos (by simp [hc, hq]), ih (fun hm => h (List.mem_cons_of_mem _ hm))]
    · rw [List.takeWhile_cons_of_neg hq, List.takeWhile_cons_of_neg (by simp [hq])]

theorem getD_length_takeWhile_ne (a d : Char) (l : List Char) (h : a ∈ l) :
    l.getD (l.takeWhile fun x => x != a).length d = a := by
  induction l with
  | nil => simp at h
  | cons c l ih =>
    by_cases hc : c = a
    · simp [List.takeWhile_cons, hc]
    · have : a ∈ l := by
        rcases List.mem_cons.1 h with e | e
        · exact absurd e.symm hc
        · exact e
      simp [List.takeWhile_cons, hc]
      simpa using ih this

theorem takeWhile_eq_self_of_not_mem (a : Char) (l : List Char) (h : a ∉ l) :
    l.takeWhile (fun x => x != a) = l := by
  induction l with
  | nil => rfl
  | cons c l ih =>
    have hc : c ≠ a := fun e => h (e ▸ List.mem_cons_self _ _)
    simp [List.takeWhile_cons, hc, ih (fun hm => h (List.mem_cons_of_mem _ hm))]

theorem takeWhile_stops_at (a q : Char) (l : List Char)
    (h : a ∈ l.takeWhile fun x => x != q) :
    l.takeWhile (fun x => x != a && x != q) = l.takeWhile (fun x => x != a) ∧
      ∀ d, l.getD (l.takeWhile fun x => x != a).length d = a := by
  induction l with
  | nil => simp at h
  | cons c l ih =>
    by_cases hq : c = q
    · simp [List.takeWhile_cons, hq] at h
    · by_cases hc : c = a
      · simp [List.takeWhile_cons, hc]
      · have h2 : a ∈ l.takeWhile fun x => x != q := by
          simp only [List.takeWhile_cons, bne_iff_ne, ne_eq, hq, not_false_eq_true, decide_True,
            if_true, List.mem_cons] at h
          rcases h with e | e
          · exact absurd e.symm hc
          · simpa using e
        obtain ⟨e1, e2⟩ := ih h2
        refine ⟨?_, fun d => ?_⟩
        · simp [List.takeWhile_cons, hc, hq]
          simpa using e1
        · have := e2 d
          simp [List.takeWhile_cons, hc]
          simpa using this

theorem scan_quote (body : List Char) :
    scan ('"' :: body) =
      if body.getD (body.takeWhile fun x => x != NUL && x != '"').length NUL = '"' then
        .ok (.String, body.takeWhile (fun x => x != NUL && x != '"'),
          (body.takeWhile fun x => x != NUL && x != '"').length + 2)
      else
        .error ("Unterminated string literal".toList,
          (body.takeWhile fun x => x != NUL && x != '"').length + 1) := by
  rw [scan, if_neg (by decide), if_neg (by simp), if_neg (by simp), if_neg (by decide),
    if_neg (by decide), if_neg (by decide), if_neg (by decide), if_pos rfl]

namespace SmlLexer

theorem over_length {lx : SmlLexer} {input : List Char} (h : lx.Over input) :
    lx.i_ + lx.rest.length = input.length := by
  obtain ⟨h1, h2⟩ := h
  rw [h2, List.length_drop]
  omega

theorem advance_index (k : Nat) (lx : SmlLexer) (hk : k ≤ lx.rest.length) :
    (advance k lx).spanStart.index = lx.i_ + k := by
  rw [advance_span, Span.over_index, List.length_take, Nat.min_eq_left hk]
  rfl

/-- C12 (as amended): string literals.  At a cursor on an opening quote followed by `body`:
if the quote recurs in `body` and no NUL character precedes its first recurrence, `next` returns
a `String` token whose text is exactly the characters before that recurrence (verbatim) and the
cursor ends just after the closing quote; if neither the quote nor a NUL occurs in `body`, `next`
fails with "Unterminated string literal" positioned at the end of the input (index = input
length); and if a NUL occurs in `body` before any closing quote, `next` fails with the same
message positioned at the first NUL. -/
theorem string_literal (lx : SmlLexer) (body : List Char) (hrest : lx.rest = '"' :: body) :
    ('"' ∈ body → NUL ∉ body.takeWhile (fun x => x != '"') →
      lx.next = .ok (⟨.String, body.takeWhile (fun x => x != '"'), lx.spanStart,
          (advance ((body.takeWhile fun x => x != '"').length + 2) lx).spanStart⟩,
        advance ((body.takeWhile fun x => x != '"').length + 2) lx) ∧
      (advance ((body.takeWhile fun x => x != '"').length + 2) lx).rest =
        (body.dropWhile fun x => x != '"').drop 1) ∧
    ('"' ∉ body → NUL ∉ body →
      lx.next = .error ⟨"Unterminated string literal".toList,
        (advance lx.rest.length lx).spanStart⟩ ∧
      (advance lx.rest.length lx).rest = [] ∧
      (advance lx.rest.length lx).spanStart.index = lx.i_ + lx.rest.length ∧
      ∀ input, lx.Over input → (advance lx.rest.length lx).spanStart.index = input.length) ∧
    (NUL ∈ body.takeWhile (fun x => x != '"') →
      lx.next = .error ⟨"Unterminated string literal".toList,
        (advance ((body.takeWhile fun x => x != NUL).length + 1) lx).spanStart⟩ ∧
      (advance ((body.takeWhile fun x => x != NUL).length + 1) lx).peek 0 = NUL ∧
      (advance ((body.takeWhile fun x => x != NUL).length + 1) lx).spanStart.index =
        lx.i_ + (body.takeWhile fun x => x != NUL).length + 1) := by
  rw [next_scan, hrest, scan_quote]
  refine ⟨fun hq hnul => ?_, fun hq hnul => ?_, fun hnul => ?_⟩
  · have e1 := takeWhile_and_of_not_mem NUL (fun x => x != '"') body hnul
    have e2 := getD_length_takeWhile_ne '"' NUL body hq
    rw [e1, if_pos e2]
    refine ⟨rfl, ?_⟩
    rw [advance_rest, hrest, ← drop_length_takeWhile, List.drop_drop, List.drop_succ_cons,
      Nat.add_comm]
  · have e0 : body.takeWhile (fun x => x != '"') = body := takeWhile_eq_self_of_not_mem _ _ hq
    have e1 := takeWhile_and_of_not_mem NUL (fun x => x != '"') body (by rw [e0]; exact hnul)
    have e3 : body.getD body.length NUL = NUL := by simp
    rw [e1, e0, if_neg (by rw [e3]; decide)]
    have hi : (advance (body.length + 1) lx).spanStart.index = lx.i_ + (body.length + 1) :=
      advance_index _ _ (by rw [hrest]; simp)
    refine ⟨rfl, ?_, hi, fun input hov => ?_⟩
    · rw [advance_rest, hrest]; simp
    · have := over_length hov
      rw [hrest] at this
      simp only [List.length_cons] at this ⊢
      rw [hi]; exact this
  · obtain ⟨e1, e2⟩ := takeWhile_stops_at NUL '"' body hnul
    rw [e1, if_neg (by rw [e2]; decide)]
    refine ⟨rfl, ?_, ?_⟩
    · rw [peek_advance, hrest]
      simpa using e2 NUL
    · rw [advance_index _ _ (by rw [hrest]; simp; exact (List.takeWhile_prefix _).length_le)]
      omega

/-- C12 at the input `"hi" x`: the token is the string `hi`, from index 0 to index 4; and at
the unterminated `"hi`, where the error is at index 3, the length of the input. -/
theorem string_literal_witness :
    (mk0 "\"hi\" x".toList).next =
      .ok (⟨.String, ['h', 'i'], ⟨0, 1, 1⟩, ⟨4, 1, 5⟩⟩, ⟨" x".toList, 4, 1, 5⟩) ∧
    (mk0 "\"hi".toList).next = .error ⟨"Unterminated string literal".toList, ⟨3, 1, 4⟩⟩ ∧
    (mk0 "\"a\nb\"".toList).next =
      .ok (⟨.String, ['a', '\n', 'b'], ⟨0, 1, 1⟩, ⟨5, 2, 3⟩⟩, ⟨[], 5, 2, 3⟩) :=
  ⟨((string_literal (mk0 "\"hi\" x".toList) "hi\" x".toList rfl).1 (by decide) (by decide)).1,
    rfl, rfl⟩

/-- C12, the claim as stated fails: in the input quote, `a`, NUL, quote the opening quote recurs
later, but `next` returns no `String` token, it fails at the NUL; and in quote, `a`, NUL, `b` the
quote never recurs, but the error is positioned at index 2, the NUL, not at the input length 4. -/
theorem string_stops_at_nul :
    (mk0 ['"', 'a', NUL, '"']).next =
      .error ⟨"Unterminated string literal".toList, ⟨2, 1, 3⟩⟩ ∧
    '"' ∈ (['a', NUL, '"'] : List Char) ∧
    (mk0 ['"', 'a', NUL, 'b']).next =
      .error ⟨"Unterminated string literal".toList, ⟨2, 1, 3⟩⟩ ∧
    '"' ∉ (['a', NUL, 'b'] : List Char) ∧
    (['"', 'a', NUL, 'b'] : List Char).length = 4 :=
  ⟨rfl, by decide, rfl, by decide, rfl⟩

end SmlLexer

/-! ## C16: number tokens -/

theorem isdigit_bounds {c : Char} (h : isdigit c = true) : 48 ≤ c.toNat ∧ c.toNat ≤ 57 := by
  simpa [isdigit] using h

theorem isdigit_not_other {c : Char} (h : isdigit c = true) :
    isspace c = false ∧ c ≠ '/' ∧ c ≠ '{' ∧ c ≠ '}' ∧ c ≠ ':' ∧ c ≠ ',' ∧ c ≠ '"' ∧ c ≠ NUL ∧
      (isalpha c || c == '_') = false := by
  have hb := isdigit_bounds h
  have hne : ∀ d : Char, (d.toNat < 48 ∨ 57 < d.toNat) → c ≠ d := by
    intro d hd e
    rw [e] at hb
    omega
  refine ⟨?_, hne _ (by decide), hne _ (by decide), hne _ (by decide), hne _ (by decide),
    hne _ (by decide), hne _ (by decide), hne _ (by decide), ?_⟩
  · have := hne ' ' (by decide)
    have := hne '\t' (by decide)
    have := hne '\n' (by decide)
    have := hne '\x0b' (by decide)
    have := hne '\x0c' (by decide)
    have := hne '\r' (by decide)
    simp [isspace, *]
  · have := hne '_' (by decide)
    have h1 : ¬ (65 ≤ c.toNat ∧ c.toNat ≤ 90) := by omega
    have h2 : ¬ (97 ≤ c.toNat ∧ c.toNat ≤ 122) := by omega
    simp only [isalpha, Bool.or_eq_false_iff, Bool.and_eq_false_iff, decide_eq_false_iff_not,
      beq_eq_false_iff_ne, ne_eq]
    refine ⟨⟨?_, ?_⟩, this⟩
    · by_cases a : 'A'.toNat ≤ c.toNat
      · right; intro b; exact h1 ⟨a, b⟩
      · left; exact a
    · by_cases a : 'a'.toNat ≤ c.toNat
      · right; intro b; exact h2 ⟨a, b⟩
      · left; exact a

theorem scan_digit {c : Char} (r : List Char) (h : isdigit c = true) :
    scan (c :: r) =
      if ((c :: r).dropWhile isdigit).getD 0 NUL = '.' ∧
          isdigit (((c :: r).dropWhile isdigit).getD 1 NUL) = true then
        .ok (.Float,
          (c :: r).takeWhile isdigit ++
            '.' :: (((c :: r).dropWhile isdigit).drop 1).takeWhile isdigit,
          ((c :: r).takeWhile isdigit).length + 1 +
            ((((c :: r).dropWhile isdigit).drop 1).takeWhile isdigit).length)
      else .ok (.Int, (c :: r).takeWhile isdigit, ((c :: r).takeWhile isdigit).length) := by
  obtain ⟨a1, a2, a3, a4, a5, a6, a7, a8, a9⟩ := isdigit_not_other h
  rw [scan, if_neg (by rw [a1]; simp), if_neg (fun x => a2 x.1), if_neg (fun x => a2 x.1),
    if_neg a3, if_neg a4, if_neg a5, if_neg a6, if_neg a7, if_neg a8,
    if_neg (by rw [a9]; simp), if_pos h]

/-- A token of kind `Int` or `Float` is returned at a digit only. -/
theorem number_at_digit {lx : SmlLexer} {r : Token × SmlLexer} (hn : lx.next = .ok r)
    (hty : r.1.type = .Int ∨ r.1.type = .Float) : isdigit (lx.peek 0) = true := by
  rw [SmlLexer.next_scan] at hn
  cases h : lx.rest with
  | nil =>
    rw [h] at hn
    simp only [scan, SmlLexer.place, Except.ok.injEq] at hn
    rw [← hn] at hty
    simp at hty
  | cons c rest =>
    rw [SmlLexer.peek_zero_cons h]
    by_contra hd
    rw [h, scan] at hn
    by_cases c2 : isspace c = true
    · rw [if_pos c2] at hn
      simp only [SmlLexer.place, Except.ok.injEq] at hn; rw [← hn] at hty; simp at hty
    rw [if_neg c2] at hn
    by_cases c3 : c = '/' ∧ rest.headD NUL = '/'
    · rw [if_pos c3] at hn
      simp only [SmlLexer.place, Except.ok.injEq] at hn; rw [← hn] at hty; simp at hty
    rw [if_neg c3] at hn
    by_cases c4 : c = '/' ∧ rest.headD NUL = '*'
    · rw [if_pos c4] at hn
      simp only [SmlLexer.place, Except.ok.injEq] at hn; rw [← hn] at hty; simp at hty
    rw [if_neg c4] at hn
    by_cases c5 : c = '{'
    · rw [if_pos c5] at hn
      simp only [SmlLexer.place, Except.ok.injEq] at hn; rw [← hn] at hty; simp at hty
    rw [if_neg c5] at hn
    by_cases c6 : c = '}'
    · rw [if_pos c6] at hn
      simp only [SmlLexer.place, Except.ok.injEq] at hn; rw [← hn] at hty; simp at hty
    rw [if_neg c6] at hn
    by_cases c7 : c = ':'
    · rw [if_pos c7] at hn
      simp only [SmlLexer.place, Except.ok.injEq] at hn; rw [← hn] at hty; simp at hty
    rw [if_neg c7] at hn
    by_cases c8 : c = ','
    · rw [if_pos c8] at hn
      simp only [SmlLexer.place, Except.ok.injEq] at hn; rw [← hn] at hty; simp at hty
    rw [if_neg c8] at hn
    by_cases c9 : c = '"'
    · rw [if_pos c9] at hn
      split_ifs at hn
      · simp only [SmlLexer.place, Except.ok.injEq] at hn; rw [← hn] at hty; simp at hty
      · simp [SmlLexer.place] at hn
    rw [if_neg c9] at hn
    by_cases c10 : c = NUL
    · rw [if_pos c10] at hn
      simp only [SmlLexer.place, Except.ok.injEq] at hn; rw [← hn] at hty; simp at hty
    rw [if_neg c10] at hn
    by_cases c11 : (isalpha c || c == '_') = true
    · rw [if_pos c11] at hn
      simp only [SmlLexer.place, Except.ok.injEq] at hn; rw [← hn] at hty
      simp only at hty
      split_ifs at hty <;> simp at hty
    rw [if_neg c11, if_neg hd] at hn
    simp [SmlLexer.place] at hn

namespace SmlLexer

/-- C16: number tokens.  At a cursor on a digit, with `ds` the maximal run of digits at the
cursor and `after` the input behind it: if `after` starts with `.` and then a digit, `next`
returns a `Float` token whose text is `ds`, the `.` and the maximal run of digits after it;
otherwise it returns an `Int` token whose text is `ds` alone, and the cursor is left at `after`
(a `.` not followed by a digit is not consumed).  Every character of the text of an `Int` or
`Float` token is a digit or `.`, so no sign or exponent character is part of it. -/
theorem number_token (lx : SmlLexer) (hd : isdigit (lx.peek 0) = true) :
    (((lx.rest.dropWhile isdigit).getD 0 NUL = '.' ∧
        isdigit ((lx.rest.dropWhile isdigit).getD 1 NUL) = true) →
      lx.next = .ok (⟨.Float,
          lx.rest.takeWhile isdigit ++
            '.' :: ((lx.rest.dropWhile isdigit).drop 1).takeWhile isdigit,
          lx.spanStart,
          (advance ((lx.rest.takeWhile isdigit).length + 1 +
            (((lx.rest.dropWhile isdigit).drop 1).takeWhile isdigit).length) lx).spanStart⟩,
        advance ((lx.rest.takeWhile isdigit).length + 1 +
          (((lx.rest.dropWhile isdigit).drop 1).takeWhile isdigit).length) lx) ∧
      (advance ((lx.rest.takeWhile isdigit).length + 1 +
          (((lx.rest.dropWhile isdigit).drop 1).takeWhile isdigit).length) lx).rest =
        ((lx.rest.dropWhile isdigit).drop 1).dropWhile isdigit) ∧
    (¬ ((lx.rest.dropWhile isdigit).getD 0 NUL = '.' ∧
        isdigit ((lx.rest.dropWhile isdigit).getD 1 NUL) = true) →
      lx.next = .ok (⟨.Int, lx.rest.takeWhile isdigit, lx.spanStart,
          (advance (lx.rest.takeWhile isdigit).length lx).spanStart⟩,
        advance (lx.rest.takeWhile isdigit).length lx) ∧
      (advance (lx.rest.takeWhile isdigit).length lx).rest = lx.rest.dropWhile isdigit) ∧
    (lx.rest.takeWhile isdigit ≠ [] ∧
      lx.rest.takeWhile isdigit ++ lx.rest.dropWhile isdigit = lx.rest ∧
      (∀ c ∈ lx.rest.takeWhile isdigit, isdigit c = true) ∧
      isdigit ((lx.rest.dropWhile isdigit).getD 0 NUL) = false) ∧
    (∀ (lx0 : SmlLexer) (r : Token × SmlLexer), lx0.next = .ok r →
      r.1.type = .Int ∨ r.1.type = .Float →
      ∀ c ∈ r.1.text, (isdigit c = true ∨ c = '.') ∧
        c ≠ '+' ∧ c ≠ '-' ∧ c ≠ 'e' ∧ c ≠ 'E') := by
  have key : ∀ lx1 : SmlLexer, isdigit (lx1.peek 0) = true →
      lx1.next = lx1.place
        (if (lx1.rest.dropWhile isdigit).getD 0 NUL = '.' ∧
            isdigit ((lx1.rest.dropWhile isdigit).getD 1 NUL) = true then
          .ok (.Float,
            lx1.rest.takeWhile isdigit ++
              '.' :: ((lx1.rest.dropWhile isdigit).drop 1).takeWhile isdigit,
            (lx1.rest.takeWhile isdigit).length + 1 +
              (((lx1.rest.dropWhile isdigit).drop 1).takeWhile isdigit).length)
        else .ok (.Int, lx1.rest.takeWhile isdigit, (lx1.rest.takeWhile isdigit).length)) ∧
      lx1.rest.takeWhile isdigit ≠ [] := by
    intro lx1 h1
    obtain ⟨r, h⟩ := rest_cons_of_peek lx1 (isdigit_not_other h1).2.2.2.2.2.2.2.1
    refine ⟨?_, ?_⟩
    · rw [next_scan]
      conv => lhs; rw [h, scan_digit r h1, ← h]
    · rw [h, List.takeWhile_cons_of_pos h1]; simp
  have hall : ∀ l : List Char, ∀ c ∈ l.takeWhile isdigit, isdigit c = true :=
    fun l c hc => (List.mem_takeWhile_imp hc)
  refine ⟨fun hc => ?_, fun hc => ?_, ⟨(key lx hd).2, List.takeWhile_append_dropWhile _ _,
    hall _, ?_⟩, ?_⟩
  · rw [(key lx hd).1, if_pos hc]
    refine ⟨rfl, ?_⟩
    rw [advance_rest, Nat.add_assoc, ← List.drop_drop, drop_length_takeWhile,
      ← List.drop_drop, drop_length_takeWhile]
  · rw [(key lx hd).1, if_neg hc]
    exact ⟨rfl, by rw [advance_rest, drop_length_takeWhile]⟩
  · cases hdw : lx.rest.dropWhile isdigit with
    | nil => rfl
    | cons c r =>
      have := List.head_dropWhile_not isdigit lx.rest (by rw [hdw]; simp)
      simp only [hdw, List.head_cons] at this
      simpa using this
  · intro lx0 r hn hty c hc
    have h0 := number_at_digit hn hty
    have hk := (key lx0 h0).1
    rw [hn] at hk
    have hdig : isdigit c = true ∨ c = '.' := by
      split_ifs at hk <;> simp only [place, Except.ok.injEq] at hk <;> rw [hk] at hc <;>
        simp only [List.mem_append, List.mem_cons] at hc
      · rcases hc with hc | hc | hc
        · exact Or.inl (hall _ c hc)
        · exact Or.inr hc
        · exact Or.inl (hall _ c hc)
      · exact Or.inl (hall _ c hc)
    refine ⟨hdig, ?_, ?_, ?_, ?_⟩ <;>
      (intro e; rw [e] at hdig; revert hdig; decide)

/-- C16 at `12.5x` (a `Float`), at `12.x` (an `Int`, the `.` left unconsumed) and at `7`. -/
theorem number_token_witness :
    (mk0 "12.5x".toList).next =
      .ok (⟨.Float, "12.5".toList, ⟨0, 1, 1⟩, ⟨4, 1, 5⟩⟩, ⟨['x'], 4, 1, 5⟩) ∧
    (mk0 "12.x".toList).next =
      .ok (⟨.Int, "12".toList, ⟨0, 1, 1⟩, ⟨2, 1, 3⟩⟩, ⟨['.', 'x'], 2, 1, 3⟩) ∧
    (mk0 "7".toList).next = .ok (⟨.Int, ['7'], ⟨0, 1, 1⟩, ⟨1, 1, 2⟩⟩, ⟨[], 1, 1, 2⟩) :=
  ⟨((number_token (mk0 "12.5x".toList) (by decide)).1 (by decide)).1,
    ((number_token (mk0 "12.x".toList) (by decide)).2.1 (by decide)).1, rfl⟩

end SmlLexer

/-! ## Lexer states reached from the initial state -/

theorem Span.over_append (s : Span) (a b : List Char) : s.over (a ++ b) = (s.over a).over b := by
  simp [Span.over, List.foldl_append]

theorem Span.over_line_le (s : Span) (cs : List Char) : s.line ≤ (s.over cs).line := by
  induction cs generalizing s with
  | nil => exact Nat.le_refl _
  | cons c cs ih =>
    have h := ih (s.step c)
    have h2 : s.line ≤ (s.step c).line := by
      unfold Span.step; split <;> simp
    exact Nat.le_trans h2 h

theorem lineAfter_snoc (cs : List Char) (c : Char) :
    lineAfter (cs ++ [c]) = if c = '\n' then lineAfter cs + 1 else lineAfter cs := by
  unfold lineAfter
  by_cases h : c = '\n'
  · simp [h, List.count_append]; omega
  · simp [h, List.count_append, List.count_singleton, Ne.symm h]

theorem colAfter_snoc (cs : List Char) (c : Char) :
    colAfter (cs ++ [c]) = if c = '\n' then 1 else colAfter cs + 1 := by
  unfold colAfter
  by_cases h : c = '\n'
  · simp [h, List.takeWhile_cons]
  · simp [h, List.takeWhile_cons]; omega

/-- The position after the first characters `cs` of the input, in the words of the
specification. -/
theorem Span.over_initial (cs : List Char) :
    (Span.mk 0 1 1).over cs = ⟨cs.length, lineAfter cs, colAfter cs⟩ := by
  induction cs using List.reverseRecOn with
  | nil => rfl
  | append_singleton cs c ih =>
    rw [Span.over_append, ih, lineAfter_snoc, colAfter_snoc]
    simp only [Span.over, List.foldl_cons, List.foldl_nil, Span.step]
    split <;> simp

namespace SmlLexer

theorem mk0_over (input : List Char) : (mk0 input).Over input :=
  ⟨Nat.zero_le _, rfl⟩

theorem advance_over {lx : SmlLexer} {input : List Char} (h : lx.Over input) (k : Nat)
    (hk : k ≤ lx.rest.length) : (advance k lx).Over input ∧ (advance k lx).i_ = lx.i_ + k := by
  have hi : (advance k lx).i_ = lx.i_ + k := advance_index k lx hk
  have hl := over_length h
  refine ⟨⟨by rw [hi]; omega, ?_⟩, hi⟩
  rw [advance_rest, hi, h.2, List.drop_drop]

theorem next_over {lx : SmlLexer} {input : List Char} (h : lx.Over input)
    {r : Token × SmlLexer} (hn : lx.next = .ok r) : r.2.Over input := by
  obtain ⟨k, hk, e1, -⟩ := next_reads hn
  rw [e1]
  exact (advance_over h k hk).1

theorem run_advance {lx : SmlLexer} {ts : List Token} {lx' : SmlLexer} (h : Run lx ts lx') :
    ∃ k, k ≤ lx.rest.length ∧ lx' = advance k lx := by
  induction h with
  | nil lx => exact ⟨0, Nat.zero_le _, rfl⟩
  | cons hn _ ih =>
    obtain ⟨j, hj, e1, -⟩ := next_reads hn
    obtain ⟨k, hk, e2⟩ := ih
    simp only at e1 hj
    rw [e1, advance_rest, List.length_drop] at hk
    exact ⟨j + k, by omega, by rw [e2, e1, advance_advance]⟩

theorem run_over {lx : SmlLexer} {ts : List Token} {lx' : SmlLexer} (h : Run lx ts lx')
    {input : List Char} (ho : lx.Over input) : lx'.Over input := by
  obtain ⟨k, hk, e⟩ := run_advance h
  rw [e]
  exact (advance_over ho k hk).1

theorem run_append {lx lx1 lx2 : SmlLexer} {ts1 ts2 : List Token} (h1 : Run lx ts1 lx1)
    (h2 : Run lx1 ts2 lx2) : Run lx (ts1 ++ ts2) lx2 := by
  induction h1 with
  | nil lx => exact h2
  | cons hn _ ih => exact Run.cons hn (ih h2)

theorem run_fixed {lx : SmlLexer} {ts : List Token} {lx' : SmlLexer} (h : Run lx ts lx')
    {tok : Token} (hn : lx.next = .ok (tok, lx)) : lx' = lx ∧ ∀ t ∈ ts, t = tok := by
  induction h with
  | nil l => exact ⟨rfl, by simp⟩
  | cons hn1 _ ih =>
    rw [hn] at hn1
    simp only [Except.ok.injEq, Prod.mk.injEq] at hn1
    obtain ⟨e1, e2⟩ := hn1
    subst e1; subst e2
    obtain ⟨a, b⟩ := ih hn
    refine ⟨a, ?_⟩
    intro t ht
    rcases List.mem_cons.1 ht with e | e
    · exact e
    · exact b t e

/-- At the end of the input `next` returns `Eof` and stays. -/
theorem next_at_end {lx : SmlLexer} (h : lx.rest = []) :
    lx.next = .ok (⟨.Eof, [], lx.spanStart, lx.spanStart⟩, lx) := by
  rw [next, if_pos h]

/-! ## C14: the end of the input is absorbing -/

/-- C14: once the lexer, started on `input`, has its cursor at the end of the input, `next`
returns an `Eof` token with empty text whose start and end are the end-of-input position (index =
input length) and leaves the lexer state unchanged; so any number of further calls return that
same token and leave that same state. -/
theorem eof_absorbing (input : List Char) (ts0 : List Token) (lx : SmlLexer)
    (hreach : Run (mk0 input) ts0 lx) (hend : lx.rest = []) :
    lx.i_ = input.length ∧
    lx.next = .ok (⟨.Eof, [], ⟨input.length, lx.line_, lx.col_⟩,
      ⟨input.length, lx.line_, lx.col_⟩⟩, lx) ∧
    (∀ ts lx', Run lx ts lx' → lx' = lx ∧
      ∀ t ∈ ts, t = ⟨.Eof, [], ⟨input.length, lx.line_, lx.col_⟩,
        ⟨input.length, lx.line_, lx.col_⟩⟩) ∧
    (∀ n, Run lx (List.replicate n ⟨.Eof, [], ⟨input.length, lx.line_, lx.col_⟩,
        ⟨input.length, lx.line_, lx.col_⟩⟩) lx) := by
  have hov := run_over hreach (mk0_over input)
  have hi : lx.i_ = input.length := by
    have := over_length hov
    rw [hend] at this
    simpa using this
  have hn : lx.next = .ok (⟨.Eof, [], ⟨input.length, lx.line_, lx.col_⟩,
      ⟨input.length, lx.line_, lx.col_⟩⟩, lx) := by
    rw [next_at_end hend, spanStart, hi]
  refine ⟨hi, hn, ?_, ?_⟩
  · intro ts lx' hr
    exact run_fixed hr hn
  · intro n
    induction n with
    | zero => exact Run.nil lx
    | succ n ih => exact Run.cons hn ih

/-- C14 at the input `a`, after the one token `a` has been read. -/
theorem eof_absorbing_witness :
    (⟨[], 1, 1, 2⟩ : SmlLexer).i_ = ['a'].length ∧
    (⟨[], 1, 1, 2⟩ : SmlLexer).next = .ok (⟨.Eof, [], ⟨1, 1, 2⟩, ⟨1, 1, 2⟩⟩, ⟨[], 1, 1, 2⟩) ∧
    (∀ ts lx', Run ⟨[], 1, 1, 2⟩ ts lx' → lx' = ⟨[], 1, 1, 2⟩ ∧
      ∀ t ∈ ts, t = ⟨.Eof, [], ⟨1, 1, 2⟩, ⟨1, 1, 2⟩⟩) ∧
    (∀ n, Run ⟨[], 1, 1, 2⟩ (List.replicate n ⟨.Eof, [], ⟨1, 1, 2⟩, ⟨1, 1, 2⟩⟩) ⟨[], 1, 1, 2⟩) :=
  eof_absorbing ['a'] [⟨.Ident, ['a'], ⟨0, 1, 1⟩, ⟨1, 1, 2⟩⟩] ⟨[], 1, 1, 2⟩
    (Run.cons rfl (Run.nil _)) rfl

/-! ## C15: position bookkeeping -/

theorem advance_saturates (k : Nat) (lx : SmlLexer) :
    ∃ j, j ≤ lx.rest.length ∧ advance k lx = advance j lx := by
  by_cases h : k ≤ lx.rest.length
  · exact ⟨k, h, rfl⟩
  · refine ⟨lx.rest.length, Nat.le_refl _, ?_⟩
    have e : k = lx.rest.length + (k - lx.rest.length) := by omega
    rw [e, ← advance_advance]
    exact advance_of_nil (by rw [advance_rest]; simp) _

/-- The position carried by an exception of `next` is a cursor position: the cursor advanced by
the characters consumed before the throw. -/
theorem next_error_span {lx : SmlLexer} {e : SmlParseException} (h : lx.next = .error e) :
    ∃ j, j ≤ lx.rest.length ∧ e.span = (advance j lx).spanStart := by
  rw [next_scan] at h
  cases hs : scan lx.rest with
  | ok r => rw [hs] at h; simp [place] at h
  | error q =>
    rw [hs] at h
    simp only [place, Except.error.injEq] at h
    obtain ⟨j, hj, ej⟩ := advance_saturates q.2 lx
    exact ⟨j, hj, by rw [← h, ej]⟩

/-- The position of the cursor `j` characters after a state reached from the initial state. -/
theorem reached_position {input : List Char} {ts : List Token} {lx : SmlLexer}
    (hreach : Run (mk0 input) ts lx) (j : Nat) (hj : j ≤ lx.rest.length) :
    lx.i_ + j ≤ input.length ∧ lx.rest = input.drop lx.i_ ∧
      (advance j lx).spanStart =
        ⟨lx.i_ + j, lineAfter (input.take (lx.i_ + j)), colAfter (input.take (lx.i_ + j))⟩ := by
  obtain ⟨k, hk, e⟩ := run_advance hreach
  have hov := run_over hreach (mk0_over input)
  have hl := over_length hov
  have hr0 : (mk0 input).rest = input := rfl
  rw [hr0] at hk
  have hi : lx.i_ = k := by
    have := advance_index k (mk0 input) hk
    rw [← e] at this
    simpa [spanStart, mk0] using this
  have hs := advance_span (k + j) (mk0 input)
  rw [← advance_advance, ← e] at hs
  have h0 : (mk0 input).spanStart = ⟨0, 1, 1⟩ := rfl
  rw [h0, hr0, Span.over_initial, List.length_take, Nat.min_eq_left (by omega)] at hs
  rw [hi]
  exact ⟨by omega, by rw [← hi]; exact hov.2, hs⟩

/-- C15: in every lexer state reached from the initial state on `input` by calls of `next`, with
`k` the number of input characters consumed so far, the index is `k`, the line is one more than
the number of newlines among the first `k` characters, and the column is one more than the number
of characters consumed after the last of these newlines (`k + 1` when there is none).  A call of
`next` never decreases the index or the line, and when it throws, the cursor position the
exception carries obeys the same bookkeeping. -/
theorem position_bookkeeping (input : List Char) (ts : List Token) (lx : SmlLexer)
    (hreach : Run (mk0 input) ts lx) :
    (∃ k, k ≤ input.length ∧ lx.rest = input.drop k ∧ lx.i_ = k ∧
      lx.line_ = lineAfter (input.take k) ∧ lx.col_ = colAfter (input.take k) ∧
      ('\n' ∉ input.take k → lx.col_ = k + 1)) ∧
    (∀ r, lx.next = .ok r → lx.i_ ≤ r.2.i_ ∧ lx.line_ ≤ r.2.line_) ∧
    (∀ e, lx.next = .error e → ∃ k, lx.i_ ≤ k ∧ k ≤ input.length ∧
      e.span = ⟨k, lineAfter (input.take k), colAfter (input.take k)⟩) := by
  refine ⟨?_, ?_, ?_⟩
  · obtain ⟨h1, h2, h3⟩ := reached_position hreach 0 (Nat.zero_le _)
    simp only [Nat.add_zero, advance, spanStart, Span.mk.injEq, true_and] at h1 h3
    refine ⟨lx.i_, h1, h2, rfl, h3.1, h3.2, fun hnl => ?_⟩
    rw [h3.2]
    unfold colAfter
    have : (input.take lx.i_).reverse.takeWhile (fun c => c != '\n') =
        (input.take lx.i_).reverse := by
      rw [List.takeWhile_eq_self_iff]
      intro c hc
      have hc' : c ∈ input.take lx.i_ := List.mem_reverse.1 hc
      simp only [bne_iff_ne, ne_eq]
      intro e; exact hnl (e ▸ hc')
    rw [this, List.length_reverse, List.length_take, Nat.min_eq_left h1, Nat.add_comm]
  · intro r hn
    obtain ⟨k, hk, e1, -⟩ := next_reads hn
    have hs := advance_span k lx
    rw [← e1] at hs
    have hi := congrArg Span.index hs
    rw [Span.over_index] at hi
    have hl := Span.over_line_le lx.spanStart (lx.rest.take k)
    rw [← hs] at hl
    exact ⟨by simp only [spanStart] at hi; omega, hl⟩
  · intro e he
    obtain ⟨j, hj, ej⟩ := next_error_span he
    obtain ⟨h1, -, h3⟩ := reached_position hreach j hj
    exact ⟨lx.i_ + j, Nat.le_add_right _ _, h1, by rw [ej, h3]⟩

/-- C15 at the input `a`, newline, `bc`, after the tokens `a` and the newline: two characters
consumed, index 2, line 2, column 1; and at the unterminated string `"a`, newline, `b`, where the
exception carries index 4, line 2, column 2. -/
theorem position_bookkeeping_witness :
    (∃ k, k ≤ ['a', '\n', 'b', 'c'].length ∧
      (⟨['b', 'c'], 2, 2, 1⟩ : SmlLexer).rest = ['a', '\n', 'b', 'c'].drop k ∧
      (⟨['b', 'c'], 2, 2, 1⟩ : SmlLexer).i_ = k ∧
      (⟨['b', 'c'], 2, 2, 1⟩ : SmlLexer).line_ = lineAfter (['a', '\n', 'b', 'c'].take k) ∧
      (⟨['b', 'c'], 2, 2, 1⟩ : SmlLexer).col_ = colAfter (['a', '\n', 'b', 'c'].take k) ∧
      ('\n' ∉ ['a', '\n', 'b', 'c'].take k → (⟨['b', 'c'], 2, 2, 1⟩ : SmlLexer).col_ = k + 1)) ∧
    (∀ r, (⟨['b', 'c'], 2, 2, 1⟩ : SmlLexer).next = .ok r →
      (⟨['b', 'c'], 2, 2, 1⟩ : SmlLexer).i_ ≤ r.2.i_ ∧
      (⟨['b', 'c'], 2, 2, 1⟩ : SmlLexer).line_ ≤ r.2.line_) ∧
    (mk0 ['"', 'a', '\n', 'b']).next =
      .error ⟨"Unterminated string literal".toList, ⟨4, 2, 2⟩⟩ ∧
    lineAfter ['"', 'a', '\n', 'b'] = 2 ∧ colAfter ['"', 'a', '\n', 'b'] = 2 :=
  ⟨(position_bookkeeping ['a', '\n', 'b', 'c']
      [⟨.Ident, ['a'], ⟨0, 1, 1⟩, ⟨1, 1, 2⟩⟩, ⟨.Ws, ['\n'], ⟨1, 1, 2⟩, ⟨2, 2, 1⟩⟩]
      ⟨['b', 'c'], 2, 2, 1⟩ (Run.cons rfl (Run.cons rfl (Run.nil _)))).1,
    (position_bookkeeping ['a', '\n', 'b', 'c']
      [⟨.Ident, ['a'], ⟨0, 1, 1⟩, ⟨1, 1, 2⟩⟩, ⟨.Ws, ['\n'], ⟨1, 1, 2⟩, ⟨2, 2, 1⟩⟩]
      ⟨['b', 'c'], 2, 2, 1⟩ (Run.cons rfl (Run.cons rfl (Run.nil _)))).2.1,
    rfl, by decide, by decide⟩

/-! ## C19: token spans -/

theorem run_chain {lx : SmlLexer} {ts : List Token} {lx' : SmlLexer} (h : Run lx ts lx') :
    List.Chain (fun a b => b.start = a.stop) ⟨.Eof, [], lx.spanStart, lx.spanStart⟩ ts ∧
      (∀ t ∈ ts.getLast?, t.stop = lx'.spanStart) ∧ (ts = [] → lx' = lx) := by
  induction h with
  | nil l => exact ⟨List.Chain.nil, by simp, fun _ => rfl⟩
  | cons hn hr ih =>
    obtain ⟨k, hk, e1, e2, e3, e4, e5⟩ := next_reads hn
    simp only at e3 e4
    obtain ⟨c, l, n⟩ := ih
    refine ⟨List.Chain.cons e3 ?_, ?_, by simp⟩
    · rw [← e4] at c
      cases c with
      | nil => exact List.Chain.nil
      | cons a b => exact List.Chain.cons a b
    · intro t ht
      rename_i t0 lx1 ts0 lx2
      cases ts0 with
      | nil =>
        simp only [List.getLast?_singleton, Option.mem_def, Option.some.injEq] at ht
        rw [← ht, e4, n rfl]
      | cons a as =>
        rw [List.getLast?_cons_cons] at ht
        exact l t ht

/-- The slice of the input a token was read from. -/
theorem next_slice {lx : SmlLexer} {input : List Char} (ho : lx.Over input)
    {r : Token × SmlLexer} (hn : lx.next = .ok r) :
    (input.drop r.1.start.index).take (r.1.stop.index - r.1.start.index) = r.1.source ∧
      r.1.start.index + r.1.source.length = r.1.stop.index := by
  obtain ⟨k, hk, e1, e2, e3, e4, -⟩ := next_reads hn
  have hi := advance_index k lx hk
  rw [← e1, ← e4] at hi
  have h3 : r.1.start.index = lx.i_ := by rw [e3]; rfl
  rw [e2, h3, hi, ← ho.2, List.length_take, Nat.min_eq_left hk, Nat.add_sub_cancel_left]
  exact ⟨rfl, rfl⟩

/-- C19: token spans describe the consumed slice.  The start of every token `next` returns is
the cursor position before the call and its end the cursor position after it; the first token
of an input starts at index 0, line 1, column 1, and each later token starts where the previous
one ended.  For a lexer on `input`, the slice of the input from the start index to the end index
of the token is its text, and for a `String` token it is the quote, the text and the quote, so
that the end index is the start index plus the length of the text plus 2. -/
theorem token_spans (input : List Char) :
    (∀ (lx : SmlLexer) (r : Token × SmlLexer), lx.next = .ok r →
      r.1.start = lx.spanStart ∧ r.1.stop = r.2.spanStart) ∧
    (∀ r, (mk0 input).next = .ok r → r.1.start = ⟨0, 1, 1⟩) ∧
    (∀ (lx : SmlLexer) (r1 r2 : Token × SmlLexer), lx.next = .ok r1 → r1.2.next = .ok r2 →
      r2.1.start = r1.1.stop) ∧
    (∀ ts lx, Run (mk0 input) ts lx →
      List.Chain (fun a b => b.start = a.stop) ⟨.Eof, [], ⟨0, 1, 1⟩, ⟨0, 1, 1⟩⟩ ts) ∧
    (∀ (lx : SmlLexer) (r : Token × SmlLexer), lx.Over input → lx.next = .ok r →
      r.2.Over input ∧
      (r.1.type ≠ .String →
        (input.drop r.1.start.index).take (r.1.stop.index - r.1.start.index) = r.1.text) ∧
      (r.1.type = .String →
        (input.drop r.1.start.index).take (r.1.stop.index - r.1.start.index) =
          '"' :: (r.1.text ++ ['"']) ∧
        r.1.stop.index - r.1.start.index = r.1.text.length + 2)) ∧
    (∀ ts lx, Run (mk0 input) ts lx → lx.Over input) := by
  refine ⟨fun lx r hn => ?_, fun r hn => ?_, fun lx r1 r2 h1 h2 => ?_, fun ts lx hr => ?_,
    fun lx r ho hn => ?_, fun ts lx hr => run_over hr (mk0_over input)⟩
  · obtain ⟨k, hk, e1, e2, e3, e4, -⟩ := next_reads hn
    exact ⟨e3, e4⟩
  · obtain ⟨k, hk, e1, e2, e3, e4, -⟩ := next_reads hn
    rw [e3]; rfl
  · obtain ⟨k, hk, e1, e2, e3, e4, -⟩ := next_reads h1
    obtain ⟨k', hk', e1', e2', e3', e4', -⟩ := next_reads h2
    rw [e3', e4]
  · exact (run_chain hr).1
  · obtain ⟨a, b⟩ := next_slice ho hn
    refine ⟨next_over ho hn, fun hty => ?_, fun hty => ?_⟩
    · rw [a]; simp [Token.source, hty]
    · have hs : r.1.source = '"' :: (r.1.text ++ ['"']) := by simp [Token.source, hty]
      rw [a, hs]
      refine ⟨rfl, ?_⟩
      rw [hs] at b
      simp only [List.length_cons, List.length_append, List.length_nil] at b
      omega

/-- C19 at the input `a "hi"`: the string token spans the indices 2 to 6, four more than
its two characters of text. -/
theorem token_spans_witness :
    (⟨"\"hi\"".toList, 2, 1, 3⟩ : SmlLexer).next =
      .ok (⟨.String, ['h', 'i'], ⟨2, 1, 3⟩, ⟨6, 1, 7⟩⟩, ⟨[], 6, 1, 7⟩) ∧
    (⟨[], 6, 1, 7⟩ : SmlLexer).Over "a \"hi\"".toList ∧
    ("a \"hi\"".toList.drop 2).take (6 - 2) = '"' :: (['h', 'i'] ++ ['"']) ∧
    6 - 2 = ['h', 'i'].length + 2 :=
  ⟨rfl,
    ((token_spans "a \"hi\"".toList).2.2.2.2.1 ⟨"\"hi\"".toList, 2, 1, 3⟩
      (⟨.String, ['h', 'i'], ⟨2, 1, 3⟩, ⟨6, 1, 7⟩⟩, ⟨[], 6, 1, 7⟩) ⟨by decide, rfl⟩ rfl).1,
    (((token_spans "a \"hi\"".toList).2.2.2.2.1 ⟨"\"hi\"".toList, 2, 1, 3⟩
      (⟨.String, ['h', 'i'], ⟨2, 1, 3⟩, ⟨6, 1, 7⟩⟩, ⟨[], 6, 1, 7⟩) ⟨by decide, rfl⟩ rfl).2.2
      rfl).1,
    rfl⟩

end SmlLexer

/-! ## The lexer on a prefix of the input

A token that ends at or before a `/` is the token `next` returns when the input ends there. -/

theorem takeWhile_append_stop (p : Char → Bool) (r : List Char) {c : Char} (s : List Char)
    (hc : p c = false) :
    (r ++ c :: s).takeWhile p = r.takeWhile p ∧
      (r ++ c :: s).dropWhile p = r.dropWhile p ++ c :: s := by
  induction r with
  | nil => simp [List.takeWhile_cons, List.dropWhile_cons, hc]
  | cons d r ih =>
    by_cases hd : p d = true
    · simp [List.takeWhile_cons, List.dropWhile_cons, hd, ih.1, ih.2]
    · simp [List.takeWhile_cons, List.dropWhile_cons, hd]

theorem takeWhile_append_short (p : Char → Bool) (r : List Char) {c : Char} (s : List Char)
    (hc : p c = true) (hlen : ((r ++ c :: s).takeWhile p).length ≤ r.length) :
    (r ++ c :: s).takeWhile p = r.takeWhile p := by
  induction r with
  | nil => simp [List.takeWhile_cons, hc] at hlen
  | cons d r ih =>
    by_cases hd : p d = true
    · simp only [List.cons_append, List.takeWhile_cons_of_pos hd, List.length_cons,
        Nat.add_le_add_iff_right] at hlen ⊢
      rw [ih hlen]
    · simp [List.takeWhile_cons, hd]

theorem scanBlock_prefix (r s : List Char)
    (hlen : (scanBlock (r ++ '/' :: s)).length ≤ r.length) :
    scanBlock (r ++ '/' :: s) = scanBlock r := by
  induction r with
  | nil =>
    rw [List.nil_append, scanBlock, if_neg (by decide), if_neg (fun h => absurd h.1 (by decide))]
      at hlen
    simp at hlen
  | cons c r ih =>
    rw [List.cons_append, scanBlock] at hlen ⊢
    rw [scanBlock]
    by_cases c1 : c = NUL
    · rw [if_pos c1, if_pos c1]
    rw [if_neg c1] at hlen ⊢
    rw [if_neg c1]
    by_cases c2 : c = '*' ∧ (r ++ '/' :: s).headD NUL = '/'
    · rw [if_pos c2] at hlen ⊢
      cases r with
      | nil => simp at hlen
      | cons d r => rw [if_pos (by simpa using c2)]
    · rw [if_neg c2] at hlen ⊢
      have c3 : ¬ (c = '*' ∧ r.headD NUL = '/') := by
        intro h
        apply c2
        refine ⟨h.1, ?_⟩
        cases r with
        | nil => rfl
        | cons d r => simpa using h.2
      rw [if_neg c3]
      simp only [List.length_cons, Nat.add_le_add_iff_right] at hlen
      rw [ih hlen]

theorem scanBlock_of_no_close (b : List Char) (h : ¬ ['*', '/'] <:+: b) :
    scanBlock b = b.takeWhile fun x => x != NUL := by
  induction b with
  | nil => rfl
  | cons c r ih =>
    rw [scanBlock]
    by_cases c1 : c = NUL
    · simp [c1]
    rw [if_neg c1]
    by_cases c2 : c = '*' ∧ r.headD NUL = '/'
    · exfalso
      apply h
      cases r with
      | nil => simp [NUL] at c2
      | cons d r =>
        simp only [List.headD_cons] at c2
        rw [c2.1, c2.2]
        exact (List.prefix_append ['*', '/'] r).isInfix
    · rw [if_neg c2, ih (fun hi => h (hi.trans (List.suffix_cons c r).isInfix))]
      simp [List.takeWhile_cons, c1]

theorem scan_block_start (b : List Char) :
    scan ('/' :: '*' :: b) =
      .ok (.BlockComment, '/' :: '*' :: scanBlock b, (scanBlock b).length + 2) := by
  rw [scan, if_neg (by decide), if_neg (by simp), if_pos (by simp)]
  rfl

namespace SmlLexer

/-- At a NUL `next` returns `Eof` and stays. -/
theorem next_at_nul {lx : SmlLexer} (h : lx.rest = [] ∨ lx.peek 0 = NUL) :
    lx.next = .ok (⟨.Eof, [], lx.spanStart, lx.spanStart⟩, lx) := by
  by_cases hr : lx.rest = []
  · exact next_at_end hr
  · have hp : lx.peek 0 = NUL := h.resolve_left hr
    rw [next, if_neg hr, hp, if_neg (by decide), if_neg (fun x => absurd x.1 (by decide)),
      if_neg (fun x => absurd x.1 (by decide)), if_neg (by decide), if_neg (by decide),
      if_neg (by decide), if_neg (by decide), if_neg (by decide), if_pos rfl]

theorem dropWhile_ne_nul (b : List Char) :
    b.dropWhile (fun x => x != NUL) = [] ∨ (b.dropWhile fun x => x != NUL).getD 0 NUL = NUL := by
  cases h : b.dropWhile (fun x => x != NUL) with
  | nil => exact Or.inl rfl
  | cons c r =>
    right
    have := List.head_dropWhile_not (fun x => x != NUL) b (by rw [h]; simp)
    simp only [h, List.head_cons] at this
    simpa using this

/-- The token `next` returns at an unterminated block comment, and the state it leaves. -/
theorem next_block_open {lx : SmlLexer} {b : List Char} (hrest : lx.rest = '/' :: '*' :: b)
    (hopen : ¬ ['*', '/'] <:+: b) :
    lx.next = .ok (⟨.BlockComment, '/' :: '*' :: b.takeWhile (fun x => x != NUL), lx.spanStart,
        (advance ((b.takeWhile fun x => x != NUL).length + 2) lx).spanStart⟩,
      advance ((b.takeWhile fun x => x != NUL).length + 2) lx) ∧
    (advance ((b.takeWhile fun x => x != NUL).length + 2) lx).rest =
      b.dropWhile (fun x => x != NUL) := by
  rw [next_scan, hrest, scan_block_start, scanBlock_of_no_close b hopen]
  refine ⟨rfl, ?_⟩
  rw [advance_rest, hrest, ← drop_length_takeWhile]
  rfl

end SmlLexer

theorem number_prefix (r s : List Char) :
    (if ((r ++ '/' :: s).dropWhile isdigit).getD 0 NUL = '.' ∧
        isdigit (((r ++ '/' :: s).dropWhile isdigit).getD 1 NUL) = true then
      (Except.ok (.Float,
        (r ++ '/' :: s).takeWhile isdigit ++
          '.' :: (((r ++ '/' :: s).dropWhile isdigit).drop 1).takeWhile isdigit,
        ((r ++ '/' :: s).takeWhile isdigit).length + 1 +
          ((((r ++ '/' :: s).dropWhile isdigit).drop 1).takeWhile isdigit).length) :
        Except (List Char × Nat) (TokenType × List Char × Nat))
    else .ok (.Int, (r ++ '/' :: s).takeWhile isdigit, ((r ++ '/' :: s).takeWhile isdigit).length)) =
    (if (r.dropWhile isdigit).getD 0 NUL = '.' ∧
        isdigit ((r.dropWhile isdigit).getD 1 NUL) = true then
      .ok (.Float,
        r.takeWhile isdigit ++ '.' :: ((r.dropWhile isdigit).drop 1).takeWhile isdigit,
        (r.takeWhile isdigit).length + 1 +
          (((r.dropWhile isdigit).drop 1).takeWhile isdigit).length)
    else .ok (.Int, r.takeWhile isdigit, (r.takeWhile isdigit).length)) := by
  obtain ⟨e1, e2⟩ := takeWhile_append_stop isdigit r s (show isdigit '/' = false by decide)
  rw [e1, e2]
  cases ha : r.dropWhile isdigit with
  | nil =>
    rw [if_neg (fun h => absurd h.1 (by simp)), if_neg (fun h => absurd h.1 (by simp [NUL]))]
  | cons x a =>
    cases a with
    | nil =>
      rw [if_neg (fun h => absurd h.2 (by simp; decide)),
        if_neg (fun h => absurd h.2 (by simp; decide))]
    | cons y a =>
      have e3 := (takeWhile_append_stop isdigit (y :: a) s (show isdigit '/' = false by decide)).1
      simp only [List.cons_append, List.getD_cons_zero, List.getD_cons_succ, List.drop_succ_cons,
        List.drop_zero] at e3 ⊢
      rw [e3]

theorem scan_prefix (r s : List Char) {ty : TokenType} {text : List Char} {k : Nat}
    (h : scan (r ++ '/' :: s) = .ok (ty, text, k)) (hk : k ≤ r.length) :
    scan r = .ok (ty, text, k) := by
  cases r with
  | nil =>
    exfalso
    rw [List.nil_append, scan, if_neg (by decide)] at h
    by_cases c3 : '/' = '/' ∧ s.headD NUL = '/'
    · rw [if_pos c3, List.takeWhile_cons_of_pos (by decide)] at h
      simp only [Except.ok.injEq, Prod.mk.injEq, List.length_cons] at h
      have := h.2.2
      simp at hk
      omega
    rw [if_neg c3] at h
    by_cases c4 : '/' = '/' ∧ s.headD NUL = '*'
    · rw [if_pos c4] at h
      simp only [Except.ok.injEq, Prod.mk.injEq] at h
      have := h.2.2
      simp at hk
      omega
    rw [if_neg c4, if_neg (by decide), if_neg (by decide), if_neg (by decide),
      if_neg (by decide), if_neg (by decide), if_neg (by decide), if_neg (by decide),
      if_neg (by decide)] at h
    simp at h
  | cons c r =>
    have hh : r ≠ [] → (r ++ '/' :: s).headD NUL = r.headD NUL := by
      intro hne
      cases r with
      | nil => exact absurd rfl hne
      | cons d r => rfl
    rw [List.cons_append, scan] at h
    rw [scan]
    by_cases c2 : isspace c = true
    · rw [if_pos c2] at h ⊢
      have e := (takeWhile_append_stop isspace (c :: r) s (show isspace '/' = false by decide)).1
      rw [List.cons_append] at e
      rw [e] at h
      exact h
    rw [if_neg c2] at h ⊢
    by_cases c3 : c = '/' ∧ (r ++ '/' :: s).headD NUL = '/'
    · rw [if_pos c3] at h
      simp only [Except.ok.injEq, Prod.mk.injEq] at h
      obtain ⟨h1, h2, h3⟩ := h
      have e := takeWhile_append_short (fun x => x != NUL && x != '\n') (c :: r) s
        (show (fun x => x != NUL && x != '\n') '/' = true by decide)
        (by rw [List.cons_append, h3]; exact hk)
      rw [List.cons_append] at e
      have hne : r ≠ [] := by
        intro hr
        subst hr
        rw [c3.1] at e
        simp [List.takeWhile_cons, NUL] at e
      subst h1; subst h2; subst h3
      rw [if_pos ⟨c3.1, by rw [← hh hne]; exact c3.2⟩, e]
    rw [if_neg c3] at h
    have c3' : ¬ (c = '/' ∧ r.headD NUL = '/') := by
      intro x
      apply c3
      refine ⟨x.1, ?_⟩
      cases r with
      | nil => rfl
      | cons d r => exact x.2
    rw [if_neg c3']
    by_cases c4 : c = '/' ∧ (r ++ '/' :: s).headD NUL = '*'
    · rw [if_pos c4] at h
      simp only [Except.ok.injEq, Prod.mk.injEq] at h
      obtain ⟨h1, h2, h3⟩ := h
      cases r with
      | nil => simp at c4
      | cons d r =>
        simp only [List.cons_append, List.tail_cons, List.headD_cons, List.length_cons] at *
        have e := scanBlock_prefix r s (by omega)
        subst h1; subst h2; subst h3
        rw [if_pos c4, e]
    rw [if_neg c4] at h
    have c4' : ¬ (c = '/' ∧ r.headD NUL = '*') := by
      intro x
      apply c4
      refine ⟨x.1, ?_⟩
      cases r with
      | nil => simp [NUL] at x
      | cons d r => exact x.2
    rw [if_neg c4']
    by_cases c5 : c = '{'
    · rw [if_pos c5] at h ⊢; exact h
    rw [if_neg c5] at h ⊢
    by_cases c6 : c = '}'
    · rw [if_pos c6] at h ⊢; exact h
    rw [if_neg c6] at h ⊢
    by_cases c7 : c = ':'
    · rw [if_pos c7] at h ⊢; exact h
    rw [if_neg c7] at h ⊢
    by_cases c8 : c = ','
    · rw [if_pos c8] at h ⊢; exact h
    rw [if_neg c8] at h ⊢
    by_cases c9 : c = '"'
    · rw [if_pos c9] at h ⊢
      by_cases cq : (r ++ '/' :: s).getD
          ((r ++ '/' :: s).takeWhile fun x => x != NUL && x != '"').length NUL = '"'
      · rw [if_pos cq] at h
        simp only [Except.ok.injEq, Prod.mk.injEq] at h
        obtain ⟨h1, h2, h3⟩ := h
        simp only [List.length_cons] at hk
        have e := takeWhile_append_short (fun x => x != NUL && x != '"') r s
          (show (fun x => x != NUL && x != '"') '/' = true by decide) (by omega)
        rw [e] at cq h2 h3
        rw [List.getD_append _ _ _ _ (by omega)] at cq
        subst h1; subst h2; subst h3
        rw [if_pos cq]
      · rw [if_neg cq] at h
        simp at h
    rw [if_neg c9] at h ⊢
    by_cases c10 : c = NUL
    · rw [if_pos c10] at h ⊢; exact h
    rw [if_neg c10] at h ⊢
    by_cases c11 : (isalpha c || c == '_') = true
    · rw [if_pos c11] at h ⊢
      have e := (takeWhile_append_stop (fun x => isalnum x || x == '_') r s
        (show (fun x => isalnum x || x == '_') '/' = false by decide)).1
      rw [e] at h
      exact h
    rw [if_neg c11] at h ⊢
    by_cases c12 : isdigit c = true
    · rw [if_pos c12] at h ⊢
      have e := number_prefix (c :: r) s
      rw [List.cons_append] at e
      rw [e] at h
      exact h
    rw [if_neg c12] at h
    simp at h

namespace SmlLexer

theorem advance_prefix (k : Nat) (r s : List Char) (i l c : Nat) (hk : k ≤ r.length) :
    advance k ⟨r, i, l, c⟩ =
      ⟨r.drop k, (advance k ⟨r ++ s, i, l, c⟩).i_, (advance k ⟨r ++ s, i, l, c⟩).line_,
        (advance k ⟨r ++ s, i, l, c⟩).col_⟩ ∧
    (advance k ⟨r ++ s, i, l, c⟩).rest = r.drop k ++ s := by
  induction k generalizing r i l c with
  | zero => exact ⟨rfl, rfl⟩
  | succ k ih =>
    cases r with
    | nil => simp at hk
    | cons d r =>
      simp only [List.length_cons, Nat.add_le_add_iff_right] at hk
      rw [advance, advance]
      by_cases hd : d = '\n'
      · simp only [advance1, List.cons_append, hd, if_true, List.drop_succ_cons]
        exact ih r _ _ _ hk
      · simp only [advance1, List.cons_append, hd, if_false, List.drop_succ_cons]
        exact ih r _ _ _ hk

/-- A token read from the part of the input before a `/` is the token `next` returns when the
input ends at that `/`. -/
theorem next_prefix {r s : List Char} {i l c : Nat} {t : Token} {lx' : SmlLexer}
    (hn : (⟨r ++ '/' :: s, i, l, c⟩ : SmlLexer).next = .ok (t, lx'))
    (hlen : ('/' :: s).length ≤ lx'.rest.length) :
    ∃ r', lx'.rest = r' ++ '/' :: s ∧
      (⟨r, i, l, c⟩ : SmlLexer).next = .ok (t, ⟨r', lx'.i_, lx'.line_, lx'.col_⟩) := by
  have hs := next_scan ⟨r ++ '/' :: s, i, l, c⟩
  rw [hn] at hs
  cases hsc : scan (r ++ '/' :: s) with
  | error e => simp [hsc, place] at hs
  | ok q =>
    obtain ⟨ty, text, k⟩ := q
    simp only [hsc, place, Except.ok.injEq, Prod.mk.injEq] at hs
    obtain ⟨e1, e2⟩ := hs
    have hk : k ≤ r.length := by
      have := congrArg (fun x : SmlLexer => x.rest.length) e2
      simp only [advance_rest, List.length_drop, List.length_append, List.length_cons] at this hlen
      omega
    obtain ⟨a1, a2⟩ := advance_prefix k r ('/' :: s) i l c hk
    refine ⟨r.drop k, by rw [e2, a2], ?_⟩
    rw [next_scan, scan_prefix r s hsc hk]
    simp only [place, a1, e1, e2, spanStart]

end SmlLexer

/-! ## C13: an unterminated block comment -/

namespace SmlLexer

theorem run_prefix {lx : SmlLexer} {ts : List Token} {lx' : SmlLexer} (h : Run lx ts lx') :
    ∀ (r r' s : List Char), lx.rest = r ++ '/' :: s → lx'.rest = r' ++ '/' :: s →
      Run ⟨r, lx.i_, lx.line_, lx.col_⟩ ts ⟨r', lx'.i_, lx'.line_, lx'.col_⟩ := by
  induction h with
  | nil l =>
    intro r r' s h1 h2
    rw [h1] at h2
    rw [List.append_cancel_right h2]
    exact Run.nil _
  | cons hn hr ih =>
    intro r r' s h1 h2
    rename_i l0 t l1 ts0 l2
    obtain ⟨k, hk, e⟩ := run_advance hr
    have hlen : ('/' :: s).length ≤ l1.rest.length := by
      have := congrArg (fun x : SmlLexer => x.rest.length) e
      simp only [advance_rest, List.length_drop, h2, List.length_append] at this
      omega
    have hn' : (⟨r ++ '/' :: s, l0.i_, l0.line_, l0.col_⟩ : SmlLexer).next = .ok (t, l1) := by
      rw [← h1]; exact hn
    obtain ⟨r1, a1, a2⟩ := next_prefix hn' hlen
    exact Run.cons a2 (ih r1 r' s a1 h2)

theorem run_no_eof {lx : SmlLexer} {ts : List Token} {lx' : SmlLexer} (h : Run lx ts lx')
    (hat : lx'.peek 0 = '/') : ∀ t ∈ ts, t.type ≠ .Eof := by
  induction h with
  | nil l => simp
  | cons hn hr ih =>
    rename_i l0 t l1 ts0 l2
    intro x hx
    rcases List.mem_cons.1 hx with e | e
    · intro hty
      rw [e] at hty
      obtain ⟨e1, e2, e3⟩ := next_eof hn hty
      simp only at e1
      rw [e1] at hn hr
      have := (run_fixed hr hn).1
      rw [this] at hat
      rcases e3 with e3 | e3
      · rw [peek_nil e3] at hat; exact absurd hat (by decide)
      · rw [e3] at hat; exact absurd hat (by decide)
    · exact ih hat x e

theorem tokens_of_run {lx : SmlLexer} {ts : List Token} {lx' : SmlLexer} (h : Run lx ts lx')
    (hne : ∀ t ∈ ts, t.type ≠ .Eof) {ts' : List Token} {eof : Token}
    (ht : lx'.tokens = some (ts', eof)) : lx.tokens = some (ts ++ ts', eof) := by
  induction h with
  | nil l => exact ht
  | cons hn hr ih =>
    rw [tokens_unfold, hn]
    simp only
    rw [if_neg (hne _ (List.mem_cons_self _ _)),
      ih (fun t hx => hne t (List.mem_cons_of_mem _ hx)) ht]
    rfl

theorem tokens_at_end {lx : SmlLexer} (h : lx.rest = [] ∨ lx.peek 0 = NUL) :
    lx.tokens = some ([], ⟨.Eof, [], lx.spanStart, lx.spanStart⟩) := by
  rw [tokens_unfold, next_at_nul h]
  rfl

end SmlLexer

/-- The events and the verdict of a run depend on the kinds and texts of the significant tokens
only. -/
theorem parseText_same {enums : EnumMap} {input1 input2 : List Char} {all1 all2 : List Token}
    {eof1 eof2 : Token} (h1 : tokenize input1 = some (all1, eof1))
    (h2 : tokenize input2 = some (all2, eof2))
    (hsame : (sig all1).map Token.lexeme = (sig all2).map Token.lexeme) :
    (parseText enums input1).events = (parseText enums input2).events ∧
      (parseText enums input1).verdict = (parseText enums input2).verdict := by
  obtain ⟨a1, b1, -⟩ := parseText_erased enums h1
  obtain ⟨a2, b2, -⟩ := parseText_erased enums h2
  have he := erase_of_lexeme hsame
  have hlen : (sig all1).length = (sig all2).length := by
    have := congrArg List.length hsame
    simpa using this
  have heof : eof1.erase = eof2.erase := by
    obtain ⟨k1, -, -, e1, -⟩ := eof_position h1
    obtain ⟨k2, -, -, e2, -⟩ := eof_position h2
    rw [e1, e2]; rfl
  rw [he, hlen, heof] at a1 b1
  exact ⟨by rw [a1, a2], by rw [b1, b2]⟩

theorem verdict_eq {o1 o2 : Outcome} (h : o1.verdict = o2.verdict) :
    o1.returnsNormally = o2.returnsNormally ∧
      o1.exception.map (fun e => e.message) = o2.exception.map (fun e => e.message) := by
  cases o1 <;> cases o2 <;>
    simp [Outcome.verdict, Outcome.returnsNormally, Outcome.exception] at h ⊢
  exact h

namespace SmlLexer

/-- C13 (as amended): an unterminated block comment.  At a cursor on `/*` followed by `b`, where
`b` contains no `*/`: `next` raises no error and returns a single `BlockComment` token whose text
is `/*` and `b` up to its first NUL character, the whole remainder of the input when `b`
contains no NUL, and then the cursor is at the end of the input; the following call returns
`Eof`.  When the lexer has reached that cursor on the input `pre` followed by the comment, the
parse of the input emits the same handler events as the parse of `pre` alone, returns normally
if and only if that one does, and otherwise fails with the same message. -/
theorem unterminated_block_comment (enums : EnumMap) (b : List Char) (lx : SmlLexer)
    (hrest : lx.rest = '/' :: '*' :: b) (hopen : ¬ ['*', '/'] <:+: b) :
    lx.next = .ok (⟨.BlockComment, '/' :: '*' :: b.takeWhile (fun x => x != NUL), lx.spanStart,
        (advance ((b.takeWhile fun x => x != NUL).length + 2) lx).spanStart⟩,
      advance ((b.takeWhile fun x => x != NUL).length + 2) lx) ∧
    (advance ((b.takeWhile fun x => x != NUL).length + 2) lx).next =
      .ok (⟨.Eof, [], (advance ((b.takeWhile fun x => x != NUL).length + 2) lx).spanStart,
          (advance ((b.takeWhile fun x => x != NUL).length + 2) lx).spanStart⟩,
        advance ((b.takeWhile fun x => x != NUL).length + 2) lx) ∧
    (NUL ∉ b →
      '/' :: '*' :: b.takeWhile (fun x => x != NUL) = lx.rest ∧
      (advance ((b.takeWhile fun x => x != NUL).length + 2) lx).rest = [] ∧
      ∀ input, lx.Over input →
        (advance ((b.takeWhile fun x => x != NUL).length + 2) lx).i_ = input.length) ∧
    (∀ pre ts, Run (mk0 (pre ++ '/' :: '*' :: b)) ts lx →
      (parseText enums (pre ++ '/' :: '*' :: b)).events = (parseText enums pre).events ∧
      (parseText enums (pre ++ '/' :: '*' :: b)).returnsNormally =
        (parseText enums pre).returnsNormally ∧
      (parseText enums (pre ++ '/' :: '*' :: b)).exception.map (fun e => e.message) =
        (parseText enums pre).exception.map (fun e => e.message)) := by
  obtain ⟨n1, n2⟩ := next_block_open hrest hopen
  have hend := dropWhile_ne_nul b
  rw [← n2] at hend
  have hend' : (advance ((b.takeWhile fun x => x != NUL).length + 2) lx).rest = [] ∨
      (advance ((b.takeWhile fun x => x != NUL).length + 2) lx).peek 0 = NUL := hend
  have n3 := next_at_nul hend'
  refine ⟨n1, n3, fun hnul => ?_, fun pre ts hreach => ?_⟩
  · have e0 := takeWhile_eq_self_of_not_mem NUL b hnul
    have hk : (b.takeWhile fun x => x != NUL).length + 2 = lx.rest.length := by
      rw [e0, hrest]; rfl
    have hr : (advance ((b.takeWhile fun x => x != NUL).length + 2) lx).rest = [] := by
      rw [advance_rest, hk]; simp
    refine ⟨by rw [e0, hrest], hr, fun input hov => ?_⟩
    have hov2 := (advance_over hov _ (Nat.le_of_eq hk)).1
    have := over_length hov2
    rw [hr] at this
    simpa using this
  · have hcm : ∀ t ∈ [(⟨.BlockComment, '/' :: '*' :: b.takeWhile (fun x => x != NUL),
        lx.spanStart, (advance ((b.takeWhile fun x => x != NUL).length + 2) lx).spanStart⟩ :
        Token)], t.type ≠ .Eof := by
      intro t ht
      rw [List.mem_singleton.1 ht]
      simp
    have t1 := tokens_of_run (Run.cons n1 (Run.nil _)) hcm (tokens_at_end hend')
    have hpk : lx.peek 0 = '/' := by rw [peek_zero_cons hrest]
    have hne := run_no_eof hreach hpk
    have tfull := tokens_of_run hreach hne t1
    have hp := run_prefix hreach pre [] ('*' :: b) rfl (by rw [hrest]; rfl)
    have hne2 : ∀ t ∈ ts, t.type ≠ .Eof := hne
    have tpre := tokens_of_run hp hne2
      (@tokens_at_end ⟨[], lx.i_, lx.line_, lx.col_⟩ (Or.inl rfl))
    have hsame : (sig (ts ++ ([] ++ [(⟨.BlockComment,
        '/' :: '*' :: b.takeWhile (fun x => x != NUL), lx.spanStart,
        (advance ((b.takeWhile fun x => x != NUL).length + 2) lx).spanStart⟩ : Token)]))).map
          Token.lexeme = (sig (ts ++ [])).map Token.lexeme := by
      simp [sig, ignorable, List.filter_append]
    obtain ⟨ev, vd⟩ := @parseText_same enums _ _ _ _ _ _ tfull tpre hsame
    obtain ⟨v1, v2⟩ := verdict_eq vd
    exact ⟨ev, v1, v2⟩

/-- C13 at the input `a {/* x`: the comment is the whole remainder, and the parse fails as the
parse of `a {` does. -/
theorem unterminated_block_comment_witness :
    (⟨"/* x".toList, 3, 1, 4⟩ : SmlLexer).next =
      .ok (⟨.BlockComment, "/* x".toList, ⟨3, 1, 4⟩, ⟨7, 1, 8⟩⟩, ⟨[], 7, 1, 8⟩) ∧
    (parseText EnumMap.empty "a \x7b/* x".toList).events =
      (parseText EnumMap.empty "a \x7b".toList).events ∧
    (parseText EnumMap.empty "a \x7b/* x".toList).exception =
      some ⟨"Expected token type mismatch".toList, ⟨7, 1, 8⟩⟩ ∧
    (parseText EnumMap.empty "a \x7b".toList).exception =
      some ⟨"Expected token type mismatch".toList, ⟨3, 1, 4⟩⟩ :=
  ⟨(unterminated_block_comment EnumMap.empty " x".toList ⟨"/* x".toList, 3, 1, 4⟩ rfl
      (by decide)).1,
    ((unterminated_block_comment EnumMap.empty " x".toList ⟨"/* x".toList, 3, 1, 4⟩ rfl
      (by decide)).2.2.2 "a \x7b".toList
      [⟨.Ident, ['a'], ⟨0, 1, 1⟩, ⟨1, 1, 2⟩⟩, ⟨.Ws, [' '], ⟨1, 1, 2⟩, ⟨2, 1, 3⟩⟩,
        ⟨.LBrace, ['{'], ⟨2, 1, 3⟩, ⟨3, 1, 4⟩⟩]
      (Run.cons rfl (Run.cons rfl (Run.cons rfl (Run.nil _))))).1,
    by decide, by decide⟩

/-- C13, the claim as stated fails: at `/*a` followed by a NUL character and `b` there is no
later `*/`, but the text of the `BlockComment` token is `/*a`, three of the five characters of
the remainder, and the cursor is left at index 3, the NUL, not at the end of the input. -/
theorem block_comment_stops_at_nul :
    (mk0 ['/', '*', 'a', NUL, 'b']).next =
      .ok (⟨.BlockComment, ['/', '*', 'a'], ⟨0, 1, 1⟩, ⟨3, 1, 4⟩⟩, ⟨[NUL, 'b'], 3, 1, 4⟩) ∧
    ¬ ['*', '/'] <:+: ['a', NUL, 'b'] ∧
    (['/', '*', 'a', NUL, 'b'] : List Char).length = 5 :=
  ⟨rfl, by decide, rfl⟩

end SmlLexer

/-! ## C17: four or more integer components -/

namespace SmlSaxParser

/-- `parseValue` on `a, b, c` followed by the significant token `t`: the value is the `Vec3i`,
and `skipIgnorables` then stops at `t`. -/
theorem parseValue_vec3 (property : List Char) {enums : EnumMap} {a c1 b c2 c t : Token}
    {lx2 lx3 lx4 lx5 lx6 lx7 : SmlLexer} (ha : a.type = .Int)
    (s3 : SmlLexer.SkipsTo lx2 c1 lx3) (h1 : c1.type = .Comma)
    (s4 : SmlLexer.SkipsTo lx3 b lx4) (hb : b.type = .Int)
    (s5 : SmlLexer.SkipsTo lx4 c2 lx5) (h2 : c2.type = .Comma)
    (s6 : SmlLexer.SkipsTo lx5 c lx6) (hc : c.type = .Int)
    (s7 : SmlLexer.SkipsTo lx6 t lx7) :
    ∃ p9, parseValue property ⟨lx2, a, enums⟩ =
        .ok (.FromVec3i (atoi a.text) (atoi b.text) (atoi c.text), p9) ∧
      skipIgnorables p9 = .ok ⟨lx7, t, enums⟩ := by
  obtain ⟨p1, e1, e2⟩ := consume_skip (p := ⟨lx2, a, enums⟩) s3
  obtain ⟨p3, e3, e4⟩ := consume_skip (p := ⟨lx3, c1, enums⟩) s4
  obtain ⟨p5, e5, e6⟩ := consume_skip (p := ⟨lx4, b, enums⟩) s5
  obtain ⟨p7, e7, e8⟩ := consume_skip (p := ⟨lx5, c2, enums⟩) s6
  obtain ⟨p9, e9, e10⟩ := consume_skip (p := ⟨lx6, c, enums⟩) s7
  refine ⟨p9, ?_, e10⟩
  unfold parseValue
  simp [ha, e1, e2, e3, e4, e5, e6, e7, e8, e9, Res.bind, h1, hb, h2, hc]

/-- C17 (as amended): four or more integer components.  In the member loops of
`parseElementBody` and `parseElement`, at a property `name : a, b, c` (ignorable tokens allowed
between the parts) whose next significant token is a further `,`: the value is resolved as the
`Vec3i` of the three `int`s `std::atoi` returns for `a`, `b` and `c`, which are the decimal
values written when these are within the 32-bit signed range; `onProperty` is emitted with that
value, and then the run fails with the generic error "Expected property or element" positioned at
the start of that further `,`, the handler keeping the `onProperty` call. -/
theorem four_components (n : Nat) (p : SmlSaxParser) (handler : List Event)
    (colon a c1 b c2 c t : Token) (lx1 lx2 lx3 lx4 lx5 lx6 lx7 : SmlLexer)
    (hid : p.lookahead_.type = .Ident)
    (s1 : SmlLexer.SkipsTo p.lexer_ colon lx1) (h0 : colon.type = .Colon)
    (s2 : SmlLexer.SkipsTo lx1 a lx2) (ha : a.type = .Int)
    (s3 : SmlLexer.SkipsTo lx2 c1 lx3) (h1 : c1.type = .Comma)
    (s4 : SmlLexer.SkipsTo lx3 b lx4) (hb : b.type = .Int)
    (s5 : SmlLexer.SkipsTo lx4 c2 lx5) (h2 : c2.type = .Comma)
    (s6 : SmlLexer.SkipsTo lx5 c lx6) (hc : c.type = .Int)
    (s7 : SmlLexer.SkipsTo lx6 t lx7) (ht : t.type = .Comma) :
    parseElementBody (n + 2) p handler =
      .error ⟨"Expected property or element".toList, t.start⟩
        (handler ++ [.onProperty p.lookahead_.text
          (.FromVec3i (atoi a.text) (atoi b.text) (atoi c.text))]) ∧
    parseElementLoop (n + 2) p handler =
      .error ⟨"Expected property or element".toList, t.start⟩
        (handler ++ [.onProperty p.lookahead_.text
          (.FromVec3i (atoi a.text) (atoi b.text) (atoi c.text))]) ∧
    (∀ x : Token, x = a ∨ x = b ∨ x = c →
      (atoiLoop 0 x.text ≤ 2147483647 → atoi x.text = atoiLoop 0 x.text) ∧
      -2147483648 ≤ atoi x.text ∧ atoi x.text ≤ 2147483647) := by
  obtain ⟨p1, e1, e2⟩ := consume_skip s1
  obtain ⟨p3, e3, e4⟩ := consume_skip (p := ⟨lx1, colon, p.enums_⟩) s2
  obtain ⟨p9, e5, e6⟩ := @parseValue_vec3 p.lookahead_.text p.enums_ a c1 b c2 c t
    lx2 lx3 lx4 lx5 lx6 lx7 ha s3 h1 s4 hb s5 h2 s6 hc s7
  have hcond : p.lookahead_.type ≠ .RBrace ∧ p.lookahead_.type ≠ .Eof := by
    rw [hid]; exact ⟨by decide, by decide⟩
  have key : parseElementBody (n + 2) p handler =
      .error ⟨"Expected property or element".toList, t.start⟩
        (handler ++ [.onProperty p.lookahead_.text
          (.FromVec3i (atoi a.text) (atoi b.text) (atoi c.text))]) := by
    rw [parseElementBody, if_pos hcond, if_neg (not_not.2 hid), e1]
    simp only [Res.on, e2, h0, if_true, e3, e4, e5, e6]
    rw [parseElementBody]
    simp [ht]
  exact ⟨key, by rw [parseElementLoop_eq, key],
    fun x _ => ⟨fun h => atoi_exact h, atoi_range x.text⟩⟩

/-- C17 at `a{p:1,2,3,4}` (the state at `p`) and the whole run on `a { p: 1, 2, 3, 4 }`: the
property is emitted as `Vec3i(1, 2, 3)` and the error is at the fourth comma-separated part. -/
theorem four_components_witness :
    parseElementBody 2
        ⟨⟨":1,2,3,4\x7d".toList, 3, 1, 4⟩, ⟨.Ident, ['p'], ⟨2, 1, 3⟩, ⟨3, 1, 4⟩⟩,
          EnumMap.empty⟩ [.startElement ['a']] =
      .error ⟨"Expected property or element".toList, ⟨9, 1, 10⟩⟩
        [.startElement ['a'], .onProperty ['p'] (.FromVec3i 1 2 3)] ∧
    parseText EnumMap.empty "a \x7b p: 1, 2, 3, 4 \x7d".toList =
      .error ⟨"Expected property or element".toList, ⟨14, 1, 15⟩⟩
        [.startElement ['a'], .onProperty ['p'] (.FromVec3i 1 2 3)] :=
  ⟨(four_components 0
      ⟨⟨":1,2,3,4\x7d".toList, 3, 1, 4⟩, ⟨.Ident, ['p'], ⟨2, 1, 3⟩, ⟨3, 1, 4⟩⟩, EnumMap.empty⟩
      [.startElement ['a']]
      ⟨.Colon, [':'], ⟨3, 1, 4⟩, ⟨4, 1, 5⟩⟩ ⟨.Int, ['1'], ⟨4, 1, 5⟩, ⟨5, 1, 6⟩⟩
      ⟨.Comma, [','], ⟨5, 1, 6⟩, ⟨6, 1, 7⟩⟩ ⟨.Int, ['2'], ⟨6, 1, 7⟩, ⟨7, 1, 8⟩⟩
      ⟨.Comma, [','], ⟨7, 1, 8⟩, ⟨8, 1, 9⟩⟩ ⟨.Int, ['3'], ⟨8, 1, 9⟩, ⟨9, 1, 10⟩⟩
      ⟨.Comma, [','], ⟨9, 1, 10⟩, ⟨10, 1, 11⟩⟩
      ⟨"1,2,3,4\x7d".toList, 4, 1, 5⟩ ⟨",2,3,4\x7d".toList, 5, 1, 6⟩
      ⟨"2,3,4\x7d".toList, 6, 1, 7⟩ ⟨",3,4\x7d".toList, 7, 1, 8⟩ ⟨"3,4\x7d".toList, 8, 1, 9⟩
      ⟨",4\x7d".toList, 9, 1, 10⟩ ⟨"4\x7d".toList, 10, 1, 11⟩
      rfl (.here rfl rfl) rfl (.here rfl rfl) rfl (.here rfl rfl) rfl (.here rfl rfl) rfl
      (.here rfl rfl) rfl (.here rfl rfl) rfl (.here rfl rfl) rfl).1,
    rfl⟩

/-- C17, the claim as stated fails: in `a{p:1,2,2147483648,4}` the property is written with the
third component 2147483648, which is no 32-bit `int`; the `onProperty` event emitted before the
error carries `Vec3i(1, 2, -2147483648)`, not the components as written. -/
theorem four_components_out_of_range :
    parseText EnumMap.empty "a\x7bp:1,2,2147483648,4\x7d".toList =
      .error ⟨"Expected property or element".toList, ⟨18, 1, 19⟩⟩
        [.startElement ['a'], .onProperty ['p'] (.FromVec3i 1 2 (-2147483648))] ∧
    atoiLoop 0 "2147483648".toList = 2147483648 ∧
    atoi "2147483648".toList = -2147483648 :=
  ⟨rfl, by decide, by decide⟩

end SmlSaxParser

/-! ## C18: termination -/

namespace SmlSaxParser

theorem fetch_left {lx : SmlLexer} {r : Token × SmlLexer} (h : lx.next = .ok r)
    (enums : EnumMap) : (⟨r.2, r.1, enums⟩ : SmlSaxParser).left ≤ lx.rest.length := by
  unfold left
  by_cases ht : r.1.type = .Eof
  · obtain ⟨e, -, -⟩ := SmlLexer.next_eof h ht
    simp only [ht, if_true, e]
    omega
  · have := SmlLexer.next_advances h ht
    simp only [ht, if_false]
    omega

theorem left_of_ne_eof {p : SmlSaxParser} (h : p.lookahead_.type ≠ .Eof) :
    p.left = p.lexer_.rest.length + 1 := by
  simp [left, h]

theorem rest_le_left (p : SmlSaxParser) : p.lexer_.rest.length ≤ p.left := by
  unfold left; omega

theorem consume_left (p : SmlSaxParser) :
    consume p ≠ .timeout ∧ ∀ a, consume p = .ok a → a.2.left ≤ p.lexer_.rest.length := by
  unfold consume
  cases h : p.lexer_.next with
  | error e => simp
  | ok r =>
    refine ⟨by simp, fun a ha => ?_⟩
    simp only [Res.ok.injEq] at ha
    rw [← ha]
    exact fetch_left h p.enums_

theorem expect_left (p : SmlSaxParser) (ty : TokenType) (hty : ty ≠ .Eof) :
    expect p ty ≠ .timeout ∧ ∀ a, expect p ty = .ok a → a.2.left < p.left := by
  unfold expect
  by_cases h : p.lookahead_.type ≠ ty
  · rw [if_pos h]; simp
  · rw [if_neg h]
    have hne : p.lookahead_.type ≠ .Eof := by rw [not_not.1 h]; exact hty
    refine ⟨(consume_left p).1, fun a ha => ?_⟩
    have := (consume_left p).2 a ha
    rw [left_of_ne_eof hne]
    omega

theorem skipLoop_left (n : Nat) : ∀ p : SmlSaxParser, p.lexer_.rest.length < n →
    skipLoop n p ≠ .timeout ∧ ∀ p', skipLoop n p = .ok p' → p'.left ≤ p.left := by
  induction n with
  | zero => intro p h; omega
  | succ n ih =>
    intro p hn
    rw [skipLoop]
    by_cases hi : ignorable p.lookahead_.type = true
    · rw [if_pos hi]
      cases hx : p.lexer_.next with
      | error e => simp
      | ok r =>
        simp only
        have hne : p.lookahead_.type ≠ .Eof := by
          intro he; rw [he] at hi; exact absurd hi (by decide)
        have hf := fetch_left hx p.enums_
        by_cases hr : ignorable r.1.type = true
        · have hre : r.1.type ≠ .Eof := by
            intro he; rw [he] at hr; exact absurd hr (by decide)
          have hlt := SmlLexer.next_advances hx hre
          obtain ⟨a, b⟩ := ih ⟨r.2, r.1, p.enums_⟩ (by simp only; omega)
          refine ⟨a, fun p' hp' => ?_⟩
          have := b p' hp'
          rw [left_of_ne_eof hne]
          omega
        · rw [skipLoop_of_significant _ _ (by simpa using hr)]
          refine ⟨by simp, fun p' hp' => ?_⟩
          simp only [Res.ok.injEq] at hp'
          rw [← hp', left_of_ne_eof hne]
          omega
    · rw [if_neg hi]
      exact ⟨by simp, fun p' hp' => by simp only [Res.ok.injEq] at hp'; rw [hp']⟩

theorem skip_left (p : SmlSaxParser) :
    skipIgnorables p ≠ .timeout ∧ ∀ p', skipIgnorables p = .ok p' → p'.left ≤ p.left :=
  skipLoop_left _ p (Nat.lt_succ_self _)

/-- `consume` followed by `skipIgnorables`. -/
theorem consume_skip_left (p : SmlSaxParser) {β : Type} (k : SmlSaxParser → Res β)
    (hk : ∀ q, q.left ≤ p.lexer_.rest.length → k q ≠ .timeout) :
    ((consume p).bind fun r => (skipIgnorables r.2).bind k) ≠ .timeout := by
  cases h1 : consume p with
  | error e => simp [Res.bind]
  | timeout => exact absurd h1 (consume_left p).1
  | ok a =>
    have ha := (consume_left p).2 a h1
    simp only [Res.bind]
    cases h2 : skipIgnorables a.2 with
    | error e => simp
    | timeout => exact absurd h2 (skip_left a.2).1
    | ok q =>
      simp only
      exact hk q (Nat.le_trans ((skip_left a.2).2 q h2) ha)

end SmlSaxParser

theorem Res.within_le {α : Type} {r : Res (α × SmlSaxParser)} {b b' : Nat}
    (h : r.within b) (hb : b ≤ b') : r.within b' :=
  ⟨h.1, fun a ha => Nat.le_trans (h.2 a ha) hb⟩

theorem Outcome.within_mono {o : Outcome} {b b' : Nat} (h : o.within b) (hb : b ≤ b') :
    o.within b' :=
  ⟨h.1, fun p handler ha => Nat.le_trans (h.2 p handler ha) hb⟩

theorem Res.bind_within {α β : Type} (r : Res α) (k : α → Res (β × SmlSaxParser))
    (P : α → Prop) (bound : Nat) (hr : r ≠ .timeout) (hP : ∀ a, r = .ok a → P a)
    (hk : ∀ a, P a → (k a).within bound) : (r.bind k).within bound := by
  cases h : r with
  | ok a => exact hk a (hP a h)
  | error e => exact ⟨by simp [Res.bind], by simp [Res.bind]⟩
  | timeout => exact absurd h hr

theorem Res.on_within {α : Type} (r : Res α) (handler : List Event) (k : α → Outcome)
    (P : α → Prop) (bound : Nat) (hr : r ≠ .timeout) (hP : ∀ a, r = .ok a → P a)
    (hk : ∀ a, P a → (k a).within bound) : (r.on handler k).within bound := by
  cases h : r with
  | ok a => exact hk a (hP a h)
  | error e => exact ⟨by simp [Res.on], by simp [Res.on]⟩
  | timeout => exact absurd h hr

theorem Outcome.andThen_within (o : Outcome) (k : SmlSaxParser → List Event → Outcome)
    (b bound : Nat) (ho : o.within b) (hk : ∀ p handler, p.left ≤ b → (k p handler).within bound) :
    (o.andThen k).within bound := by
  cases h : o with
  | ok p handler => exact hk p handler (ho.2 p handler h)
  | error e handler => exact ⟨by simp [Outcome.andThen], by simp [Outcome.andThen]⟩
  | timeout => exact absurd h ho.1

namespace SmlSaxParser

theorem ok_within {α : Type} (v : α) (q : SmlSaxParser) {bound : Nat} (h : q.left ≤ bound) :
    (Res.ok (v, q)).within bound :=
  ⟨by simp, fun a ha => by simp only [Res.ok.injEq] at ha; rw [← ha]; exact h⟩

theorem error_within {α : Type} (e : SmlParseException) (bound : Nat) :
    (Res.error e : Res (α × SmlSaxParser)).within bound :=
  ⟨by simp, by simp⟩

theorem consume_within (p : SmlSaxParser) {bound : Nat} (h : p.lexer_.rest.length ≤ bound) :
    (consume p).within bound :=
  ⟨(consume_left p).1, fun a ha => Nat.le_trans ((consume_left p).2 a ha) h⟩

theorem parseValue_left (property : List Char) (p : SmlSaxParser) :
    (parseValue property p).within p.left := by
  have hr := rest_le_left p
  have one : ∀ (f : Token × SmlSaxParser → PropertyValue),
      ((consume p).bind fun r => Res.ok (f r, r.2)).within p.left := by
    intro f
    exact Res.bind_within _ _ (fun a => a.2.left ≤ p.left) _ (consume_left p).1
      (consume_within p hr).2 (fun a ha => ok_within _ _ ha)
  have cs : ∀ (q : SmlSaxParser) (k : Token × SmlSaxParser → SmlSaxParser →
        Res (PropertyValue × SmlSaxParser)), q.left ≤ p.left →
      (∀ r q', q'.left ≤ p.left → (k r q').within p.left) →
      ((consume q).bind fun r => (skipIgnorables r.2).bind fun q' => k r q').within p.left := by
    intro q k hq hk
    refine Res.bind_within _ _ (fun a => a.2.left ≤ p.left) _ (consume_left q).1
      (consume_within q (Nat.le_trans (rest_le_left q) hq)).2 (fun r h1 => ?_)
    exact Res.bind_within _ _ (fun a => a.left ≤ p.left) _ (skip_left r.2).1
      (fun a ha => Nat.le_trans ((skip_left r.2).2 a ha) h1) (fun q' h2 => hk r q' h2)
  unfold parseValue
  by_cases c1 : p.lookahead_.type = .String
  · rw [if_pos c1]; exact one _
  rw [if_neg c1]
  by_cases c2 : p.lookahead_.type = .Float
  · rw [if_pos c2]; exact one _
  rw [if_neg c2]
  by_cases c3 : p.lookahead_.type = .Bool
  · rw [if_pos c3]; exact one _
  rw [if_neg c3]
  by_cases c4 : p.lookahead_.type = .Int
  · rw [if_pos c4]
    refine cs p _ (Nat.le_refl _) (fun r1 p2 h2 => ?_)
    split
    · exact ok_within _ _ h2
    refine cs p2 _ h2 (fun r3 p4 h4 => ?_)
    split
    · exact error_within _ _
    refine cs p4 _ h4 (fun r5 p6 h6 => ?_)
    split
    · refine cs p6 _ h6 (fun r7 p8 h8 => ?_)
      split
      · exact error_within _ _
      · exact Res.bind_within _ _ (fun a => a.2.left ≤ p.left) _ (consume_left p8).1
          (consume_within p8 (Nat.le_trans (rest_le_left p8) h8)).2
          (fun a ha => ok_within _ _ ha)
    · exact ok_within _ _ h6
  rw [if_neg c4]
  by_cases c5 : p.lookahead_.type = .Ident
  · rw [if_pos c5]
    refine Res.bind_within _ _ (fun a => a.2.left ≤ p.left) _ (consume_left p).1
      (consume_within p hr).2 (fun a ha => ?_)
    split
    · exact error_within _ _
    · exact ok_within _ _ ha
  rw [if_neg c5]
  exact error_within _ _

theorem okO_within (q : SmlSaxParser) (handler : List Event) {bound : Nat}
    (h : q.left ≤ bound) : (Outcome.ok q handler).within bound :=
  ⟨by simp, fun p h' ha => by
    simp only [Outcome.ok.injEq] at ha; rw [← ha.1]; exact h⟩

theorem errorO_within (e : SmlParseException) (handler : List Event) (bound : Nat) :
    (Outcome.error e handler).within bound :=
  ⟨by simp, by simp⟩

/-- With fuel for every token left, `parseElementBody` returns or throws, and it leaves no more
tokens than it found. -/
theorem parseElementBody_left (n : Nat) :
    ∀ (p : SmlSaxParser) (handler : List Event), p.left < n →
      (parseElementBody n p handler).within p.left := by
  induction n with
  | zero => intro p handler h; omega
  | succ n ih =>
    intro p handler hn
    rw [parseElementBody]
    split
    · next hc =>
      have hl := left_of_ne_eof hc.2
      split
      · exact errorO_within _ _ _
      refine Res.on_within _ _ _ (fun a => a.2.left + 1 ≤ p.left) _ (consume_left p).1
        (fun a ha => by have := (consume_left p).2 a ha; omega) (fun ident h1 => ?_)
      refine Res.on_within _ _ _ (fun a => a.left + 1 ≤ p.left) _ (skip_left ident.2).1
        (fun a ha => by have := (skip_left ident.2).2 a ha; omega) (fun p2 h2 => ?_)
      split
      · refine Res.on_within _ _ _ (fun a => a.2.left + 1 ≤ p.left) _ (consume_left p2).1
          (fun a ha => by
            have := (consume_left p2).2 a ha
            have := rest_le_left p2
            omega) (fun r3 h3 => ?_)
        refine Res.on_within _ _ _ (fun a => a.left + 1 ≤ p.left) _ (skip_left r3.2).1
          (fun a ha => by have := (skip_left r3.2).2 a ha; omega) (fun p4 h4 => ?_)
        refine Res.on_within _ _ _ (fun a => a.2.left + 1 ≤ p.left) _
          (parseValue_left _ p4).1
          (fun a ha => by have := (parseValue_left ident.1.text p4).2 a ha; omega)
          (fun value h5 => ?_)
        refine Res.on_within _ _ _ (fun a => a.left + 1 ≤ p.left) _ (skip_left value.2).1
          (fun a ha => by have := (skip_left value.2).2 a ha; omega) (fun p6 h6 => ?_)
        exact Outcome.within_mono (ih p6 _ (by omega)) (by omega)
      · split
        · exact errorO_within _ _ _
        refine Res.on_within _ _ _ (fun a => a.2.left + 1 ≤ p.left) _ (consume_left p2).1
          (fun a ha => by
            have := (consume_left p2).2 a ha
            have := rest_le_left p2
            omega) (fun r3 h3 => ?_)
        refine Res.on_within _ _ _ (fun a => a.left + 1 ≤ p.left) _ (skip_left r3.2).1
          (fun a ha => by have := (skip_left r3.2).2 a ha; omega) (fun p4 h4 => ?_)
        refine Outcome.andThen_within _ _ p4.left _ (ih p4 _ (by omega))
          (fun p5 handler5 h5 => ?_)
        refine Res.on_within _ _ _ (fun a => a.2.left + 1 ≤ p.left) _
          (expect_left p5 .RBrace (by decide)).1
          (fun a ha => by have := (expect_left p5 .RBrace (by decide)).2 a ha; omega)
          (fun r6 h6 => ?_)
        refine Res.on_within _ _ _ (fun a => a.left + 1 ≤ p.left) _ (skip_left r6.2).1
          (fun a ha => by have := (skip_left r6.2).2 a ha; omega) (fun p7 h7 => ?_)
        exact Outcome.within_mono (ih p7 _ (by omega)) (by omega)
    · exact okO_within _ _ (Nat.le_refl _)

/-- A member loop that makes an iteration and returns has consumed a token. -/
theorem parseElementBody_consumes (n : Nat) (p : SmlSaxParser) (handler : List Event)
    (hc : p.lookahead_.type ≠ .RBrace ∧ p.lookahead_.type ≠ .Eof) (hn : p.left < n) :
    (parseElementBody n p handler).within (p.left - 1) := by
  cases n with
  | zero => omega
  | succ n =>
    have hl := left_of_ne_eof hc.2
    rw [parseElementBody, if_pos hc]
    split
    · exact errorO_within _ _ _
    refine Res.on_within _ _ _ (fun a => a.2.left + 1 ≤ p.left) _ (consume_left p).1
      (fun a ha => by have := (consume_left p).2 a ha; omega) (fun ident h1 => ?_)
    refine Res.on_within _ _ _ (fun a => a.left + 1 ≤ p.left) _ (skip_left ident.2).1
      (fun a ha => by have := (skip_left ident.2).2 a ha; omega) (fun p2 h2 => ?_)
    split
    · refine Res.on_within _ _ _ (fun a => a.2.left + 1 ≤ p.left) _ (consume_left p2).1
        (fun a ha => by
          have := (consume_left p2).2 a ha
          have := rest_le_left p2
          omega) (fun r3 h3 => ?_)
      refine Res.on_within _ _ _ (fun a => a.left + 1 ≤ p.left) _ (skip_left r3.2).1
        (fun a ha => by have := (skip_left r3.2).2 a ha; omega) (fun p4 h4 => ?_)
      refine Res.on_within _ _ _ (fun a => a.2.left + 1 ≤ p.left) _
        (parseValue_left _ p4).1
        (fun a ha => by have := (parseValue_left ident.1.text p4).2 a ha; omega)
        (fun value h5 => ?_)
      refine Res.on_within _ _ _ (fun a => a.left + 1 ≤ p.left) _ (skip_left value.2).1
        (fun a ha => by have := (skip_left value.2).2 a ha; omega) (fun p6 h6 => ?_)
      exact Outcome.within_mono (parseElementBody_left n p6 _ (by omega)) (by omega)
    · split
      · exact errorO_within _ _ _
      refine Res.on_within _ _ _ (fun a => a.2.left + 1 ≤ p.left) _ (consume_left p2).1
        (fun a ha => by
          have := (consume_left p2).2 a ha
          have := rest_le_left p2
          omega) (fun r3 h3 => ?_)
      refine Res.on_within _ _ _ (fun a => a.left + 1 ≤ p.left) _ (skip_left r3.2).1
        (fun a ha => by have := (skip_left r3.2).2 a ha; omega) (fun p4 h4 => ?_)
      refine Outcome.andThen_within _ _ p4.left _ (parseElementBody_left n p4 _ (by omega))
        (fun p5 handler5 h5 => ?_)
      refine Res.on_within _ _ _ (fun a => a.2.left + 1 ≤ p.left) _
        (expect_left p5 .RBrace (by decide)).1
        (fun a ha => by have := (expect_left p5 .RBrace (by decide)).2 a ha; omega)
        (fun r6 h6 => ?_)
      refine Res.on_within _ _ _ (fun a => a.left + 1 ≤ p.left) _ (skip_left r6.2).1
        (fun a ha => by have := (skip_left r6.2).2 a ha; omega) (fun p7 h7 => ?_)
      exact Outcome.within_mono (parseElementBody_left n p7 _ (by omega)) (by omega)

/-- With fuel for every token left, `parseElement` returns or throws, and when it returns it has
consumed a token. -/
theorem parseElement_left (n : Nat) (p : SmlSaxParser) (handler : List Event)
    (hn : p.left ≤ n) : (parseElement n p handler).within (p.left - 1) := by
  unfold parseElement
  refine Res.on_within _ _ _ (fun a => a.2.left + 1 ≤ p.left) _
    (expect_left p .Ident (by decide)).1
    (fun a ha => by have := (expect_left p .Ident (by decide)).2 a ha; omega)
    (fun name h1 => ?_)
  refine Res.on_within _ _ _ (fun a => a.left + 1 ≤ p.left) _ (skip_left name.2).1
    (fun a ha => by have := (skip_left name.2).2 a ha; omega) (fun p2 h2 => ?_)
  refine Res.on_within _ _ _ (fun a => a.2.left + 1 ≤ p.left) _
    (expect_left p2 .LBrace (by decide)).1
    (fun a ha => by have := (expect_left p2 .LBrace (by decide)).2 a ha; omega)
    (fun r3 h3 => ?_)
  refine Res.on_within _ _ _ (fun a => a.left + 1 ≤ p.left) _ (skip_left r3.2).1
    (fun a ha => by have := (skip_left r3.2).2 a ha; omega) (fun p4 h4 => ?_)
  rw [parseElementLoop_eq]
  refine Outcome.andThen_within _ _ p4.left _ (parseElementBody_left n p4 _ (by omega))
    (fun p5 handler5 h5 => ?_)
  refine Res.on_within _ _ _ (fun a => a.2.left + 1 ≤ p.left) _
    (expect_left p5 .RBrace (by decide)).1
    (fun a ha => by have := (expect_left p5 .RBrace (by decide)).2 a ha; omega)
    (fun r6 h6 => ?_)
  exact okO_within _ _ (by omega)

theorem parseLoop_left (n : Nat) :
    ∀ (p : SmlSaxParser) (handler : List Event), p.left < n →
      (parseLoop n p handler).within p.left := by
  induction n with
  | zero => intro p handler h; omega
  | succ n ih =>
    intro p handler hn
    rw [parseLoop]
    split
    · next hc =>
      have hl := left_of_ne_eof hc
      refine Outcome.andThen_within _ _ (p.left - 1) _ (parseElement_left n p _ (by omega))
        (fun p1 handler1 h1 => ?_)
      refine Res.on_within _ _ _ (fun a => a.left + 1 ≤ p.left) _ (skip_left p1).1
        (fun a ha => by have := (skip_left p1).2 a ha; omega) (fun p2 h2 => ?_)
      exact Outcome.within_mono (ih p2 _ (by omega)) (by omega)
    · exact okO_within _ _ (Nat.le_refl _)

theorem parse_left (p : SmlSaxParser) (handler : List Event) :
    (parse p handler).within p.left := by
  unfold parse
  refine Res.on_within _ _ _ (fun a => a.left ≤ p.left) _ (skip_left p).1
    (fun a ha => (skip_left p).2 a ha) (fun p1 h1 => ?_)
  refine Outcome.within_mono (parseLoop_left _ p1 _ ?_) h1
  unfold left
  split <;> omega

end SmlSaxParser

/-- A run never runs out of fuel. -/
theorem parseText_total (enums : EnumMap) (text : List Char) :
    parseText enums text ≠ .timeout := by
  unfold parseText
  cases h : SmlSaxParser.mk0 text with
  | ok p => exact (SmlSaxParser.parse_left _ _).1
  | error e => simp [Res.on]
  | timeout =>
    unfold SmlSaxParser.mk0 at h
    split at h <;> simp at h

theorem SmlLexer.run_count {lx : SmlLexer} {ts : List Token} {lx' : SmlLexer}
    (h : SmlLexer.Run lx ts lx') :
    (ts.filter fun t => t.type != .Eof).length + lx'.rest.length ≤ lx.rest.length := by
  induction h with
  | nil l => simp
  | @cons l0 t l1 ts0 l2 hn _ ih =>
    by_cases ht : t.type = .Eof
    · have := (SmlLexer.next_eof hn ht).1
      simp only at this
      rw [this] at ih
      simpa [List.filter_cons, ht] using ih
    · have := SmlLexer.next_advances hn ht
      simp only at this
      simp only [List.filter_cons, bne_iff_ne, ne_eq, ht, not_false_eq_true, decide_True,
        if_true, List.length_cons]
      omega

/-- C18: termination.  For every input and every registry, constructing the parser and calling
`parse` returns normally or fails with an error: the fuel of the embedding is never used up, from
whatever parser state `parse` is called.
Every call of `next` that returns a token other than `Eof` strictly advances the cursor, so the
calls of `next` on an input of length `n` return at most `n` tokens other than `Eof`; every
iteration of the skip loop, every run of the member loop that enters the loop, and every
iteration of the element loop leaves strictly fewer tokens or fails. -/
theorem parse_terminates (enums : EnumMap) (text : List Char) :
    parseText enums text ≠ .timeout ∧
    ((parseText enums text).returnsNormally = true ∨
      (parseText enums text).exception.isSome = true) ∧
    (∀ (lx : SmlLexer) (r : Token × SmlLexer), lx.next = .ok r → r.1.type ≠ .Eof →
      r.1.start.index < r.1.stop.index ∧ r.2.rest.length < lx.rest.length) ∧
    (∀ ts lx, SmlLexer.Run (SmlLexer.mk0 text) ts lx →
      (ts.filter fun t => t.type != .Eof).length ≤ text.length) ∧
    (∀ p : SmlSaxParser, p.skipIgnorables ≠ .timeout ∧
      ∀ r, ignorable p.lookahead_.type = true → p.lexer_.next = .ok r →
        (⟨r.2, r.1, p.enums_⟩ : SmlSaxParser).left < p.left) ∧
    (∀ (n : Nat) (p : SmlSaxParser) (handler : List Event), p.left < n →
      SmlSaxParser.parseElementBody n p handler ≠ .timeout ∧
      SmlSaxParser.parseElementLoop n p handler ≠ .timeout ∧
      (p.lookahead_.type ≠ .RBrace ∧ p.lookahead_.type ≠ .Eof →
        ∀ p' handler', SmlSaxParser.parseElementBody n p handler = .ok p' handler' →
          p'.left < p.left)) ∧
    (∀ (n : Nat) (p : SmlSaxParser) (handler : List Event), p.left ≤ n →
      SmlSaxParser.parseElement n p handler ≠ .timeout ∧
      (p.lookahead_.type ≠ .Eof →
        ∀ p' handler', SmlSaxParser.parseElement n p handler = .ok p' handler' →
          p'.left < p.left)) ∧
    (∀ (p : SmlSaxParser) (handler : List Event), p.parse handler ≠ .timeout) := by
  have h0 := parseText_total enums text
  refine ⟨h0, ?_, fun lx r hn hne => ?_, fun ts lx hr => ?_, fun p => ⟨(p.skip_left).1, ?_⟩,
    fun n p handler hn => ⟨(SmlSaxParser.parseElementBody_left n p handler hn).1, ?_, ?_⟩,
    fun n p handler hn => ⟨(SmlSaxParser.parseElement_left n p handler hn).1, ?_⟩,
    fun p handler => (SmlSaxParser.parse_left p handler).1⟩
  · cases h : parseText enums text with
    | ok p handler => exact Or.inl rfl
    | error e handler => exact Or.inr rfl
    | timeout => exact absurd h h0
  · obtain ⟨k, hk, e1, e2, e3, e4, e5⟩ := SmlLexer.next_reads hn
    have hk0 : k ≠ 0 := fun hz => hne (e5.2 hz)
    have hi := SmlLexer.advance_index k lx hk
    rw [← e1, ← e4] at hi
    refine ⟨?_, SmlLexer.next_advances hn hne⟩
    rw [hi, e3]
    simp only [SmlLexer.spanStart]
    omega
  · have := SmlLexer.run_count hr
    have h2 : (SmlLexer.mk0 text).rest.length = text.length := rfl
    omega
  · intro r hi hn
    have hne : p.lookahead_.type ≠ .Eof := by
      intro he; rw [he] at hi; exact absurd hi (by decide)
    have := SmlSaxParser.fetch_left hn p.enums_
    rw [SmlSaxParser.left_of_ne_eof hne]
    omega
  · rw [SmlSaxParser.parseElementLoop_eq]
    exact (SmlSaxParser.parseElementBody_left n p handler hn).1
  · intro hc p' handler' hok
    have := (SmlSaxParser.parseElementBody_consumes n p handler hc hn).2 p' handler' hok
    have := SmlSaxParser.left_of_ne_eof hc.2
    omega
  · intro hc p' handler' hok
    have := (SmlSaxParser.parseElement_left n p handler hn).2 p' handler' hok
    have := SmlSaxParser.left_of_ne_eof hc
    omega

/-! ## C20: the events of a failed parse -/

theorem openElements_append (s : List (List Char)) (a b : List Event) :
    openElements s (a ++ b) = (openElements s a).bind fun s' => openElements s' b := by
  induction a generalizing s with
  | nil => simp [openElements]
  | cons e a ih =>
    cases e with
    | startElement n => simp [openElements, ih]
    | onProperty n v =>
      cases s with
      | nil => simp [openElements]
      | cons top s => simp [openElements, ih]
    | endElement n =>
      cases s with
      | nil => simp [openElements]
      | cons top s =>
        simp only [List.cons_append, openElements]
        split
        · exact ih s
        · rfl

theorem nesting_of_openElements {s s' : List (List Char)} {evs : List Event}
    (h : openElements s evs = some s') : nesting s evs = some s' := by
  induction evs generalizing s with
  | nil => simpa [openElements, nesting] using h
  | cons e evs ih =>
    cases e with
    | startElement n => exact ih (s := n :: s) h
    | onProperty n v =>
      cases s with
      | nil => simp [openElements] at h
      | cons top s => exact ih (s := top :: s) h
    | endElement n =>
      cases s with
      | nil => simp [openElements] at h
      | cons top s =>
        simp only [openElements] at h
        simp only [nesting]
        split at h
        · next hn => rw [if_pos hn]; exact ih (s := s) h
        · simp at h

theorem openElements_take {s s' : List (List Char)} {evs : List Event}
    (h : openElements s evs = some s') (k : Nat) :
    ∃ s'', openElements s (evs.take k) = some s'' := by
  have e : evs = evs.take k ++ evs.drop k := (List.take_append_drop k evs).symm
  rw [e, openElements_append] at h
  cases hx : openElements s (evs.take k) with
  | none => rw [hx] at h; simp at h
  | some s'' => exact ⟨s'', rfl⟩

theorem openElements_property {s s' : List (List Char)} {a b : List Event} {n : List Char}
    {v : PropertyValue} (h : openElements s (a ++ .onProperty n v :: b) = some s') :
    ∃ top below, openElements s a = some (top :: below) := by
  rw [openElements_append] at h
  cases hx : openElements s a with
  | none => rw [hx] at h; simp at h
  | some st =>
    rw [hx] at h
    cases st with
    | nil => simp [openElements] at h
    | cons top below => exact ⟨top, below, rfl⟩

theorem openElements_end {s s' : List (List Char)} {a b : List Event} {n : List Char}
    (h : openElements s (a ++ .endElement n :: b) = some s') :
    ∃ below, openElements s a = some (n :: below) := by
  rw [openElements_append] at h
  cases hx : openElements s a with
  | none => rw [hx] at h; simp at h
  | some st =>
    rw [hx] at h
    cases st with
    | nil => simp [openElements] at h
    | cons top below =>
      simp only [Option.some_bind, openElements] at h
      split at h
      · next hn => exact ⟨below, by rw [hn]⟩
      · simp at h

namespace SmlSaxParser

theorem Res.on_nested {α : Type} (r : Res α) (handler : List Event) (k : α → Outcome)
    (stack inner : List (List Char)) (hh : openElements [] handler = some (inner ++ stack))
    (hk : ∀ a, (k a).Nested stack) : (r.on handler k).Nested stack := by
  cases r with
  | ok a => exact hk a
  | error e => exact ⟨inner, hh⟩
  | timeout => trivial

theorem Outcome.andThen_nested (o : Outcome) (k : SmlSaxParser → List Event → Outcome)
    (mid stack inner : List (List Char)) (hm : mid = inner ++ stack) (ho : o.Nested mid)
    (hk : ∀ p handler, openElements [] handler = some mid → (k p handler).Nested stack) :
    (o.andThen k).Nested stack := by
  cases o with
  | ok p handler => exact hk p handler ho
  | error e handler =>
    obtain ⟨i2, h2⟩ := ho
    exact ⟨i2 ++ inner, by rw [h2, hm, List.append_assoc]⟩
  | timeout => trivial

theorem openElements_snoc_property {handler : List Event} {top : List Char}
    {below : List (List Char)} (h : openElements [] handler = some (top :: below))
    (n : List Char) (v : PropertyValue) :
    openElements [] (handler ++ [.onProperty n v]) = some (top :: below) := by
  rw [openElements_append, h]; rfl

theorem openElements_snoc_start {handler : List Event} {s : List (List Char)}
    (h : openElements [] handler = some s) (n : List Char) :
    openElements [] (handler ++ [.startElement n]) = some (n :: s) := by
  rw [openElements_append, h]; rfl

theorem openElements_snoc_end {handler : List Event} {s : List (List Char)} {n : List Char}
    (h : openElements [] handler = some (n :: s)) :
    openElements [] (handler ++ [.endElement n]) = some s := by
  rw [openElements_append, h]
  simp [openElements]

/-- The member loop keeps the open elements: it returns with the stack it found, and at an
exception only elements opened inside are still open. -/
theorem parseElementBody_nested (n : Nat) :
    ∀ (p : SmlSaxParser) (handler : List Event) (top : List Char) (below : List (List Char)),
      openElements [] handler = some (top :: below) →
      (parseElementBody n p handler).Nested (top :: below) := by
  induction n with
  | zero => intro p handler top below h; trivial
  | succ n ih =>
    intro p handler top below hh
    have h0 : openElements [] handler = some ([] ++ top :: below) := hh
    rw [parseElementBody]
    split
    · split
      · exact ⟨[], hh⟩
      refine Res.on_nested _ _ _ _ [] h0 (fun ident => ?_)
      refine Res.on_nested _ _ _ _ [] h0 (fun p2 => ?_)
      split
      · refine Res.on_nested _ _ _ _ [] h0 (fun r3 => ?_)
        refine Res.on_nested _ _ _ _ [] h0 (fun p4 => ?_)
        refine Res.on_nested _ _ _ _ [] h0 (fun value => ?_)
        have h1 := openElements_snoc_property hh ident.1.text value.1
        refine Res.on_nested _ _ _ _ [] h1 (fun p6 => ?_)
        exact ih p6 _ top below h1
      · split
        · exact ⟨[], hh⟩
        refine Res.on_nested _ _ _ _ [] h0 (fun r3 => ?_)
        have h1 := openElements_snoc_start hh ident.1.text
        refine Res.on_nested _ _ _ _ [ident.1.text] h1 (fun p4 => ?_)
        refine Outcome.andThen_nested _ _ (ident.1.text :: top :: below) _ [ident.1.text] rfl
          (ih p4 _ _ _ h1) (fun p5 handler5 h5 => ?_)
        refine Res.on_nested _ _ _ _ [ident.1.text] h5 (fun r6 => ?_)
        have h6 := openElements_snoc_end h5
        refine Res.on_nested _ _ _ _ [] h6 (fun p7 => ?_)
        exact ih p7 _ top below h6
    · exact hh

theorem parseElement_nested (n : Nat) (p : SmlSaxParser) (handler : List Event)
    (hh : openElements [] handler = some []) : (parseElement n p handler).Nested [] := by
  have h0 : openElements [] handler = some ([] ++ []) := hh
  unfold parseElement
  refine Res.on_nested _ _ _ _ [] h0 (fun name => ?_)
  refine Res.on_nested _ _ _ _ [] h0 (fun p2 => ?_)
  refine Res.on_nested _ _ _ _ [] h0 (fun r3 => ?_)
  have h1 := openElements_snoc_start hh name.1.text
  refine Res.on_nested _ _ _ _ [name.1.text] h1 (fun p4 => ?_)
  rw [parseElementLoop_eq]
  refine Outcome.andThen_nested _ _ [name.1.text] _ [name.1.text] rfl
    (parseElementBody_nested n p4 _ _ _ h1) (fun p5 handler5 h5 => ?_)
  refine Res.on_nested _ _ _ _ [name.1.text] h5 (fun r6 => ?_)
  exact openElements_snoc_end h5

theorem parseLoop_nested (n : Nat) :
    ∀ (p : SmlSaxParser) (handler : List Event), openElements [] handler = some [] →
      (parseLoop n p handler).Nested [] := by
  induction n with
  | zero => intro p handler h; trivial
  | succ n ih =>
    intro p handler hh
    rw [parseLoop]
    split
    · refine Outcome.andThen_nested _ _ [] _ [] rfl (parseElement_nested n p handler hh)
        (fun p1 handler1 h1 => ?_)
      refine Res.on_nested _ _ _ _ [] (show _ = some ([] ++ []) from h1) (fun p2 => ?_)
      exact ih p2 _ h1
    · exact hh

end SmlSaxParser

theorem parseText_nested (enums : EnumMap) (text : List Char) :
    (parseText enums text).Nested [] := by
  unfold parseText
  refine SmlSaxParser.Res.on_nested _ _ _ _ [] (show openElements [] [] = some ([] ++ []) from rfl)
    (fun p => ?_)
  unfold SmlSaxParser.parse
  refine SmlSaxParser.Res.on_nested _ _ _ _ []
    (show openElements [] [] = some ([] ++ []) from rfl) (fun p1 => ?_)
  exact SmlSaxParser.parseLoop_nested _ _ _ rfl

/-- C20: well-nested prefix on failure.  For every input and registry, whether `parse` returns
normally or fails with a lex or parse error, the events emitted run against the stack of open
elements without a mismatch: every `endElement(n)` closes the innermost open element and that
element was started with the name `n`, every `onProperty` comes inside an open element, and the
nesting depth of every prefix is not negative.  On normal return no element is left open. -/
theorem events_well_nested_prefix (enums : EnumMap) (text : List Char) :
    (∃ stack, openElements [] (parseText enums text).events = some stack ∧
      ((parseText enums text).returnsNormally = true → stack = [])) ∧
    (∀ k, ∃ stack, openElements [] ((parseText enums text).events.take k) = some stack ∧
      depth ((parseText enums text).events.take k) = stack.length) ∧
    (∀ k, 0 ≤ depth ((parseText enums text).events.take k)) ∧
    (∀ before name after, (parseText enums text).events = before ++ .endElement name :: after →
      ∃ below, openElements [] before = some (name :: below)) ∧
    (∀ before name value after,
      (parseText enums text).events = before ++ .onProperty name value :: after →
      ∃ top below, openElements [] before = some (top :: below) ∧ 1 ≤ depth before) := by
  have hn := parseText_nested enums text
  have hs : ∃ stack, openElements [] (parseText enums text).events = some stack ∧
      ((parseText enums text).returnsNormally = true → stack = []) := by
    cases hx : parseText enums text with
    | ok p handler =>
      rw [hx] at hn
      exact ⟨[], hn, fun _ => rfl⟩
    | error e handler =>
      rw [hx] at hn
      obtain ⟨inner, hi⟩ := hn
      exact ⟨inner ++ [], hi, fun h => by simp [Outcome.returnsNormally] at h⟩
    | timeout => exact ⟨[], rfl, fun _ => rfl⟩
  obtain ⟨stack, h1, h2⟩ := hs
  have htake : ∀ k, ∃ st, openElements [] ((parseText enums text).events.take k) = some st ∧
      depth ((parseText enums text).events.take k) = st.length := by
    intro k
    obtain ⟨st, hst⟩ := openElements_take h1 k
    have := nesting_depth (nesting_of_openElements hst)
    exact ⟨st, hst, by simpa using this⟩
  refine ⟨⟨stack, h1, h2⟩, htake, fun k => ?_, fun before name after he => ?_,
    fun before name value after he => ?_⟩
  · obtain ⟨st, -, hd⟩ := htake k
    rw [hd]; exact Int.natCast_nonneg _
  · rw [he] at h1
    exact openElements_end h1
  · rw [he] at h1
    obtain ⟨top, below, hb⟩ := openElements_property h1
    refine ⟨top, below, hb, ?_⟩
    have := nesting_depth (nesting_of_openElements hb)
    simp only [List.length_nil, List.length_cons] at this
    omega

/-- C20, an instance: the run on `a { b { c: 1 x $` fails with a lex error after three events,
which leave the elements `b` and `a` open. -/
theorem events_well_nested_prefix_example :
    parseText EnumMap.empty "a \x7b b \x7b c: 1 x $".toList =
      .error ⟨"Unexpected character '$'".toList, ⟨15, 1, 16⟩⟩
        [.startElement ['a'], .startElement ['b'], .onProperty ['c'] (.FromInt 1)] ∧
    openElements [] [.startElement ['a'], .startElement ['b'], .onProperty ['c'] (.FromInt 1)] =
      some [['b'], ['a']] := by
  exact ⟨rfl, rfl⟩

end sml
